import Mathlib

/-!
# iguana protobuf reader (`src/iguana/pb_reader.hpp`)

A shallow embedding of the proto3 wire-format reader `iguana::from_pb` and of
`iguana::detail::from_pb_impl`, `decode_pair_value` and `parse_oneof`.

* A `std::string_view` is a list of bytes (`Bytes`, every element below 256).
* The C++ templates are instantiated at a type; the embedding passes the type
  as a value of `PbType` and the object as a value of `Val`.
* A C++ call either returns or throws; the embedding returns an `Outcome`.
  The recursion of the reader is driven by a fuel argument, and a computation
  that runs out of it yields `Outcome.out_of_fuel`, distinct from a throw.
* `uint32_t` and `size_t` (64 bits) arithmetic is written with explicit `%`.

`pb_util.hpp` (included by the reader) is not part of the sources at hand:
`decode_varint`, `decode_zigzag`, `get_wire_type`, `is_lenprefix_v` and
`get_members` are modelled from the specification and marked as such.
-/

namespace Iguana

/-- Contents of a `std::string_view`: the bytes, each below 256. -/
abbrev Bytes := List Nat

/-- Exceptions the reader can raise. `Truncated` and `Overflow` are the two
failures of `decode_varint`; the others are the C++ standard exceptions thrown
in `pb_reader.hpp` (`std::invalid_argument`, `std::runtime_error`), by
`map.at` and `substr` (`std::out_of_range`) and by `std::string::resize`
(`std::length_error`). -/
inductive Exn where
  | Truncated
  | Overflow
  | invalid_argument
  | runtime_error
  | out_of_range
  | length_error
  deriving DecidableEq, Repr

/-- Result of running a piece of the reader: a normal return, a C++ throw, or
exhaustion of the fuel that drives the recursion of the embedding. -/
inductive Outcome (α : Type) where
  | ok (a : α)
  | throw (e : Exn)
  | out_of_fuel
  deriving Repr

/-- Sequencing of two computations: a throw (or fuel exhaustion) of the first
one is propagated. -/
def Outcome.bind {α β : Type} (m : Outcome α) (k : α → Outcome β) : Outcome β :=
  match m with
  | .ok a => k a
  | .throw e => .throw e
  | .out_of_fuel => .out_of_fuel

instance : Monad Outcome where
  pure := Outcome.ok
  bind := Outcome.bind

/-! ## Types and values -/

mutual
/-- The types `T` at which `from_pb_impl<T>` can be instantiated, one
constructor per `if constexpr` branch. -/
inductive PbType where
  /-- `std::is_integral_v<T>`: `int32_t`, `uint64_t`, ... (`bits` wide). -/
  | integral (bits : Nat) (signed : Bool)
  /-- `bool` (also `std::is_integral_v`). -/
  | bool
  /-- `sint32_t` / `sint64_t`; `len = sizeof(T::value_type)` is 4 or 8. -/
  | signed_varint (len : Nat)
  /-- `fixed32_t`, `fixed64_t`, `sfixed32_t`, `sfixed64_t`. -/
  | fixed (len : Nat) (signed : Bool)
  | float
  | double
  | string
  | string_view
  /-- An enumeration whose underlying type is `bits` wide. -/
  | enum (bits : Nat) (signed : Bool)
  | optional (t : PbType)
  /-- `is_sequence_container<T>`, `item` is `T::value_type`. -/
  | sequence (item : PbType)
  /-- `is_map_container<T>`. -/
  | map (key value : PbType)
  /-- `is_reflection_v<T>`: a record with the given fields. -/
  | reflection (fields : List FieldDecl)
/-- One data member of a reflected record: a plain member with its field
number, or a one-of (a `std::variant`) whose arms each have a field number. -/
inductive FieldDecl where
  | plain (field_no : Nat) (ty : PbType)
  | one_of (arms : List (Nat × PbType))
end

/-- Run-time values of the C++ objects the reader writes to. -/
inductive Val where
  /-- Integers, `bool` (0 or 1), enumerations, `sintN_t`, `(s)fixedN_t`. -/
  | int (i : Int)
  /-- Bit pattern of a `float` or `double`. -/
  | bits (n : Nat)
  /-- A `std::string`, or a `std::string_view` that lies inside the input. -/
  | str (bytes : Bytes)
  /-- A `std::string_view` of `size` bytes that extends past the end of the
  input buffer (its contents are not part of the input). -/
  | dangling (size : Nat)
  | opt (o : Option Val)
  | seq (items : List Val)
  /-- A map, as the list of its entries in order of insertion. -/
  | map (entries : List (Val × Val))
  /-- A record: the values of its members, in declaration order. -/
  | record (slots : List Val)
  /-- A `std::variant` holding alternative number `index`. -/
  | variant (index : Nat) (v : Val)

mutual
/-- Equality test on values (key comparison of the map containers). Two
`std::string_view`s that extend past the end of the input are never found
equal: such views have at least `2 ^ 64 - 10` bytes and start at different
places of the buffer, and their comparison runs over bytes outside the input,
so it ends only at a byte in which they differ. -/
def Val.beq : Val → Val → Bool
  | .int a, .int b => a == b
  | .bits a, .bits b => a == b
  | .str a, .str b => a == b
  | .opt none, .opt none => true
  | .opt (some a), .opt (some b) => Val.beq a b
  | .seq a, .seq b => Val.beqList a b
  | .map a, .map b => Val.beqPairs a b
  | .record a, .record b => Val.beqList a b
  | .variant i a, .variant j b => i == j && Val.beq a b
  | _, _ => false
/-- Pointwise `Val.beq` on lists. -/
def Val.beqList : List Val → List Val → Bool
  | [], [] => true
  | a :: as, b :: bs => Val.beq a b && Val.beqList as bs
  | _, _ => false
/-- Pointwise `Val.beq` on lists of pairs. -/
def Val.beqPairs : List (Val × Val) → List (Val × Val) → Bool
  | [], [] => true
  | (a, c) :: as, (b, d) :: bs => Val.beq a b && Val.beq c d && Val.beqPairs as bs
  | _, _ => false
end

mutual
/-- The value-initialised object of a type (`item_type item{}`): zero for the
scalars, empty for strings and containers, disengaged for an optional, and
memberwise for a record. A variant starts at its first alternative. -/
def defaultVal : PbType → Val
  | .integral _ _ => .int 0
  | .bool => .int 0
  | .signed_varint _ => .int 0
  | .fixed _ _ => .int 0
  | .float => .bits 0
  | .double => .bits 0
  | .string => .str []
  | .string_view => .str []
  | .enum _ _ => .int 0
  | .optional _ => .opt none
  | .sequence _ => .seq []
  | .map _ _ => .map []
  | .reflection fs => .record (defaultFields fs)
/-- Value-initialised members of a record. -/
def defaultFields : List FieldDecl → List Val
  | [] => []
  | f :: fs => defaultField f :: defaultFields fs
/-- Value-initialised member. -/
def defaultField : FieldDecl → Val
  | .plain _ t => defaultVal t
  | .one_of arms => .variant 0 (defaultArms arms)
/-- Value-initialised first alternative of a variant. -/
def defaultArms : List (Nat × PbType) → Val
  | [] => .int 0
  | (_, t) :: _ => defaultVal t
end

/-- `val.push_back(item)` on a sequence container. -/
def Val.push_back : Val → Val → Val
  | .seq items, item => .seq (items ++ [item])
  | v, _ => v

/-- Lookup of a key among the entries of a map. -/
def map_find (k : Val) : List (Val × Val) → Option Val
  | [] => none
  | (k1, v1) :: es => if Val.beq k1 k then some v1 else map_find k es

/-- `val.emplace(item)` on `std::map` / `std::unordered_map`: the pair is
inserted only when no entry with an equal key exists; otherwise the container
is left unchanged. -/
def Val.emplace : Val → Val × Val → Val
  | .map es, (k, v) =>
    match map_find k es with
    | some _ => .map es
    | none => .map (es ++ [(k, v)])
  | x, _ => x

/-- Entry lookup on a map value. -/
def Val.find (m : Val) (k : Val) : Option Val :=
  match m with
  | .map es => map_find k es
  | _ => none

/-- Member `i` of a record (`val.value(t)`). -/
def Val.slot : Val → Nat → Val
  | .record slots, i => slots.getD i (.int 0)
  | v, _ => v

/-- Assignment to member `i` of a record. -/
def Val.set_slot : Val → Nat → Val → Val
  | .record slots, i, v => .record (slots.set i v)
  | t, _, _ => t

/-! ## Helpers of `pb_util.hpp` -/

/-- Modelled from the spec: the loop of `decode_varint` (see below); `n` bytes
may still be read, `shift` is the bit position of the next group, `acc` the
value so far, `pos` the number of bytes read. -/
def decode_varint_go : Nat → Nat → Nat → Nat → Bytes → Outcome (Nat × Nat)
  | _, _, _, _, [] => .throw .Truncated
  | 0, _, _, _, _ :: _ => .throw .Overflow
  | n + 1, shift, acc, pos, b :: bs =>
    let acc1 := acc + (b % 128) * 2 ^ shift
    if b < 128 then
      if acc1 < 2 ^ 64 then .ok (acc1, pos + 1) else .throw .Overflow
    else decode_varint_go n (shift + 7) acc1 (pos + 1) bs

/-- Modelled from the spec: `detail::decode_varint(pb_str, pos)` of
`pb_util.hpp`, which is missing from the sources. It reads up to 10 bytes, each
contributing its 7 low bits, the top bit announcing that more bytes follow; it
fails with `Truncated` when the input ends while a continuation is pending and
with `Overflow` when more than 10 bytes are needed or the value exceeds 64
bits. The result is the value and the number of bytes read (`pos`). -/
def decode_varint (pb_str : Bytes) : Outcome (Nat × Nat) :=
  decode_varint_go 10 0 0 0 pb_str

/-- Reading of an unsigned `bits`-wide pattern as a two's complement number. -/
def to_signed (bits : Nat) (n : Nat) : Int :=
  if n % 2 ^ bits < 2 ^ (bits - 1) then (n % 2 ^ bits : Nat) else (n % 2 ^ bits : Nat) - (2 ^ bits : Nat)

/-- Modelled from the spec: `detail::decode_zigzag` of `pb_util.hpp`, missing
from the sources: `(u >> 1) ^ -(u & 1)` at a width of `bits` (32 or 64) bits,
read as a signed number. -/
def decode_zigzag (bits : Nat) (u : Nat) : Int :=
  to_signed bits (Nat.xor ((u % 2 ^ bits) >>> 1) (if u &&& 1 = 0 then 0 else 2 ^ bits - 1))

/-- Modelled from the spec: the enumeration `WireType` of `pb_util.hpp`,
missing from the sources, by its numeric values; VARINT is 0. -/
def WireType.Varint : Nat := 0

/-- Modelled from the spec: wire type I64 (1) of the 8-byte fixed kinds. -/
def WireType.Fixed64 : Nat := 1

/-- Modelled from the spec: wire type LEN (2) of the length-delimited kinds. -/
def WireType.LengthDelimeted : Nat := 2

/-- Modelled from the spec: wire type I32 (5) of the 4-byte fixed kinds. -/
def WireType.Fixed32 : Nat := 5

/-- Modelled from the spec: `detail::get_wire_type<T>()` of `pb_util.hpp`,
missing from the sources, after the table of semantic field kinds: VARINT for
the integers, `bool`, enumerations and the zig-zag kinds, I32 / I64 for the
fixed kinds and `float` / `double`, LEN for strings, nested records, repeated
fields and maps, and the wire type of the wrapped kind for an optional. -/
def get_wire_type : PbType → Nat
  | .integral _ _ => WireType.Varint
  | .bool => WireType.Varint
  | .signed_varint _ => WireType.Varint
  | .enum _ _ => WireType.Varint
  | .fixed len _ => if len = 8 then WireType.Fixed64 else WireType.Fixed32
  | .float => WireType.Fixed32
  | .double => WireType.Fixed64
  | .string => WireType.LengthDelimeted
  | .string_view => WireType.LengthDelimeted
  | .sequence _ => WireType.LengthDelimeted
  | .map _ _ => WireType.LengthDelimeted
  | .reflection _ => WireType.LengthDelimeted
  | .optional t => get_wire_type t

/-- Modelled from the spec: `is_lenprefix_v<T>` of `pb_util.hpp`, missing from
the sources: the kinds whose wire type is LEN; repeated fields of such an
element type are unpacked, the others packed. -/
def is_lenprefix_v (t : PbType) : Bool :=
  get_wire_type t == WireType.LengthDelimeted

/-- Entry of the member table of a record type: the field number, the index of
the data member it designates, the variant alternative when the member is a
one-of, and `value_type`, the type decoded for this field number. -/
structure Member where
  field_no : Nat
  slot : Nat
  arm : Option Nat
  value_type : PbType

/-- Table entries of the arms of a one-of, numbered from `i`. -/
def arm_members (slot : Nat) : Nat → List (Nat × PbType) → List Member
  | _, [] => []
  | i, (n, t) :: arms => ⟨n, slot, some i, t⟩ :: arm_members slot (i + 1) arms

/-- Table entries of the members of a record, numbered from `slot`. -/
def field_members : Nat → List FieldDecl → List Member
  | _, [] => []
  | slot, .plain n t :: fs => ⟨n, slot, none, t⟩ :: field_members (slot + 1) fs
  | slot, .one_of arms :: fs => arm_members slot 0 arms ++ field_members (slot + 1) fs

/-- Modelled from the spec: `get_members<T>()` of `pb_util.hpp`, missing from
the sources: the schema descriptor, a table from field number to field entry;
the arms of a one-of share the member they select. -/
def get_members (fs : List FieldDecl) : List Member :=
  field_members 0 fs

/-- Bounds-checked lookup `map.at(field_number)`: a key that is not in the
table raises `std::out_of_range`. -/
def members_at (ms : List Member) (field_number : Nat) : Outcome Member :=
  match ms.find? (fun m => m.field_no == field_number) with
  | some m => .ok m
  | none => .throw .out_of_range

/-- `pb_str.substr(pos)`: throws `std::out_of_range` when `pos > size()`. -/
def substr (pb_str : Bytes) (pos : Nat) : Outcome Bytes :=
  if pb_str.length < pos then .throw .out_of_range else .ok (pb_str.drop pos)

/-- Value of a little-endian byte sequence (`memcpy` into an integer on a
little-endian host). -/
def le_value : Bytes → Nat
  | [] => 0
  | b :: bs => b + 256 * le_value bs

/-- `static_cast<T>` of the 64-bit varint value to an integral type. -/
def cast_integral (bits : Nat) (signed : Bool) (v : Nat) : Int :=
  if signed then to_signed bits v else (v % 2 ^ bits : Nat)

/-! ## The reader (`pb_reader.hpp`) -/

mutual
/-- The function `detail::from_pb_impl<T>(val, pb_str, field_no)`: decodes one
value of type `T` from the front of `pb_str` into `val` and returns the new
`val` with what is left of `pb_str`. -/
def from_pb_impl : Nat → PbType → Val → Bytes → Nat → Outcome (Val × Bytes)
  | 0, _, _, _, _ => .out_of_fuel
  | fuel + 1, .reflection fs, val, pb_str, _ => do
    let (v, pos) ← decode_varint pb_str
    let size := v % 2 ^ 32
    let pb_str ← substr pb_str pos
    if pb_str.length < size then .throw .invalid_argument
    else if size = 0 then .ok (val, pb_str)
    else do
      let (val, _) ← from_pb fuel fs val (pb_str.take size)
      let pb_str ← substr pb_str size
      .ok (val, pb_str)
  | fuel + 1, .sequence item, val, pb_str, field_no =>
    if is_lenprefix_v item then
      from_pb_impl_unpacked fuel item val pb_str field_no
    else do
      let (v, pos) ← decode_varint pb_str
      let size := v % 2 ^ 32
      let pb_str ← substr pb_str pos
      if pb_str.length < size then .throw .invalid_argument
      else from_pb_impl_packed fuel item size pb_str.length val pb_str
  | fuel + 1, .map key value, val, pb_str, field_no =>
    from_pb_impl_map fuel key value val pb_str field_no
  | _ + 1, .integral bits signed, _, pb_str, _ => do
    let (v, pos) ← decode_varint pb_str
    let pb_str ← substr pb_str pos
    .ok (.int (cast_integral bits signed v), pb_str)
  | _ + 1, .bool, _, pb_str, _ => do
    let (v, pos) ← decode_varint pb_str
    let pb_str ← substr pb_str pos
    .ok (.int (if v = 0 then 0 else 1), pb_str)
  | _ + 1, .signed_varint len, _, pb_str, _ => do
    let (temp, pos) ← decode_varint pb_str
    let val := if len = 8 then decode_zigzag 64 temp else decode_zigzag 32 (temp % 2 ^ 32)
    let pb_str ← substr pb_str pos
    .ok (.int val, pb_str)
  | _ + 1, .fixed size signed, _, pb_str, _ =>
    if pb_str.length < size then .throw .invalid_argument
    else do
      let raw := le_value (pb_str.take size)
      let pb_str ← substr pb_str size
      .ok (.int (if signed then to_signed (8 * size) raw else raw), pb_str)
  | _ + 1, .float, _, pb_str, _ =>
    if pb_str.length < 4 then .throw .invalid_argument
    else do
      let raw := le_value (pb_str.take 4)
      let pb_str ← substr pb_str 4
      .ok (.bits raw, pb_str)
  | _ + 1, .double, _, pb_str, _ =>
    if pb_str.length < 8 then .throw .invalid_argument
    else do
      let raw := le_value (pb_str.take 8)
      let pb_str ← substr pb_str 8
      .ok (.bits raw, pb_str)
  | _ + 1, .string, _, pb_str, _ => do
    let (size, pos) ← decode_varint pb_str
    if pb_str.length < (pos + size) % 2 ^ 64 then .throw .invalid_argument
    -- the sum wrapped: `size` exceeds `max_size()`, so `val.resize(size)` throws
    else if pb_str.length < pos + size then .throw .length_error
    else do
      let val := Val.str ((pb_str.drop pos).take size)
      let pb_str ← substr pb_str ((size + pos) % 2 ^ 64)
      .ok (val, pb_str)
  | _ + 1, .string_view, _, pb_str, _ => do
    let (size, pos) ← decode_varint pb_str
    if pb_str.length < (pos + size) % 2 ^ 64 then .throw .invalid_argument
    else do
      -- `std::string_view(pb_str.data() + pos, size)`, no bounds check
      let val := if pb_str.length < pos + size then Val.dangling size
        else Val.str ((pb_str.drop pos).take size)
      let pb_str ← substr pb_str ((size + pos) % 2 ^ 64)
      .ok (val, pb_str)
  | fuel + 1, .enum bits signed, _, pb_str, _ => do
    let (value, pb_str) ← from_pb_impl fuel (.integral bits signed) (.int 0) pb_str 0
    .ok (value, pb_str)
  | fuel + 1, .optional t, _, pb_str, _ => do
    let (v, pb_str) ← from_pb_impl fuel t (defaultVal t) pb_str 0
    .ok (.opt (some v), pb_str)
termination_by structural fuel => fuel
/-- The `while` loop of the non-packed sequence branch of `from_pb_impl`. -/
def from_pb_impl_unpacked : Nat → PbType → Val → Bytes → Nat → Outcome (Val × Bytes)
  | 0, _, _, _, _ => .out_of_fuel
  | fuel + 1, item_type, val, pb_str, field_no =>
    if pb_str.isEmpty then .ok (val, pb_str)
    else do
      let (item, pb_str) ← from_pb_impl fuel item_type (defaultVal item_type) pb_str 0
      let val := val.push_back item
      if pb_str.isEmpty then .ok (val, pb_str)
      else do
        let (v, pos) ← decode_varint pb_str
        let key := v % 2 ^ 32
        let field_number := key >>> 3
        if field_number ≠ field_no then .ok (val, pb_str)
        else do
          let pb_str ← substr pb_str pos
          from_pb_impl_unpacked fuel item_type val pb_str field_no
termination_by structural fuel => fuel
/-- The `while` loop of the packed sequence branch of `from_pb_impl`; `size` is
the declared length and `start` the size of `pb_str` when the loop is entered.
(`start - pb_str.size()` does not wrap: an element never lengthens `pb_str`.) -/
def from_pb_impl_packed : Nat → PbType → Nat → Nat → Val → Bytes → Outcome (Val × Bytes)
  | 0, _, _, _, _, _ => .out_of_fuel
  | fuel + 1, item_type, size, start, val, pb_str =>
    if pb_str.isEmpty then .ok (val, pb_str)
    else do
      let (item, pb_str) ← from_pb_impl fuel item_type (defaultVal item_type) pb_str 0
      let val := val.push_back item
      if start - pb_str.length = size then .ok (val, pb_str)
      else from_pb_impl_packed fuel item_type size start val pb_str
termination_by structural fuel => fuel
/-- The `while` loop of the map branch of `from_pb_impl`. -/
def from_pb_impl_map : Nat → PbType → PbType → Val → Bytes → Nat → Outcome (Val × Bytes)
  | 0, _, _, _, _, _ => .out_of_fuel
  | fuel + 1, key_type, mapped_type, val, pb_str, field_no =>
    if pb_str.isEmpty then .ok (val, pb_str)
    else do
      let (v, pos) ← decode_varint pb_str
      let size := v % 2 ^ 32
      let pb_str ← substr pb_str pos
      if pb_str.length < size then .throw .invalid_argument
      else do
        let (first, pb_str) ← decode_pair_value fuel key_type (defaultVal key_type) pb_str
        let (second, pb_str) ← decode_pair_value fuel mapped_type (defaultVal mapped_type) pb_str
        let val := val.emplace (first, second)
        if pb_str.isEmpty then .ok (val, pb_str)
        else do
          let (v, pos) ← decode_varint pb_str
          let key := v % 2 ^ 32
          let field_number := key >>> 3
          if field_number ≠ field_no then .ok (val, pb_str)
          else do
            let pb_str ← substr pb_str pos
            from_pb_impl_map fuel key_type mapped_type val pb_str field_no
termination_by structural fuel => fuel
/-- The function `detail::decode_pair_value<T>(val, pb_str)`: reads a tag and,
when its wire type is the one of `T`, a value of type `T`. -/
def decode_pair_value : Nat → PbType → Val → Bytes → Outcome (Val × Bytes)
  | 0, _, _, _ => .out_of_fuel
  | fuel + 1, t, val, pb_str => do
    let (v, pos) ← decode_varint pb_str
    let key := v % 2 ^ 32
    let pb_str ← substr pb_str pos
    let wire_type := key &&& 7
    if wire_type ≠ get_wire_type t then .ok (val, pb_str)
    else from_pb_impl fuel t val pb_str 0
termination_by structural fuel => fuel
/-- The function `detail::parse_oneof(t, f, pb_str)`: decodes a value of the
arm's type and stores it in the variant as alternative `index`. -/
def parse_oneof : Nat → Nat → PbType → Nat → Bytes → Outcome (Val × Bytes)
  | 0, _, _, _, _ => .out_of_fuel
  | fuel + 1, index, item_type, field_no, pb_str => do
    let (item, pb_str) ← from_pb_impl fuel item_type (defaultVal item_type) pb_str field_no
    .ok (.variant index item, pb_str)
termination_by structural fuel => fuel
/-- The function `iguana::from_pb(t, pb_str)` at a record with fields `fs`:
returns the record and the (empty) rest of its local `pb_str`. -/
def from_pb : Nat → List FieldDecl → Val → Bytes → Outcome (Val × Bytes)
  | 0, _, _, _ => .out_of_fuel
  | fuel + 1, fs, t, pb_str =>
    if pb_str.isEmpty then .ok (t, pb_str)
    else do
      let (v, pos) ← decode_varint pb_str
      let key := v % 2 ^ 32
      let wire_type := key &&& 7
      let field_number := key >>> 3
      let pb_str ← substr pb_str pos
      let member ← members_at (get_members fs) field_number
      if wire_type ≠ get_wire_type member.value_type then .throw .runtime_error
      else do
        let (slot, pb_str) ←
          match member.arm with
          | some index => parse_oneof fuel index member.value_type member.field_no pb_str
          | none => from_pb_impl fuel member.value_type (t.slot member.slot) pb_str member.field_no
        from_pb fuel fs (t.set_slot member.slot slot) pb_str
termination_by structural fuel => fuel
end

/-! ## Schemas of the test suite (`src/test/proto/unittest_proto3.h`) and of the examples -/

/-- The record `stpb::RepeatBaseTypeMsg`; `REFLECTION` numbers the members
from 1 in declaration order. -/
def RepeatBaseTypeMsg : List FieldDecl :=
  [.plain 1 (.sequence (.integral 32 false)), .plain 2 (.sequence (.integral 64 false)),
   .plain 3 (.sequence (.integral 32 true)), .plain 4 (.sequence (.integral 64 true)),
   .plain 5 (.sequence .float), .plain 6 (.sequence .double),
   .plain 7 (.sequence .string), .plain 8 (.sequence (.enum 32 true))]

/-- A record with the single member `int32_t a` (field 1). -/
def OneInt : List FieldDecl := [.plain 1 (.integral 32 true)]

/-- A record whose member 1 is a `std::map<std::string, int32_t>`. -/
def StrI32Map : List FieldDecl := [.plain 1 (.map .string (.integral 32 true))]

/-- A record with a packed `std::vector<uint32_t>` (field 1) followed by an
`int32_t` (field 2). -/
def PackedThenInt : List FieldDecl :=
  [.plain 1 (.sequence (.integral 32 false)), .plain 2 (.integral 32 true)]

/-- A record whose member 1 is a nested record with the single member
`int32_t a`. -/
def Outer : List FieldDecl := [.plain 1 (.reflection OneInt)]

/-- A record whose member 1 is a map from `std::string_view` to `double`. -/
def ViewDoubleMap : List FieldDecl := [.plain 1 (.map .string_view .double)]

/-- A record with the two members `int32_t a` (field 1), `int32_t b` (field 2). -/
def TwoInts : List FieldDecl := [.plain 1 (.integral 32 true), .plain 2 (.integral 32 true)]

/-- A record whose member 1 is a `std::optional` of the record `TwoInts`. -/
def OptOuter : List FieldDecl := [.plain 1 (.optional (.reflection TwoInts))]

/-- A record whose member 1 is the record `TwoInts`, not optional. -/
def PlainOuter : List FieldDecl := [.plain 1 (.reflection TwoInts)]

/-- A record with a `std::map<int32_t, int32_t>` (field 1) followed by an
`int32_t` (field 2). -/
def IntMapThenInt : List FieldDecl :=
  [.plain 1 (.map (.integral 32 true) (.integral 32 true)), .plain 2 (.integral 32 true)]

/-- The record `stpb::IguanaTypeMsg`. -/
def IguanaTypeMsg : List FieldDecl :=
  [.plain 1 (.signed_varint 4), .plain 2 (.signed_varint 8), .plain 3 (.fixed 4 false),
   .plain 4 (.fixed 8 false), .plain 5 (.fixed 4 true), .plain 6 (.fixed 8 true)]

/-- A record with a one-of of an `int32_t` (field 1) and a `std::string`
(field 2), followed by an `int32_t` (field 3). -/
def OneOfMsg : List FieldDecl :=
  [.one_of [(1, .integral 32 true), (2, .string)], .plain 3 (.integral 32 true)]

/-- A record whose member 1 is a nested record with the single member
`int32_t a`, followed by an `int32_t` (field 2). -/
def NestedThenInt : List FieldDecl := [.plain 1 (.reflection OneInt), .plain 2 (.integral 32 true)]

/-- A record with a packed `std::vector<uint32_t>` (field 1) and a one-of of an
`int32_t` (field 2) and a `std::string` (field 3). -/
def PackedAndOneOf : List FieldDecl :=
  [.plain 1 (.sequence (.integral 32 false)), .one_of [(2, .integral 32 true), (3, .string)]]

/-! ## Vocabulary of the statements: encodings, tags, streams -/

/-- The bytes `enc` are an encoding of the element `e` of type `t`: they are
not empty and, given at least `f` units of fuel, `from_pb_impl` decodes `e`
from any input that starts with `enc` and leaves what follows `enc`. -/
def Encodes (f : Nat) (t : PbType) (enc : Bytes) (e : Val) : Prop :=
  enc ≠ [] ∧ ∀ fuel, f ≤ fuel → ∀ rest : Bytes,
    from_pb_impl fuel t (defaultVal t) (enc ++ rest) 0 = .ok (e, rest)

/-- The bytes `tag` are a varint whose value, reduced to 32 bits, carries the
field number `n`. -/
def IsTagOf (n : Nat) (tag : Bytes) : Prop :=
  ∃ v, (v % 2 ^ 32) >>> 3 = n ∧ ∀ rest : Bytes, decode_varint (tag ++ rest) = .ok (v, tag.length)

/-- A further occurrence of a repeated field in the stream: its tag, the
encoding of the element and the element. -/
structure Occurrence where
  tag : Bytes
  enc : Bytes
  elem : Val

/-- The stream made of the given occurrences, in order, followed by `rest`. -/
def unpacked_stream : List Occurrence → Bytes → Bytes
  | [], rest => rest
  | o :: os, rest => o.tag ++ (o.enc ++ unpacked_stream os rest)

/-- Concatenation of the encodings of the elements of a packed field. -/
def packed_slice : List (Bytes × Val) → Bytes
  | [] => []
  | p :: els => p.1 ++ packed_slice els

/-- Little-endian representation on `n` bytes of an unsigned value. -/
def le_bytes : Nat → Nat → Bytes
  | 0, _ => []
  | n + 1, v => v % 256 :: le_bytes n (v / 256)

/-- Bit pattern, on `bits` bits, of a decoded scalar: the two's complement
pattern of an integer, the stored pattern of a `float` or `double`. -/
def bit_pattern (bits : Nat) : Val → Nat
  | .int i => (i % ((2 ^ bits : Nat) : Int)).toNat
  | .bits n => n
  | _ => 0

/-- The fixed-width kinds and their size `N` in bytes: `fixed32_t`,
`sfixed32_t`, `float` (4) and `fixed64_t`, `sfixed64_t`, `double` (8). -/
def FixedKind (t : PbType) (N : Nat) : Prop :=
  ((N = 4 ∨ N = 8) ∧ ∃ signed, t = .fixed N signed) ∨ (t = .float ∧ N = 4) ∨
    (t = .double ∧ N = 8)

/-- Follows the words of the spec: `zigzag_encode(s) = (s << 1) ^ (s >> (width - 1))`
on the two's complement pattern of `s` at a width of `bits` bits; the
arithmetic shift `s >> (width - 1)` is all ones for a negative `s`, else 0. -/
def zigzag_encode (bits : Nat) (s : Int) : Nat :=
  Nat.xor (((s % ((2 ^ bits : Nat) : Int)).toNat <<< 1) % 2 ^ bits)
    (if s < 0 then 2 ^ bits - 1 else 0)

/-- The value `t` is a record that has a member number `i`. -/
def Val.has_slot (t : Val) (i : Nat) : Prop :=
  ∃ slots, t = .record slots ∧ i < slots.length

/-- One iteration of the loop of `from_pb` from the state `(t, pb_str)`: the tag
at the head of `pb_str` selects the table entry `member`, its wire type is the
one of the entry, and (with some fuel) the payload is decoded to the new value
`x` of the member, leaving `pb1`. The loop goes on from
`(t.set_slot member.slot x, pb1)`. -/
def LoopStep (fs : List FieldDecl) (t : Val) (pb_str : Bytes) (member : Member) (x : Val)
    (pb1 : Bytes) : Prop :=
  ∃ v pos f, decode_varint pb_str = .ok (v, pos) ∧
    members_at (get_members fs) ((v % 2 ^ 32) >>> 3) = .ok member ∧
    (v % 2 ^ 32) &&& 7 = get_wire_type member.value_type ∧
    (match member.arm with
      | some index => parse_oneof f index member.value_type member.field_no (pb_str.drop pos)
      | none => from_pb_impl f member.value_type (t.slot member.slot) (pb_str.drop pos)
          member.field_no) = .ok (x, pb1)

/-- Iterations of the loop of `from_pb` that lead from the state `(t, pb_str)` to
the state `(t2, pb2)` and each select a table entry that satisfies `P`. -/
inductive LoopRun (fs : List FieldDecl) (P : Member → Prop) : Val → Bytes → Val → Bytes → Prop where
  | done (t : Val) (pb_str : Bytes) : LoopRun fs P t pb_str t pb_str
  | step {t : Val} {pb_str : Bytes} {member : Member} {x : Val} {pb1 : Bytes} {t2 : Val}
      {pb2 : Bytes} (hstep : LoopStep fs t pb_str member x pb1) (hP : P member)
      (hrun : LoopRun fs P (t.set_slot member.slot x) pb1 t2 pb2) : LoopRun fs P t pb_str t2 pb2

/-- The bytes `tag` are a tag that the loop of `from_pb` resolves to the table
entry `member`, with the wire type of that entry. -/
def SelectsMember (fs : List FieldDecl) (tag : Bytes) (member : Member) : Prop :=
  ∃ v, (∀ rest : Bytes, decode_varint (tag ++ rest) = .ok (v, tag.length)) ∧
    members_at (get_members fs) ((v % 2 ^ 32) >>> 3) = .ok member ∧
    (v % 2 ^ 32) &&& 7 = get_wire_type member.value_type

/-- Layout of a stream in which the occurrences of the unpacked repeated
member `m` (elements of type `item`) are interleaved with fields of other
members. Read from the loop state `t`, the stream `pb_str` holds fields of other
members, then a run of consecutive occurrences of `m` (the tag, the first
encoding, the further occurrences), and so on, and ends with fields of other
members; `es` lists the elements of all the runs in stream order and `t2` is
the state the reading ends in. -/
inductive Interleaved (fs : List FieldDecl) (m : Member) (item : PbType) (f : Nat) :
    Val → Bytes → List Val → Val → Prop where
  | others {t : Val} {pb_str : Bytes} {t2 : Val}
      (hrun : LoopRun fs (fun m1 => m1.slot ≠ m.slot) t pb_str t2 []) :
      Interleaved fs m item f t pb_str [] t2
  | run {t : Val} {pb_str : Bytes} {t1 : Val} {tag enc1 : Bytes} {e1 : Val}
      {more : List Occurrence} {rest : Bytes} {xs es : List Val} {t2 : Val}
      (hrun : LoopRun fs (fun m1 => m1.slot ≠ m.slot) t pb_str t1
        (tag ++ (enc1 ++ unpacked_stream more rest)))
      (htag : SelectsMember fs tag m)
      (hfirst : Encodes f item enc1 e1)
      (hmore : ∀ o ∈ more, IsTagOf m.field_no o.tag ∧ Encodes f item o.enc o.elem)
      (hrest : rest = [] ∨
        ∃ v pos, decode_varint rest = .ok (v, pos) ∧ (v % 2 ^ 32) >>> 3 ≠ m.field_no)
      (hold : t1.slot m.slot = .seq xs)
      (hnext : Interleaved fs m item f
        (t1.set_slot m.slot (.seq (xs ++ e1 :: more.map (fun o => o.elem)))) rest es t2) :
      Interleaved fs m item f t pb_str (e1 :: more.map (fun o => o.elem) ++ es) t2

/-- The bytes `enc` hold the key or the value `e` of a map entry, of type `t`:
a tag and a payload from which, given at least `f` units of fuel,
`decode_pair_value` reads `e`, leaving what follows `enc`. -/
def EncodesPairValue (f : Nat) (t : PbType) (enc : Bytes) (e : Val) : Prop :=
  ∀ fuel, f ≤ fuel → ∀ rest : Bytes,
    decode_pair_value fuel t (defaultVal t) (enc ++ rest) = .ok (e, rest)

/-- The values of a fixed-width kind of `N` bytes: the integers from 0 to
`2 ^ (8 * N) - 1` for `fixedN_t`, the integers from `-2 ^ (8 * N - 1)` to
`2 ^ (8 * N - 1) - 1` for `sfixedN_t`, and the bit patterns of `8 * N` bits for
`float` and `double`. -/
def ValueOfKind (t : PbType) (N : Nat) : Val → Prop
  | .int i =>
    (t = .fixed N false ∧ 0 ≤ i ∧ i < ((2 ^ (8 * N) : Nat) : Int)) ∨
    (t = .fixed N true ∧ -((2 ^ (8 * N - 1) : Nat) : Int) ≤ i ∧ i < ((2 ^ (8 * N - 1) : Nat) : Int))
  | .bits n => (t = .float ∨ t = .double) ∧ n < 2 ^ (8 * N)
  | _ => False

/-! ## Sizes of types and the fuel that suffices -/

mutual
/-- Size of a type: the number of its constructors, an enumeration counting
for two (it is decoded through its underlying integral type). -/
def PbType.size : PbType → Nat
  | .integral _ _ => 1
  | .bool => 1
  | .signed_varint _ => 1
  | .fixed _ _ => 1
  | .float => 1
  | .double => 1
  | .string => 1
  | .string_view => 1
  | .enum _ _ => 2
  | .optional t => t.size + 1
  | .sequence item => item.size + 1
  | .map key value => key.size + value.size + 1
  | .reflection fs => sizeFields fs + 1
/-- Size of the members of a record. -/
def sizeFields : List FieldDecl → Nat
  | [] => 0
  | f :: fs => sizeField f + sizeFields fs
/-- Size of a member. -/
def sizeField : FieldDecl → Nat
  | .plain _ t => t.size
  | .one_of arms => sizeArms arms
/-- Size of the arms of a one-of. -/
def sizeArms : List (Nat × PbType) → Nat
  | [] => 0
  | (_, t) :: arms => t.size + sizeArms arms
end

mutual
/-- Well-formed types: `sizeof(T::value_type)` of a fixed-width kind is not 0
(it is 4 or 8 for the kinds of the library). -/
def PbType.wf : PbType → Bool
  | .fixed len _ => decide (0 < len)
  | .optional t => t.wf
  | .sequence item => item.wf
  | .map key value => key.wf && value.wf
  | .reflection fs => wfFields fs
  | _ => true
/-- Well-formed members of a record. -/
def wfFields : List FieldDecl → Bool
  | [] => true
  | f :: fs => wfField f && wfFields fs
/-- Well-formed member. -/
def wfField : FieldDecl → Bool
  | .plain _ t => t.wf
  | .one_of arms => wfArms arms
/-- Well-formed arms of a one-of. -/
def wfArms : List (Nat × PbType) → Bool
  | [] => true
  | (_, t) :: arms => t.wf && wfArms arms
end

/-- Fuel that suffices for a call on an input of `n` bytes at a type of size
`s`; `phase` is 1 for the loops and for the functions that call `from_pb_impl`
at the same type, 0 for `from_pb_impl`. -/
def enough_fuel (n s phase : Nat) : Nat :=
  (n + 1) * (2 * s + 2) + phase

/-! ## The loops, one iteration at a time -/

/-- The body of the `while` loop of `from_pb`, entered with a non-empty
`pb_str`: the tag, the lookup in the member table, the comparison of the wire
types and the decoding of the payload. It yields the record and `pb_str` with
which the loop is entered again. -/
def from_pb_body (fuel : Nat) (fs : List FieldDecl) (t : Val) (pb_str : Bytes) :
    Outcome (Val × Bytes) := do
  let (v, pos) ← decode_varint pb_str
  let key := v % 2 ^ 32
  let wire_type := key &&& 7
  let field_number := key >>> 3
  let pb_str ← substr pb_str pos
  let member ← members_at (get_members fs) field_number
  if wire_type ≠ get_wire_type member.value_type then .throw .runtime_error
  else do
    let (slot, pb_str) ←
      match member.arm with
      | some index => parse_oneof fuel index member.value_type member.field_no pb_str
      | none => from_pb_impl fuel member.value_type (t.slot member.slot) pb_str member.field_no
    .ok (t.set_slot member.slot slot, pb_str)

/-- The body of the `while` loop of the non-packed sequence branch, entered
with a non-empty `pb_str`. It yields the sequence, `pb_str`, and whether the
loop is entered again (`true`) or left by a `break` (`false`). -/
def unpacked_body (fuel : Nat) (item_type : PbType) (val : Val) (pb_str : Bytes)
    (field_no : Nat) : Outcome (Val × Bytes × Bool) := do
  let (item, pb_str) ← from_pb_impl fuel item_type (defaultVal item_type) pb_str 0
  let val := val.push_back item
  if pb_str.isEmpty then .ok (val, pb_str, false)
  else do
    let (v, pos) ← decode_varint pb_str
    let key := v % 2 ^ 32
    let field_number := key >>> 3
    if field_number ≠ field_no then .ok (val, pb_str, false)
    else do
      let pb_str ← substr pb_str pos
      .ok (val, pb_str, true)

/-- The body of the `while` loop of the packed sequence branch, entered with a
non-empty `pb_str`. It yields the sequence, `pb_str`, and whether the loop is
entered again (`true`) or left by the `break` (`false`). -/
def packed_body (fuel : Nat) (item_type : PbType) (size start : Nat) (val : Val)
    (pb_str : Bytes) : Outcome (Val × Bytes × Bool) := do
  let (item, pb_str) ← from_pb_impl fuel item_type (defaultVal item_type) pb_str 0
  let val := val.push_back item
  if start - pb_str.length = size then .ok (val, pb_str, false)
  else .ok (val, pb_str, true)

/-- The body of the `while` loop of the map branch, entered with a non-empty
`pb_str`. It yields the map, `pb_str`, and whether the loop is entered again
(`true`) or left by a `break` (`false`). -/
def map_body (fuel : Nat) (key_type mapped_type : PbType) (val : Val) (pb_str : Bytes)
    (field_no : Nat) : Outcome (Val × Bytes × Bool) := do
  let (v, pos) ← decode_varint pb_str
  let size := v % 2 ^ 32
  let pb_str ← substr pb_str pos
  if pb_str.length < size then .throw .invalid_argument
  else do
    let (first, pb_str) ← decode_pair_value fuel key_type (defaultVal key_type) pb_str
    let (second, pb_str) ← decode_pair_value fuel mapped_type (defaultVal mapped_type) pb_str
    let val := val.emplace (first, second)
    if pb_str.isEmpty then .ok (val, pb_str, false)
    else do
      let (v, pos) ← decode_varint pb_str
      let key := v % 2 ^ 32
      let field_number := key >>> 3
      if field_number ≠ field_no then .ok (val, pb_str, false)
      else do
        let pb_str ← substr pb_str pos
        .ok (val, pb_str, true)

/-- The start of the nested-record branch of `from_pb_impl`: the length prefix
is read and checked; the result is the buffer `pb_str.substr(0, size)` for the
nested `from_pb` and `pb_str.substr(size)`, with which the caller goes on. -/
def nested_slice (pb_str : Bytes) : Outcome (Bytes × Bytes) := do
  let (v, pos) ← decode_varint pb_str
  let size := v % 2 ^ 32
  let pb_str ← substr pb_str pos
  if pb_str.length < size then .throw .invalid_argument
  else .ok (pb_str.take size, pb_str.drop size)

/-! ## Fuel -/

/-- Order on outcomes: running out of fuel is below every outcome, and an
outcome that is not a lack of fuel is only below itself. -/
def Outcome.le {α : Type} (r r1 : Outcome α) : Prop :=
  r = .out_of_fuel ∨ r = r1

/-- One more unit of fuel does not change an outcome other than a lack of
fuel, for each function of the reader. -/
def FuelMono (n : Nat) : Prop :=
  (∀ t val s no, (from_pb_impl n t val s no).le (from_pb_impl (n + 1) t val s no)) ∧
  (∀ t val s no, (from_pb_impl_unpacked n t val s no).le (from_pb_impl_unpacked (n + 1) t val s no)) ∧
  (∀ t sz st val s, (from_pb_impl_packed n t sz st val s).le (from_pb_impl_packed (n + 1) t sz st val s)) ∧
  (∀ kt vt val s no, (from_pb_impl_map n kt vt val s no).le (from_pb_impl_map (n + 1) kt vt val s no)) ∧
  (∀ t val s, (decode_pair_value n t val s).le (decode_pair_value (n + 1) t val s)) ∧
  (∀ i t no s, (parse_oneof n i t no s).le (parse_oneof (n + 1) i t no s)) ∧
  (∀ fs t s, (from_pb n fs t s).le (from_pb (n + 1) fs t s))

/-- No function of the reader returns a `pb_str` longer than the one it got. -/
def NoLonger (n : Nat) : Prop :=
  (∀ t val s no val1 rest, from_pb_impl n t val s no = .ok (val1, rest) →
    rest.length ≤ s.length) ∧
  (∀ t val s no val1 rest, from_pb_impl_unpacked n t val s no = .ok (val1, rest) →
    rest.length ≤ s.length) ∧
  (∀ t sz st val s val1 rest, from_pb_impl_packed n t sz st val s = .ok (val1, rest) →
    rest.length ≤ s.length) ∧
  (∀ kt vt val s no val1 rest, from_pb_impl_map n kt vt val s no = .ok (val1, rest) →
    rest.length ≤ s.length) ∧
  (∀ t val s val1 rest, decode_pair_value n t val s = .ok (val1, rest) →
    rest.length < s.length) ∧
  (∀ i t no s val1 rest, parse_oneof n i t no s = .ok (val1, rest) →
    rest.length ≤ s.length)

/-- With more than `enough_fuel` units of fuel no function of the reader runs
out of fuel, for well-formed types. -/
def Terminates (n : Nat) : Prop :=
  (∀ t val s no, t.wf = true → enough_fuel s.length t.size 0 < n →
    from_pb_impl n t val s no ≠ .out_of_fuel) ∧
  (∀ t val s no, t.wf = true → enough_fuel s.length t.size 1 < n →
    from_pb_impl_unpacked n t val s no ≠ .out_of_fuel) ∧
  (∀ t sz st val s, t.wf = true → is_lenprefix_v t = false →
    enough_fuel s.length t.size 1 < n → from_pb_impl_packed n t sz st val s ≠ .out_of_fuel) ∧
  (∀ kt vt val s no, kt.wf = true → vt.wf = true →
    enough_fuel s.length (kt.size + vt.size) 1 < n →
    from_pb_impl_map n kt vt val s no ≠ .out_of_fuel) ∧
  (∀ t val s, t.wf = true → enough_fuel s.length t.size 1 < n →
    decode_pair_value n t val s ≠ .out_of_fuel) ∧
  (∀ i t no s, t.wf = true → enough_fuel s.length t.size 1 < n →
    parse_oneof n i t no s ≠ .out_of_fuel) ∧
  (∀ fs t s, wfFields fs = true → enough_fuel s.length (sizeFields fs) 1 < n →
    from_pb n fs t s ≠ .out_of_fuel)

/-! ## Basic facts -/

@[simp] theorem Outcome.ok_bind {α β : Type} (a : α) (k : α → Outcome β) :
    (Outcome.ok a >>= k) = k a := rfl

@[simp] theorem Outcome.throw_bind {α β : Type} (e : Exn) (k : α → Outcome β) :
    ((Outcome.throw e : Outcome α) >>= k) = Outcome.throw e := rfl

@[simp] theorem Outcome.out_of_fuel_bind {α β : Type} (k : α → Outcome β) :
    ((Outcome.out_of_fuel : Outcome α) >>= k) = Outcome.out_of_fuel := rfl

/-- A sequence of two computations returns only if both do. -/
theorem Outcome.bind_eq_ok {α β : Type} {m : Outcome α} {k : α → Outcome β} {b : β}
    (h : (m >>= k) = Outcome.ok b) : ∃ a, m = Outcome.ok a ∧ k a = Outcome.ok b := by
  cases m with
  | ok a => exact ⟨a, rfl, h⟩
  | throw e => cases h
  | out_of_fuel => cases h

/-- The loop of `decode_varint` reads at least one byte and no more than the
input holds. -/
theorem decode_varint_go_pos (s : Bytes) : ∀ (n shift acc p v pos : Nat),
    decode_varint_go n shift acc p s = .ok (v, pos) → p < pos ∧ pos ≤ p + s.length := by
  induction s with
  | nil => intro n shift acc p v pos h; simp [decode_varint_go] at h
  | cons b bs ih =>
    intro n shift acc p v pos h
    cases n with
    | zero => simp [decode_varint_go] at h
    | succ n =>
      simp only [decode_varint_go] at h
      split at h
      · split at h
        · cases h; simp
        · cases h
      · have := ih _ _ _ _ _ _ h
        simp only [List.length_cons]
        omega

/-- The function `decode_varint` reads at least one byte and no more than the
input holds. -/
theorem decode_varint_pos {s : Bytes} {v pos : Nat} (h : decode_varint s = .ok (v, pos)) :
    0 < pos ∧ pos ≤ s.length := by
  have := decode_varint_go_pos s _ _ _ _ _ _ h
  omega

theorem substr_ok {s : Bytes} {pos : Nat} (h : pos ≤ s.length) :
    substr s pos = .ok (s.drop pos) := by
  simp [substr, Nat.not_lt.mpr h]

theorem members_at_none {ms : List Member} {n : Nat}
    (h : ∀ m ∈ ms, m.field_no ≠ n) : members_at ms n = .throw .out_of_range := by
  have : ms.find? (fun m => m.field_no == n) = none := by
    rw [List.find?_eq_none]
    intro m hm
    simpa using h m hm
  simp [members_at, this]

/-! ## More fuel, same outcome -/

theorem Outcome.le_refl {α : Type} (r : Outcome α) : r.le r := Or.inr rfl

theorem Outcome.bind_mono {α β : Type} {m m1 : Outcome α} {k k1 : α → Outcome β}
    (hm : m.le m1) (hk : ∀ a, (k a).le (k1 a)) : (m >>= k).le (m1 >>= k1) := by
  rcases hm with rfl | rfl
  · exact Or.inl rfl
  · cases m with
    | ok a => exact hk a
    | throw e => exact Or.inr rfl
    | out_of_fuel => exact Or.inl rfl

theorem fuelMono (n : Nat) : FuelMono n := by
  induction n with
  | zero =>
    refine ⟨?_, ?_, ?_, ?_, ?_, ?_, ?_⟩ <;> intros <;> exact Or.inl (by simp [from_pb_impl, from_pb_impl_unpacked, from_pb_impl_packed, from_pb_impl_map, decode_pair_value, parse_oneof, from_pb])
  | succ n ih =>
    obtain ⟨h1, h2, h3, h4, h5, h6, h7⟩ := ih
    refine ⟨?_, ?_, ?_, ?_, ?_, ?_, ?_⟩
    · intro t val s no
      cases t <;> simp only [from_pb_impl] <;>
        repeat' first
          | exact Outcome.le_refl _
          | exact h1 _ _ _ _
          | exact h2 _ _ _ _
          | exact h3 _ _ _ _ _
          | exact h4 _ _ _ _ _
          | exact h7 _ _ _
          | apply Outcome.bind_mono
          | intro _
          | split
    · intro t val s no
      simp only [from_pb_impl_unpacked]
      repeat' first
        | exact Outcome.le_refl _
        | exact h1 _ _ _ _
        | exact h2 _ _ _ _
        | apply Outcome.bind_mono
        | intro _
        | split
    · intro t sz st val s
      simp only [from_pb_impl_packed]
      repeat' first
        | exact Outcome.le_refl _
        | exact h1 _ _ _ _
        | exact h3 _ _ _ _ _
        | apply Outcome.bind_mono
        | intro _
        | split
    · intro kt vt val s no
      simp only [from_pb_impl_map]
      repeat' first
        | exact Outcome.le_refl _
        | exact h5 _ _ _
        | exact h4 _ _ _ _ _
        | apply Outcome.bind_mono
        | intro _
        | split
    · intro t val s
      simp only [decode_pair_value]
      repeat' first
        | exact Outcome.le_refl _
        | exact h1 _ _ _ _
        | apply Outcome.bind_mono
        | intro _
        | split
    · intro i t no s
      simp only [parse_oneof]
      repeat' first
        | exact Outcome.le_refl _
        | exact h1 _ _ _ _
        | apply Outcome.bind_mono
        | intro _
    · intro fs t s
      simp only [from_pb]
      repeat' first
        | exact Outcome.le_refl _
        | exact h1 _ _ _ _
        | exact h6 _ _ _ _
        | exact h7 _ _ _
        | apply Outcome.bind_mono
        | intro _
        | split

theorem Outcome.le_trans {α : Type} {a b c : Outcome α} (h1 : a.le b) (h2 : b.le c) : a.le c := by
  rcases h1 with rfl | rfl
  · exact Or.inl rfl
  · exact h2

/-- More fuel does not change the outcome of `from_pb_impl`, unless it was a
lack of fuel. -/
theorem from_pb_impl_fuel_le {n m : Nat} (h : n ≤ m) (t : PbType) (val : Val) (s : Bytes)
    (no : Nat) : (from_pb_impl n t val s no).le (from_pb_impl m t val s no) := by
  induction h with
  | refl => exact Outcome.le_refl _
  | step _ ih => exact Outcome.le_trans ih ((fuelMono _).1 t val s no)

theorem Outcome.le_ok {α : Type} {a b : Outcome α} {x : α} (h : a.le b) (ha : a = .ok x) :
    b = .ok x := by
  rcases h with h | h
  · rw [ha] at h; cases h
  · rw [← h, ha]

/-- More fuel does not change the outcome of `from_pb`, unless it was a lack of
fuel. -/
theorem from_pb_fuel_le {n m : Nat} (h : n ≤ m) (fs : List FieldDecl) (t : Val) (s : Bytes) :
    (from_pb n fs t s).le (from_pb m fs t s) := by
  induction h with
  | refl => exact Outcome.le_refl _
  | step _ ih => exact Outcome.le_trans ih ((fuelMono _).2.2.2.2.2.2 fs t s)

/-! ## C1: unknown field numbers -/

/-- C1, as stated, fails: the stream `08 01` decodes to `a = 1`, but with the
unknown field `B8 06 2A` (tag 824: field 103, a varint of value 42) in front, the reader
throws `std::out_of_range` instead of skipping it. -/
theorem c1_unknown_field_counterexample :
    from_pb 5 OneInt (.record [.int 0]) [0x08, 0x01] = .ok (.record [.int 1], []) ∧
    from_pb 5 OneInt (.record [.int 0]) [0xB8, 0x06, 0x2A, 0x08, 0x01] = .throw .out_of_range := by
  constructor <;> rfl

/-- C1 (amended): a tag whose field number is not in the member table of the
record makes `from_pb` throw `std::out_of_range` (from `map.at`), whatever the
target holds and whatever follows the tag: unknown fields are not skipped. -/
theorem c1_unknown_field_throws (fuel : Nat) (fs : List FieldDecl) (t : Val) (pb_str : Bytes)
    (v pos : Nat) (htag : decode_varint pb_str = .ok (v, pos))
    (hunknown : ∀ m ∈ get_members fs, m.field_no ≠ (v % 2 ^ 32) >>> 3) :
    from_pb (fuel + 1) fs t pb_str = .throw .out_of_range := by
  have hpos := decode_varint_pos htag
  have hne : pb_str.isEmpty = false := by
    cases pb_str with
    | nil => simp at hpos; omega
    | cons b bs => rfl
  simp only [from_pb, hne, htag, Outcome.ok_bind, substr_ok hpos.2, members_at_none hunknown,
    Outcome.throw_bind]
  simp

theorem c1_unknown_field_throws_witness :
    from_pb (4 + 1) OneInt (.record [.int 0]) [0xB8, 0x06, 0x2A, 0x08, 0x01]
      = .throw .out_of_range :=
  c1_unknown_field_throws 4 OneInt (.record [.int 0]) [0xB8, 0x06, 0x2A, 0x08, 0x01] 824 2
    (by rfl) (by decide)

/-! ## C7: wire-type validation -/

/-- When the field number of a tag read by the loop of `from_pb` is in the
member table and the wire type of the tag differs from the wire type of the
member's declared type, `from_pb` throws (`std::runtime_error`), whatever the
bytes after the tag are: the payload is not decoded. -/
theorem from_pb_wire_type_mismatch_throws (fuel : Nat) (fs : List FieldDecl) (t : Val)
    (pb_str : Bytes) (v pos : Nat) (member : Member)
    (htag : decode_varint pb_str = .ok (v, pos))
    (hmem : members_at (get_members fs) ((v % 2 ^ 32) >>> 3) = .ok member)
    (hwire : (v % 2 ^ 32) &&& 7 ≠ get_wire_type member.value_type) :
    from_pb (fuel + 1) fs t pb_str = .throw .runtime_error := by
  have hpos := decode_varint_pos htag
  have hne : pb_str.isEmpty = false := by
    cases pb_str with
    | nil => simp at hpos; omega
    | cons b bs => rfl
  simp only [from_pb, hne, htag, Outcome.ok_bind, substr_ok hpos.2, hmem]
  rw [if_pos hwire]
  rfl

theorem from_pb_wire_type_mismatch_example :
    from_pb (4 + 1) OneInt (.record [.int 0]) [0x0A, 0x01, 0x61] = .throw .runtime_error :=
  from_pb_wire_type_mismatch_throws 4 OneInt (.record [.int 0]) [0x0A, 0x01, 0x61] 10 1
    ⟨1, 0, none, .integral 32 true⟩ (by rfl) (by rfl) (by decide)

/-- C7 fails on the code for a tag read between the elements of an unpacked
repeated field. In `3A 01 61 3D 03 62 63 64` the second tag `3D` carries field
7 (`repeated_string`, of wire type 2) with wire type 5; it is accepted and
`"bcd"` is decoded into the target. The same tag at the head of the stream,
read by the loop of `from_pb`, makes `from_pb` throw. -/
theorem c7_unchecked_tag_between_elements :
    decode_varint [0x3D, 0x03, 0x62, 0x63, 0x64] = .ok (0x3D, 1) ∧
    (0x3D % 2 ^ 32) >>> 3 = 7 ∧ (0x3D % 2 ^ 32) &&& 7 = 5 ∧
    get_wire_type (.sequence .string) = 2 ∧
    from_pb 10 RepeatBaseTypeMsg (defaultVal (.reflection RepeatBaseTypeMsg))
        [0x3A, 0x01, 0x61, 0x3D, 0x03, 0x62, 0x63, 0x64]
      = .ok (.record [.seq [], .seq [], .seq [], .seq [], .seq [], .seq [],
          .seq [.str [0x61], .str [0x62, 0x63, 0x64]], .seq []], []) ∧
    from_pb 10 RepeatBaseTypeMsg (defaultVal (.reflection RepeatBaseTypeMsg))
        [0x3D, 0x03, 0x62, 0x63, 0x64]
      = .throw .runtime_error := by
  refine ⟨by rfl, by decide, by decide, by rfl, by rfl, by rfl⟩

/-! ## C2: duplicate keys of a map -/

theorem map_find_append {k x : Val} {es : List (Val × Val)} (e : Val × Val)
    (h : map_find k es = some x) : map_find k (es ++ [e]) = some x := by
  induction es with
  | nil => simp [map_find] at h
  | cons a es ih =>
    obtain ⟨k1, v1⟩ := a
    simp only [map_find, List.cons_append] at h ⊢
    split
    · simpa [*] using h
    · simp only [*] at h
      exact ih (by simpa using h)

/-- An entry that a map holds is still there, with the same value, after
`emplace`. -/
theorem emplace_find {val k x : Val} (item : Val × Val) (h : val.find k = some x) :
    (val.emplace item).find k = some x := by
  cases val <;> try (simp [Val.find] at h)
  rename_i es
  obtain ⟨k2, v2⟩ := item
  simp only [Val.emplace]
  split
  · simpa [Val.find] using h
  · simpa [Val.find] using map_find_append (k2, v2) h

/-- The loop of the map branch never changes the value of a key that the map
already holds. -/
theorem from_pb_impl_map_find (fuel : Nat) : ∀ (kt vt : PbType) (val : Val) (pb_str : Bytes)
    (field_no : Nat) (val1 : Val) (rest : Bytes),
    from_pb_impl_map fuel kt vt val pb_str field_no = .ok (val1, rest) →
    ∀ k x, val.find k = some x → val1.find k = some x := by
  induction fuel with
  | zero => intro kt vt val pb_str field_no val1 rest h; simp [from_pb_impl_map] at h
  | succ fuel ih =>
    intro kt vt val pb_str field_no val1 rest h k x hk
    simp only [from_pb_impl_map] at h
    split at h
    · cases h; exact hk
    obtain ⟨⟨v, pos⟩, -, h⟩ := Outcome.bind_eq_ok h
    obtain ⟨s1, -, h⟩ := Outcome.bind_eq_ok h
    split at h
    · cases h
    obtain ⟨⟨first, s2⟩, -, h⟩ := Outcome.bind_eq_ok h
    obtain ⟨⟨second, s3⟩, -, h⟩ := Outcome.bind_eq_ok h
    have hk1 := emplace_find (first, second) hk
    split at h
    · cases h; exact hk1
    obtain ⟨⟨v2, pos2⟩, -, h⟩ := Outcome.bind_eq_ok h
    split at h
    · cases h; exact hk1
    obtain ⟨s4, -, h⟩ := Outcome.bind_eq_ok h
    exact ih _ _ _ _ _ _ _ h k x hk1

/-- C2, as stated, fails: the stream carries the entry `("k1", 5)` and then the
entry `("k1", 6)` for the map at field 1; the decoded map holds 5 at `"k1"`,
not 6. -/
theorem c2_last_write_counterexample :
    from_pb 10 StrI32Map (.record [.map []])
        [0x0A, 0x06, 0x0A, 0x02, 0x6B, 0x31, 0x10, 0x05,
         0x0A, 0x06, 0x0A, 0x02, 0x6B, 0x31, 0x10, 0x06]
      = .ok (.record [.map [(.str [0x6B, 0x31], .int 5)]], []) ∧
    Val.find (.map [(.str [0x6B, 0x31], .int 5)]) (.str [0x6B, 0x31]) = some (.int 5) ∧
    Val.find (.map [(.str [0x6B, 0x31], .int 5)]) (.str [0x6B, 0x31]) ≠ some (.int 6) := by
  refine ⟨by rfl, by rfl, ?_⟩
  simp [Val.find, map_find, Val.beq]

/-- More fuel does not change the outcome of `decode_pair_value`, unless it was
a lack of fuel. -/
theorem decode_pair_value_fuel_le {n m : Nat} (h : n ≤ m) (t : PbType) (val : Val) (s : Bytes) :
    (decode_pair_value n t val s).le (decode_pair_value m t val s) := by
  induction h with
  | refl => exact Outcome.le_refl _
  | step _ ih => exact Outcome.le_trans ih ((fuelMono _).2.2.2.2.1 t val s)

/-- What `decode_pair_value` returns on an encoding, with any fuel, is the
encoded key or value. -/
theorem decode_pair_value_of_encodes {f : Nat} {t : PbType} {enc : Bytes} {e : Val}
    (henc : EncodesPairValue f t enc e) {fuel : Nat} {rest : Bytes} {x : Val} {r : Bytes}
    (h : decode_pair_value fuel t (defaultVal t) (enc ++ rest) = .ok (x, r)) :
    x = e ∧ r = rest := by
  have h1 := Outcome.le_ok (decode_pair_value_fuel_le (Nat.le_max_left fuel f) t
    (defaultVal t) (enc ++ rest)) h
  rw [henc _ (Nat.le_max_right fuel f) rest] at h1
  cases h1
  exact ⟨rfl, rfl⟩

/-- A new key is found, with its value, after its insertion. -/
theorem map_find_append_new {k v : Val} {es : List (Val × Val)} (hself : Val.beq k k = true)
    (h : map_find k es = none) : map_find k (es ++ [(k, v)]) = some v := by
  induction es with
  | nil => simp [map_find, hself]
  | cons a es ih =>
    obtain ⟨k1, v1⟩ := a
    simp only [map_find, List.cons_append] at h ⊢
    split
    · simp [*] at h
    · simp only [*] at h
      exact ih (by simpa using h)

/-- C2 (amended): first write wins. The input of the map branch starts with an
entry made of its length `len`, the key field `kenc` (the key `k`) and the
value field `venc` (the value `v1`), and the map does not hold `k` yet.
Whatever follows the entry, for instance a later entry with the same key and
another value: whenever `from_pb_impl` returns, the map holds `v1` at `k`, and
every key that the map held on entry is still mapped to the same value. (The
key is one that compares equal to itself: an integer, or a string inside the
input.) -/
theorem c2_map_first_write_wins (fuel f : Nat) (kt vt : PbType) (es : List (Val × Val))
    (len kenc venc rest : Bytes) (k v1 : Val) (field_no : Nat) (val1 : Val) (rest1 : Bytes)
    (hlen : ∃ v, (∀ r : Bytes, decode_varint (len ++ r) = .ok (v, len.length)) ∧
      v % 2 ^ 32 = (kenc ++ venc).length)
    (hk : EncodesPairValue f kt kenc k) (hv : EncodesPairValue f vt venc v1)
    (hself : Val.beq k k = true)
    (hnew : map_find k es = none)
    (hdec : from_pb_impl fuel (.map kt vt) (.map es) (len ++ (kenc ++ (venc ++ rest))) field_no
      = .ok (val1, rest1)) :
    val1.find k = some v1 ∧ ∀ k0 x, map_find k0 es = some x → val1.find k0 = some x := by
  obtain ⟨v, hv0, hsize⟩ := hlen
  cases fuel with
  | zero => simp [from_pb_impl] at hdec
  | succ fuel =>
    simp only [from_pb_impl] at hdec
    refine ⟨?_, fun k0 x h0 => from_pb_impl_map_find fuel _ _ _ _ _ _ _ hdec k0 x h0⟩
    cases fuel with
    | zero => simp [from_pb_impl_map] at hdec
    | succ fuel =>
      have hpos := decode_varint_pos (hv0 (kenc ++ (venc ++ rest)))
      have hne : (len ++ (kenc ++ (venc ++ rest))).isEmpty = false := by
        cases len with
        | nil => simp at hpos
        | cons b bs => rfl
      have hsub : substr (len ++ (kenc ++ (venc ++ rest))) len.length
          = .ok (kenc ++ (venc ++ rest)) := by
        rw [substr_ok (by simp)]
        simp
      have hfits : ¬ (kenc ++ (venc ++ rest)).length < v % 2 ^ 32 := by
        simp only [List.length_append] at hsize ⊢
        omega
      simp only [from_pb_impl_map, hne, hv0, Outcome.ok_bind, hsub] at hdec
      rw [if_neg (by simp), if_neg hfits] at hdec
      obtain ⟨⟨first, s1⟩, hfirst, h⟩ := Outcome.bind_eq_ok hdec
      obtain ⟨rfl, rfl⟩ := decode_pair_value_of_encodes hk hfirst
      obtain ⟨⟨second, s2⟩, hsecond, h⟩ := Outcome.bind_eq_ok h
      obtain ⟨rfl, rfl⟩ := decode_pair_value_of_encodes hv hsecond
      have hheld : (Val.emplace (.map es) (first, second)).find first = some second := by
        simp only [Val.emplace, hnew, Val.find]
        exact map_find_append_new hself hnew
      try dsimp only at h
      split at h
      · cases h; exact hheld
      obtain ⟨⟨v2, pos2⟩, -, h⟩ := Outcome.bind_eq_ok h
      try dsimp only at h
      split at h
      · cases h; exact hheld
      obtain ⟨s4, -, h⟩ := Outcome.bind_eq_ok h
      exact from_pb_impl_map_find _ _ _ _ _ _ _ _ h _ _ hheld

/-- The key `"k1"` of a map entry is encoded as `0A 02 6B 31`. -/
theorem encodes_key_k1 : EncodesPairValue 2 .string [0x0A, 0x02, 0x6B, 0x31] (.str [0x6B, 0x31]) := by
  intro fuel hfuel rest
  obtain ⟨fuel, rfl⟩ : ∃ k, fuel = k + 2 := ⟨fuel - 2, by omega⟩
  have hlen : ¬ (rest.length + 1 + 1 + 1 < 3) := by omega
  have hwire : (10 : Nat) &&& 7 = 2 := by decide
  simp [decode_pair_value, from_pb_impl, decode_varint, decode_varint_go, substr, get_wire_type,
    WireType.LengthDelimeted, defaultVal, hlen, hwire]

/-- The `int32_t` value 5 of a map entry is encoded as `10 05`. -/
theorem encodes_value_5 : EncodesPairValue 2 (.integral 32 true) [0x10, 0x05] (.int 5) := by
  intro fuel hfuel rest
  obtain ⟨fuel, rfl⟩ : ∃ k, fuel = k + 2 := ⟨fuel - 2, by omega⟩
  have hwire : (16 : Nat) &&& 7 = 0 := by decide
  simp [decode_pair_value, from_pb_impl, decode_varint, decode_varint_go, substr, get_wire_type,
    WireType.Varint, defaultVal, cast_integral, to_signed, hwire]

theorem c2_map_first_write_wins_witness :
    from_pb_impl 10 (.map .string (.integral 32 true)) (.map [])
        [0x06, 0x0A, 0x02, 0x6B, 0x31, 0x10, 0x05,
         0x0A, 0x06, 0x0A, 0x02, 0x6B, 0x31, 0x10, 0x06] 1
      = .ok (.map [(.str [0x6B, 0x31], .int 5)], []) ∧
    Val.find (.map [(.str [0x6B, 0x31], .int 5)]) (.str [0x6B, 0x31]) = some (.int 5) :=
  ⟨by rfl,
   (c2_map_first_write_wins 10 2 .string (.integral 32 true) [] [0x06] [0x0A, 0x02, 0x6B, 0x31]
    [0x10, 0x05] [0x0A, 0x06, 0x0A, 0x02, 0x6B, 0x31, 0x10, 0x06] (.str [0x6B, 0x31]) (.int 5) 1
    (.map [(.str [0x6B, 0x31], .int 5)]) []
    ⟨6, fun r => by simp [decode_varint, decode_varint_go], by rfl⟩
    encodes_key_k1 encodes_value_5 (by rfl) (by rfl) (by rfl)).1⟩

/-! ## C3: unpacked repeated fields -/

theorem isEmpty_append_left {a : Bytes} (b : Bytes) (h : a ≠ []) : (a ++ b).isEmpty = false := by
  cases a with
  | nil => exact absurd rfl h
  | cons x xs => rfl

theorem from_pb_impl_unpacked_run (item : PbType) (n f : Nat) (rest : Bytes)
    (hrest : rest = [] ∨ ∃ v pos, decode_varint rest = .ok (v, pos) ∧ (v % 2 ^ 32) >>> 3 ≠ n) :
    ∀ (more : List Occurrence) (enc1 : Bytes) (e1 : Val) (xs : List Val) (fuel : Nat),
    Encodes f item enc1 e1 →
    (∀ o ∈ more, IsTagOf n o.tag ∧ Encodes f item o.enc o.elem) →
    f + more.length + 1 ≤ fuel →
    from_pb_impl_unpacked fuel item (.seq xs) (enc1 ++ unpacked_stream more rest) n
      = .ok (.seq (xs ++ e1 :: more.map (fun o => o.elem)), rest) := by
  intro more
  induction more with
  | nil =>
    intro enc1 e1 xs fuel h1 _ hfuel
    obtain ⟨fuel, rfl⟩ : ∃ k, fuel = k + 1 := ⟨fuel - 1, by omega⟩
    simp only [from_pb_impl_unpacked, unpacked_stream, isEmpty_append_left rest h1.1,
      h1.2 fuel (by simp at hfuel; omega) rest, Outcome.ok_bind, Val.push_back]
    rcases hrest with rfl | ⟨v, pos, hv, hn⟩
    · simp
    · have hpos := decode_varint_pos hv
      have hne : rest.isEmpty = false := by
        cases rest with
        | nil => simp at hpos; omega
        | cons b bs => rfl
      simp only [hne, hv, Outcome.ok_bind]
      rw [if_pos hn]
      simp
  | cons o more ih =>
    intro enc1 e1 xs fuel h1 hmore hfuel
    obtain ⟨fuel, rfl⟩ : ∃ k, fuel = k + 1 := ⟨fuel - 1, by omega⟩
    simp only [List.length_cons] at hfuel
    obtain ⟨⟨v, hv, htag⟩, henc⟩ := hmore o (List.mem_cons_self _ _)
    have hne : (o.tag ++ (o.enc ++ unpacked_stream more rest)).isEmpty = false := by
      have := henc.1
      cases h : o.tag with
      | nil => simp [isEmpty_append_left (unpacked_stream more rest) this]
      | cons b bs => rfl
    have hsub : substr (o.tag ++ (o.enc ++ unpacked_stream more rest)) o.tag.length
        = .ok (o.enc ++ unpacked_stream more rest) := by
      rw [substr_ok (by simp)]
      simp
    simp only [from_pb_impl_unpacked, unpacked_stream, isEmpty_append_left _ h1.1,
      h1.2 fuel (by omega) _, Outcome.ok_bind, Val.push_back, hne, htag _, hsub]
    rw [if_neg (not_not.mpr hv)]
    rw [ih o.enc o.elem (xs ++ [e1]) fuel henc
      (fun p hp => hmore p (List.mem_cons_of_mem _ hp)) (by omega)]
    simp

/-- C3: an unpacked repeated field numbered `n` whose element type is
length-delimited. The input, positioned after the tag of the first occurrence,
holds the encoding of the first element, then the further occurrences (tag of
field `n`, encoding), then `rest`, which is empty or starts with a tag of
another field number. `from_pb_impl` appends the elements in stream order and
returns `rest` untouched, so that the tag at its head is still to be read. -/
theorem c3_unpacked_repeated (item : PbType) (n f : Nat) (rest : Bytes)
    (more : List Occurrence) (enc1 : Bytes) (e1 : Val) (xs : List Val) (fuel : Nat)
    (hitem : is_lenprefix_v item = true)
    (hfirst : Encodes f item enc1 e1)
    (hmore : ∀ o ∈ more, IsTagOf n o.tag ∧ Encodes f item o.enc o.elem)
    (hrest : rest = [] ∨ ∃ v pos, decode_varint rest = .ok (v, pos) ∧ (v % 2 ^ 32) >>> 3 ≠ n)
    (hfuel : f + more.length + 2 ≤ fuel) :
    from_pb_impl fuel (.sequence item) (.seq xs) (enc1 ++ unpacked_stream more rest) n
      = .ok (.seq (xs ++ e1 :: more.map (fun o => o.elem)), rest) := by
  obtain ⟨fuel, rfl⟩ : ∃ k, fuel = k + 1 := ⟨fuel - 1, by omega⟩
  simp only [from_pb_impl, hitem, if_true]
  exact from_pb_impl_unpacked_run item n f rest hrest more enc1 e1 xs fuel hfirst hmore (by omega)

/-- The string `"a"` is encoded as `01 61`. -/
theorem encodes_string_a : Encodes 1 .string [0x01, 0x61] (.str [0x61]) := by
  refine ⟨by simp, ?_⟩
  intro fuel hfuel rest
  obtain ⟨fuel, rfl⟩ : ∃ k, fuel = k + 1 := ⟨fuel - 1, by omega⟩
  have hlen : ¬ (rest.length + 1 + 1 < 2) := by omega
  simp [from_pb_impl, decode_varint, decode_varint_go, substr, hlen]
  rfl

/-- The string `"bc"` is encoded as `02 62 63`. -/
theorem encodes_string_bc : Encodes 1 .string [0x02, 0x62, 0x63] (.str [0x62, 0x63]) := by
  refine ⟨by simp, ?_⟩
  intro fuel hfuel rest
  obtain ⟨fuel, rfl⟩ : ∃ k, fuel = k + 1 := ⟨fuel - 1, by omega⟩
  have hlen : ¬ (rest.length + 1 + 1 + 1 < 3) := by omega
  simp [from_pb_impl, decode_varint, decode_varint_go, substr, hlen]

/-- The byte `3A` is a tag of field 7. -/
theorem isTagOf_3A : IsTagOf 7 [0x3A] := by
  refine ⟨58, by decide, ?_⟩
  intro rest
  simp [decode_varint, decode_varint_go]

theorem c3_unpacked_repeated_witness :
    from_pb_impl 4 (.sequence .string) (.seq []) [0x01, 0x61, 0x3A, 0x02, 0x62, 0x63] 7
      = .ok (.seq [.str [0x61], .str [0x62, 0x63]], []) ∧
    from_pb 10 RepeatBaseTypeMsg (defaultVal (.reflection RepeatBaseTypeMsg))
        [0x3A, 0x01, 0x61, 0x3A, 0x02, 0x62, 0x63]
      = .ok (.record [.seq [], .seq [], .seq [], .seq [], .seq [], .seq [],
          .seq [.str [0x61], .str [0x62, 0x63]], .seq []], []) :=
  ⟨c3_unpacked_repeated .string 7 1 []
      [⟨[0x3A], [0x02, 0x62, 0x63], .str [0x62, 0x63]⟩] [0x01, 0x61] (.str [0x61]) [] 4
      (by rfl) encodes_string_a
      (by
        intro o ho
        simp only [List.mem_singleton] at ho
        subst ho
        exact ⟨isTagOf_3A, encodes_string_bc⟩)
      (Or.inl rfl) (by decide),
   by rfl⟩

/-! ## C4: packed repeated fields -/

theorem from_pb_impl_packed_run (item : PbType) (f size start : Nat) (rest : Bytes)
    (hsize : 0 < size) (hstart : size + rest.length = start) :
    ∀ (els : List (Bytes × Val)) (xs : List Val) (fuel : Nat),
    els ≠ [] →
    (∀ p ∈ els, Encodes f item p.1 p.2) →
    f + els.length ≤ fuel →
    from_pb_impl_packed fuel item size start (.seq xs) (packed_slice els ++ rest)
      = .ok (.seq (xs ++ els.map (fun p => p.2)), rest) := by
  intro els
  induction els with
  | nil => intro xs fuel h; exact absurd rfl h
  | cons p els ih =>
    intro xs fuel _ hels hfuel
    obtain ⟨fuel, rfl⟩ : ∃ k, fuel = k + 1 := ⟨fuel - 1, by simp at hfuel; omega⟩
    simp only [List.length_cons] at hfuel
    have hp := hels p (List.mem_cons_self _ _)
    simp only [from_pb_impl_packed, packed_slice, List.append_assoc,
      isEmpty_append_left _ hp.1, hp.2 fuel (by omega) _, Outcome.ok_bind, Val.push_back]
    cases els with
    | nil =>
      simp only [packed_slice, List.nil_append]
      have hdone : start - rest.length = size := by omega
      rw [if_pos hdone]
      simp
    | cons q els =>
      have hq := hels q (List.mem_cons_of_mem _ (List.mem_cons_self _ _))
      have hlen : 0 < q.1.length := List.length_pos.mpr hq.1
      have hmore : ¬ start - (packed_slice (q :: els) ++ rest).length = size := by
        simp only [packed_slice, List.length_append]
        omega
      rw [if_neg hmore]
      rw [ih (xs ++ [p.2]) fuel (by simp) (fun r hr => hels r (List.mem_cons_of_mem _ hr))
        (by omega)]
      simp

/-- A packed repeated field whose length is kept without loss. The input holds
the length prefix `pre`, whose value reduced modulo `2 ^ 32` is the `size`
(`L`) of the reader, then `L > 0` bytes that are
exactly the concatenation of the encodings of the elements `e1 .. ek`, then
`rest`. `from_pb_impl` appends `e1 .. ek` in that order and leaves `rest`. -/
theorem from_pb_impl_packed_slice (item : PbType) (f : Nat) (pre : Bytes) (els : List (Bytes × Val))
    (rest : Bytes) (xs : List Val) (v fuel field_no : Nat)
    (hitem : is_lenprefix_v item = false)
    (hpre : decode_varint (pre ++ (packed_slice els ++ rest)) = .ok (v, pre.length))
    (hL : v % 2 ^ 32 = (packed_slice els).length)
    (hpos : 0 < v % 2 ^ 32)
    (hels : ∀ p ∈ els, Encodes f item p.1 p.2)
    (hfuel : f + els.length + 1 ≤ fuel) :
    from_pb_impl fuel (.sequence item) (.seq xs) (pre ++ (packed_slice els ++ rest)) field_no
      = .ok (.seq (xs ++ els.map (fun p => p.2)), rest) := by
  obtain ⟨fuel, rfl⟩ : ∃ k, fuel = k + 1 := ⟨fuel - 1, by omega⟩
  have hne : els ≠ [] := by
    rintro rfl
    simp [packed_slice] at hL
    omega
  have hsub : substr (pre ++ (packed_slice els ++ rest)) pre.length
      = .ok (packed_slice els ++ rest) := by
    rw [substr_ok (by simp)]
    simp
  have hfits : ¬ (packed_slice els ++ rest).length < v % 2 ^ 32 := by
    simp only [List.length_append, hL]
    omega
  simp only [from_pb_impl, hitem, hpre, Outcome.ok_bind, hsub]
  rw [if_neg (by simp), if_neg hfits]
  exact from_pb_impl_packed_run item f _ _ rest hpos (by simp only [List.length_append, hL])
    els xs fuel hne hels (by omega)

/-- The `uint32_t` 1 is encoded as `01`. -/
theorem encodes_uint32_1 : Encodes 1 (.integral 32 false) [0x01] (.int 1) := by
  refine ⟨by simp, ?_⟩
  intro fuel hfuel rest
  obtain ⟨fuel, rfl⟩ : ∃ k, fuel = k + 1 := ⟨fuel - 1, by omega⟩
  simp [from_pb_impl, decode_varint, decode_varint_go, substr, cast_integral]

/-- The `uint32_t` 300 is encoded as `AC 02`. -/
theorem encodes_uint32_300 : Encodes 1 (.integral 32 false) [0xAC, 0x02] (.int 300) := by
  refine ⟨by simp, ?_⟩
  intro fuel hfuel rest
  obtain ⟨fuel, rfl⟩ : ∃ k, fuel = k + 1 := ⟨fuel - 1, by omega⟩
  have hlen : ¬ (rest.length + 1 + 1 < 2) := by omega
  simp [from_pb_impl, decode_varint, decode_varint_go, substr, cast_integral, hlen]

theorem from_pb_impl_packed_slice_example :
    from_pb_impl 4 (.sequence (.integral 32 false)) (.seq []) [0x03, 0x01, 0xAC, 0x02, 0x10, 0x05] 1
      = .ok (.seq [.int 1, .int 300], [0x10, 0x05]) :=
  from_pb_impl_packed_slice (.integral 32 false) 1 [0x03] [([0x01], .int 1), ([0xAC, 0x02], .int 300)]
    [0x10, 0x05] [] 3 4 1 (by rfl) (by rfl) (by decide) (by decide)
    (by
      intro p hp
      simp only [List.mem_cons, List.mem_singleton, List.not_mem_nil, or_false] at hp
      rcases hp with rfl | rfl
      · exact encodes_uint32_1
      · exact encodes_uint32_300)
    (by decide)

/-- The packed branch on a length prefix of value `2 ^ 32 + 1` followed by a
zero byte: `size` is 1, one element is read and the loop is left. -/
theorem from_pb_impl_packed_length_wraps (fuel : Nat) (r : Bytes) :
    from_pb_impl (fuel + 3) (.sequence (.integral 32 false)) (.seq [])
        (0x81 :: 0x80 :: 0x80 :: 0x80 :: 0x10 :: 0x00 :: r) 1
      = .ok (.seq [.int 0], r) := by
  have hv : decode_varint (0x81 :: 0x80 :: 0x80 :: 0x80 :: 0x10 :: 0x00 :: r)
      = .ok (2 ^ 32 + 1, 5) := by
    simp [decode_varint, decode_varint_go]
  have hz : decode_varint (0x00 :: r) = .ok (0, 1) := by
    simp [decode_varint, decode_varint_go]
  have hsub : substr (0x81 :: 0x80 :: 0x80 :: 0x80 :: 0x10 :: 0x00 :: r) 5 = .ok (0x00 :: r) := by
    simp [substr]
  have hsub1 : substr (0x00 :: r) 1 = .ok r := by
    simp [substr]
  have hitem : is_lenprefix_v (.integral 32 false) = false := by rfl
  have hsize : (2 ^ 32 + 1) % 2 ^ 32 = 1 := by norm_num
  simp only [from_pb_impl, hitem, hv, Outcome.ok_bind, hsub, hsize, from_pb_impl_packed, hz,
    hsub1, Val.push_back, defaultVal]
  simp [cast_integral]

/-- The loop of `from_pb` on the record `PackedThenInt` and a packed field whose
length prefix has the value `2 ^ 32 + 1`, followed by two zero bytes: the
second zero byte is read as a tag of field 0. -/
theorem from_pb_packed_length_wraps (fuel : Nat) (r : Bytes) :
    from_pb (fuel + 5) PackedThenInt (.record [.seq [], .int 0])
        (0x0A :: 0x81 :: 0x80 :: 0x80 :: 0x80 :: 0x10 :: 0x00 :: 0x00 :: r)
      = .throw .out_of_range := by
  have hv : decode_varint (0x0A :: 0x81 :: 0x80 :: 0x80 :: 0x80 :: 0x10 :: 0x00 :: 0x00 :: r)
      = .ok (10, 1) := by
    simp [decode_varint, decode_varint_go]
  have hsub : substr (0x0A :: 0x81 :: 0x80 :: 0x80 :: 0x80 :: 0x10 :: 0x00 :: 0x00 :: r) 1
      = .ok (0x81 :: 0x80 :: 0x80 :: 0x80 :: 0x10 :: 0x00 :: 0x00 :: r) := by
    simp [substr]
  have hmem : members_at (get_members PackedThenInt) ((10 % 2 ^ 32) >>> 3)
      = .ok ⟨1, 0, none, .sequence (.integral 32 false)⟩ := by rfl
  have hwire : ¬ ((10 % 2 ^ 32) &&& 7 ≠ get_wire_type (.sequence (.integral 32 false))) := by
    decide
  have hz : decode_varint (0x00 :: r) = .ok (0, 1) := by
    simp [decode_varint, decode_varint_go]
  have hsub2 : substr (0x00 :: r) 1 = .ok r := by
    simp [substr]
  have hnone : members_at (get_members PackedThenInt) ((0 % 2 ^ 32) >>> 3)
      = .throw .out_of_range := by rfl
  rw [from_pb]
  simp only [List.isEmpty_cons, Bool.false_eq_true, if_false, hv, Outcome.ok_bind, hsub, hmem]
  rw [if_neg hwire]
  simp only [Val.slot, List.getD_cons_zero]
  rw [from_pb_impl_packed_length_wraps (fuel + 1) _]
  simp only [Outcome.ok_bind, Val.set_slot, List.set_cons_zero]
  rw [from_pb]
  simp only [List.isEmpty_cons, Bool.false_eq_true, if_false, hz, Outcome.ok_bind, hsub2, hnone,
    Outcome.throw_bind]

/-- C4 fails on the code for a declared length of `2 ^ 32` or more. The packed
`std::vector<uint32_t>` has the length prefix `81 80 80 80 10`, of value
`2 ^ 32 + 1`, and its slice is made of that many bytes `00`, each the encoding
of the element 0, with nothing after it. The length is kept in a `uint32_t`,
so `size` is 1: `from_pb_impl` appends one element and leaves `2 ^ 32` bytes of
the slice as remaining input; `from_pb` then reads the next `00` as a tag of
field 0 and throws. -/
theorem c4_length_reduced_mod_2_32 :
    decode_varint [0x81, 0x80, 0x80, 0x80, 0x10] = .ok (2 ^ 32 + 1, 5) ∧
    (List.replicate (2 ^ 32 + 1) 0x00 : Bytes).length = 2 ^ 32 + 1 ∧
    from_pb_impl 3 (.integral 32 false) (.int 0) [0x00] 0 = .ok (.int 0, []) ∧
    from_pb_impl 3 (.sequence (.integral 32 false)) (.seq [])
        (0x81 :: 0x80 :: 0x80 :: 0x80 :: 0x10 :: List.replicate (2 ^ 32 + 1) 0x00) 1
      = .ok (.seq [.int 0], List.replicate (2 ^ 32) 0x00) ∧
    from_pb 5 PackedThenInt (.record [.seq [], .int 0])
        (0x0A :: 0x81 :: 0x80 :: 0x80 :: 0x80 :: 0x10 :: List.replicate (2 ^ 32 + 1) 0x00)
      = .throw .out_of_range := by
  have hrep : (List.replicate (2 ^ 32 + 1) 0x00 : Bytes) = 0x00 :: List.replicate (2 ^ 32) 0x00 :=
    List.replicate_succ _ _
  have hrep2 : (List.replicate (2 ^ 32 + 1) 0x00 : Bytes)
      = 0x00 :: 0x00 :: List.replicate (2 ^ 32 - 1) 0x00 := by
    have h1 : (List.replicate (2 ^ 32 - 1 + 1 + 1) 0x00 : Bytes)
        = 0x00 :: 0x00 :: List.replicate (2 ^ 32 - 1) 0x00 := by
      rw [List.replicate_succ, List.replicate_succ]
    have h2 : (2 : Nat) ^ 32 + 1 = 2 ^ 32 - 1 + 1 + 1 := by norm_num
    rw [h2]
    exact h1
  refine ⟨by rfl, List.length_replicate _ _, by rfl, ?_, ?_⟩
  · rw [hrep]
    exact from_pb_impl_packed_length_wraps 0 _
  · rw [hrep2]
    exact from_pb_packed_length_wraps 0 _

/-! ## C5, C6: the end of a packed field -/

/-- C5 fails on the code: in `0A 00 10 05` the packed field 1 has length
prefix 0 and is followed by field 2 with value 5. The packed loop runs on the
bytes `10 05` that follow the prefix and appends 16 and 5 to the sequence;
field 2 is never set. -/
theorem c5_empty_packed_swallows_next_field :
    from_pb_impl 10 (.sequence (.integral 32 false)) (.seq []) [0x00, 0x10, 0x05] 1
      = .ok (.seq [.int 16, .int 5], []) ∧
    from_pb 10 PackedThenInt (.record [.seq [], .int 0]) [0x0A, 0x00, 0x10, 0x05]
      = .ok (.record [.seq [.int 16, .int 5], .int 0], []) := by
  constructor <;> rfl

/-- C6 fails on the code: in `0A 01 AC 02 10 05` the packed field 1 declares
one byte, but its first element `AC 02` takes two. Decoding does not fail: the
loop goes on past the declared length and appends 300, 16 and 5, taking the
bytes of field 2 as elements. -/
theorem c6_straddling_element_is_accepted :
    from_pb_impl 10 (.sequence (.integral 32 false)) (.seq []) [0x01, 0xAC, 0x02, 0x10, 0x05] 1
      = .ok (.seq [.int 300, .int 16, .int 5], []) ∧
    from_pb 10 PackedThenInt (.record [.seq [], .int 0]) [0x0A, 0x01, 0xAC, 0x02, 0x10, 0x05]
      = .ok (.record [.seq [.int 300, .int 16, .int 5], .int 0], []) := by
  constructor <;> rfl

/-! ## C8, C9: nested records -/

/-- The loop of `from_pb` returns only once its `pb_str` is empty. -/
theorem from_pb_rest_nil (fuel : Nat) : ∀ (fs : List FieldDecl) (t : Val) (pb_str : Bytes)
    (t1 : Val) (rest : Bytes), from_pb fuel fs t pb_str = .ok (t1, rest) → rest = [] := by
  induction fuel with
  | zero => intro fs t pb_str t1 rest h; simp [from_pb] at h
  | succ fuel ih =>
    intro fs t pb_str t1 rest h
    simp only [from_pb] at h
    split at h
    · rename_i hempty
      cases h
      simpa using hempty
    obtain ⟨⟨v, pos⟩, -, h⟩ := Outcome.bind_eq_ok h
    obtain ⟨s1, -, h⟩ := Outcome.bind_eq_ok h
    obtain ⟨member, -, h⟩ := Outcome.bind_eq_ok h
    split at h
    · cases h
    split at h
    · obtain ⟨⟨slot, s2⟩, -, h⟩ := Outcome.bind_eq_ok h
      exact ih _ _ _ _ _ h
    · obtain ⟨⟨slot, s2⟩, -, h⟩ := Outcome.bind_eq_ok h
      exact ih _ _ _ _ _ h

/-- Whenever the decoding of a nested record returns, the input started
with a length prefix of `pos` bytes whose value the reader keeps as the 32-bit
`size` (`L = v % 2 ^ 32`); at least `L` bytes followed it; the nested `from_pb`
ran on exactly these `L` bytes, returned with nothing of them left, and its
result is the decoded record; and the enclosing decoder resumes right after
these `L` bytes. -/
theorem from_pb_impl_nested_slice (fuel : Nat) (fs : List FieldDecl) (val : Val) (pb_str : Bytes)
    (field_no : Nat) (val1 : Val) (rest : Bytes)
    (hdec : from_pb_impl fuel (.reflection fs) val pb_str field_no = .ok (val1, rest)) :
    ∃ v pos, decode_varint pb_str = .ok (v, pos) ∧
      pos + v % 2 ^ 32 ≤ pb_str.length ∧
      rest = pb_str.drop (pos + v % 2 ^ 32) ∧
      ∃ f, from_pb f fs val ((pb_str.drop pos).take (v % 2 ^ 32)) = .ok (val1, []) := by
  cases fuel with
  | zero => simp [from_pb_impl] at hdec
  | succ fuel =>
    simp only [from_pb_impl] at hdec
    obtain ⟨⟨v, pos⟩, hv, h⟩ := Outcome.bind_eq_ok hdec
    have hpos := decode_varint_pos hv
    simp only [substr_ok hpos.2, Outcome.ok_bind] at h
    refine ⟨v, pos, hv, ?_⟩
    split at h
    · cases h
    rename_i hfits
    simp only [List.length_drop, not_lt] at hfits
    refine ⟨by omega, ?_⟩
    split at h
    · rename_i hzero
      cases h
      rw [hzero]
      exact ⟨rfl, 1, rfl⟩
    · obtain ⟨⟨t1, r1⟩, hnested, h⟩ := Outcome.bind_eq_ok h
      have hr1 := from_pb_rest_nil _ _ _ _ _ _ hnested
      subst hr1
      rw [substr_ok (by simp only [List.length_drop]; omega)] at h
      cases h
      exact ⟨by simp [Nat.add_comm], fuel, hnested⟩

theorem from_pb_impl_nested_slice_example :
    ∃ v pos, decode_varint [0x02, 0x08, 0x01, 0x10, 0x05] = .ok (v, pos) ∧
      pos + v % 2 ^ 32 ≤ [0x02, 0x08, 0x01, 0x10, 0x05].length ∧
      [0x10, 0x05] = [0x02, 0x08, 0x01, 0x10, 0x05].drop (pos + v % 2 ^ 32) ∧
      ∃ f, from_pb f OneInt (.record [.int 0])
        (([0x02, 0x08, 0x01, 0x10, 0x05].drop pos).take (v % 2 ^ 32))
          = .ok (.record [.int 1], []) :=
  from_pb_impl_nested_slice 5 OneInt (.record [.int 0]) [0x02, 0x08, 0x01, 0x10, 0x05] 1
    (.record [.int 1]) [0x10, 0x05] (by rfl)

/-- C8 fails on the code for a length prefix of `2 ^ 32` or more. In
`0A 82 80 80 80 10 08 01 10 07` the nested record at field 1 has the length
prefix `2 ^ 32 + 2`; the decoding succeeds, yet the nested `from_pb` is given
the 2 bytes `08 01`, not `2 ^ 32 + 2` bytes, and the enclosing decoder resumes
2 bytes after the prefix, where it reads field 2. -/
theorem c8_nested_length_reduced_mod_2_32 :
    decode_varint [0x82, 0x80, 0x80, 0x80, 0x10, 0x08, 0x01, 0x10, 0x07] = .ok (2 ^ 32 + 2, 5) ∧
    nested_slice [0x82, 0x80, 0x80, 0x80, 0x10, 0x08, 0x01, 0x10, 0x07]
      = .ok ([0x08, 0x01], [0x10, 0x07]) ∧
    from_pb_impl 5 (.reflection OneInt) (.record [.int 0])
        [0x82, 0x80, 0x80, 0x80, 0x10, 0x08, 0x01, 0x10, 0x07] 1
      = .ok (.record [.int 1], [0x10, 0x07]) ∧
    from_pb 10 NestedThenInt (.record [.record [.int 0], .int 0])
        [0x0A, 0x82, 0x80, 0x80, 0x80, 0x10, 0x08, 0x01, 0x10, 0x07]
      = .ok (.record [.record [.int 1], .int 7], []) := by
  refine ⟨by rfl, by rfl, by rfl, by rfl⟩

/-- C9 fails on the code: in `0A 80 80 80 80 10` the nested record at field 1
has the length prefix `2 ^ 32` and no byte follows it; in
`0A 82 80 80 80 10 08 01` the prefix is `2 ^ 32 + 2` and two bytes follow.
Neither decoding fails: the length is kept in a `uint32_t`, so the first is
read as an empty record and the second as a record of two bytes. -/
theorem c9_length_reduced_mod_2_32 :
    decode_varint [0x80, 0x80, 0x80, 0x80, 0x10] = .ok (2 ^ 32, 5) ∧
    from_pb 10 Outer (.record [.record [.int 0]]) [0x0A, 0x80, 0x80, 0x80, 0x80, 0x10]
      = .ok (.record [.record [.int 0]], []) ∧
    from_pb 10 Outer (.record [.record [.int 0]])
        [0x0A, 0x82, 0x80, 0x80, 0x80, 0x10, 0x08, 0x01]
      = .ok (.record [.record [.int 1]], []) := by
  refine ⟨by rfl, by rfl, by rfl⟩

/-! ## C10: strings -/

/-- The value `decode_varint` returns fits in 64 bits. -/
theorem decode_varint_go_lt (s : Bytes) : ∀ (n shift acc p v pos : Nat),
    decode_varint_go n shift acc p s = .ok (v, pos) → v < 2 ^ 64 := by
  induction s with
  | nil => intro n shift acc p v pos h; simp [decode_varint_go] at h
  | cons b bs ih =>
    intro n shift acc p v pos h
    cases n with
    | zero => simp [decode_varint_go] at h
    | succ n =>
      simp only [decode_varint_go] at h
      split at h
      · split at h
        · rename_i hlt
          cases h
          exact hlt
        · cases h
      · exact ih _ _ _ _ _ _ h

/-- A string whose declared length `L` does not exceed the bytes that remain
after the length prefix: the field receives exactly the next `L` bytes and
prefix and payload are consumed, for `std::string` and `std::string_view`. -/
theorem from_pb_impl_string_in_bounds (fuel : Nat) (val : Val) (pb_str : Bytes)
    (L pos field_no : Nat) (hv : decode_varint pb_str = .ok (L, pos))
    (hsize : pb_str.length < 2 ^ 64) (hfit : L ≤ pb_str.length - pos) :
    from_pb_impl (fuel + 1) .string val pb_str field_no
      = .ok (.str ((pb_str.drop pos).take L), pb_str.drop (pos + L)) ∧
    from_pb_impl (fuel + 1) .string_view val pb_str field_no
      = .ok (.str ((pb_str.drop pos).take L), pb_str.drop (pos + L)) := by
  have hpos := decode_varint_pos hv
  have hmod : (pos + L) % 2 ^ 64 = pos + L := Nat.mod_eq_of_lt (by omega)
  have hmod2 : (L + pos) % 2 ^ 64 = pos + L := by rw [Nat.add_comm]; exact hmod
  have h1 : ¬ pb_str.length < pos + L := by omega
  have hsub : substr pb_str (pos + L) = .ok (pb_str.drop (pos + L)) := substr_ok (by omega)
  constructor <;>
    simp only [from_pb_impl, hv, Outcome.ok_bind, hmod, hmod2, h1, if_false, hsub]

/-- A string whose declared length `L` exceeds the bytes that remain after the
length prefix, when `pos + L` does not wrap: the reader throws
`std::invalid_argument`, for `std::string` and `std::string_view`. -/
theorem from_pb_impl_string_truncated (fuel : Nat) (val : Val) (pb_str : Bytes)
    (L pos field_no : Nat) (hv : decode_varint pb_str = .ok (L, pos))
    (hnowrap : pos + L < 2 ^ 64) (hshort : pb_str.length - pos < L) :
    from_pb_impl (fuel + 1) .string val pb_str field_no = .throw .invalid_argument ∧
    from_pb_impl (fuel + 1) .string_view val pb_str field_no = .throw .invalid_argument := by
  have hpos := decode_varint_pos hv
  have hmod : (pos + L) % 2 ^ 64 = pos + L := Nat.mod_eq_of_lt hnowrap
  have h1 : pb_str.length < pos + L := by omega
  constructor <;>
    simp only [from_pb_impl, hv, Outcome.ok_bind, hmod, h1, if_true]

/-- An owned `std::string` never accepts a declared length that exceeds the
bytes that remain after the length prefix. -/
theorem from_pb_impl_string_owned_fails (fuel : Nat) (val : Val) (pb_str : Bytes)
    (L pos field_no : Nat) (hv : decode_varint pb_str = .ok (L, pos))
    (hshort : pb_str.length - pos < L) :
    from_pb_impl (fuel + 1) .string val pb_str field_no = .throw .invalid_argument ∨
    from_pb_impl (fuel + 1) .string val pb_str field_no = .throw .length_error := by
  have hpos := decode_varint_pos hv
  have h1 : pb_str.length < pos + L := by omega
  simp only [from_pb_impl, hv, Outcome.ok_bind, h1, if_true]
  split
  · exact Or.inl rfl
  · exact Or.inr rfl

/-- The witness of the claim: a string of declared length 10 with only 5 bytes
after the length prefix is rejected. -/
theorem string_length_10_with_5_bytes :
    from_pb_impl 3 .string (.str []) [0x0A, 0x61, 0x62, 0x63, 0x64, 0x65] 1
      = .throw .invalid_argument ∧
    from_pb_impl 3 .string_view (.str []) [0x0A, 0x61, 0x62, 0x63, 0x64, 0x65] 1
      = .throw .invalid_argument := by
  constructor <;> rfl

/-- C10 fails on the code for a `std::string_view`: the length prefix
`FF FF FF FF FF FF FF FF FF 01` has the value `2 ^ 64 - 1` and nothing follows
it, yet `pos + size` wraps to 9, the test `pb_str.size() < pos + size` does not
fire, and the call returns with a view of `2 ^ 64 - 1` bytes stored and
`pb_str` rewound to the last byte of the prefix. As the key of a map entry the
same bytes let `from_pb` return normally. -/
theorem c10_string_view_length_wraps :
    decode_varint [0xFF, 0xFF, 0xFF, 0xFF, 0xFF, 0xFF, 0xFF, 0xFF, 0xFF, 0x01]
      = .ok (2 ^ 64 - 1, 10) ∧
    from_pb_impl 3 .string_view (.str [])
        [0xFF, 0xFF, 0xFF, 0xFF, 0xFF, 0xFF, 0xFF, 0xFF, 0xFF, 0x01] 1
      = .ok (.dangling (2 ^ 64 - 1), [0x01]) ∧
    from_pb 10 ViewDoubleMap (.record [.map []])
        [0x0A, 0x00, 0x0A, 0xFF, 0xFF, 0xFF, 0xFF, 0xFF, 0xFF, 0xFF, 0xFF, 0xFF, 0x01,
         0x00, 0x00, 0x00, 0x00, 0x00, 0x00, 0x00, 0x00]
      = .ok (.record [.map [(.dangling (2 ^ 64 - 1), .bits 0)]], []) := by
  refine ⟨by rfl, by rfl, by rfl⟩

/-- Two `std::string_view` keys that extend past the input are both kept by
the map: in each of the two entries the key has the length prefix
`FF FF FF FF FF FF FF FF FF 01`. -/
theorem dangling_keys_are_kept_apart :
    from_pb 10 ViewDoubleMap (.record [.map []])
        [0x0A, 0x00, 0x0A, 0xFF, 0xFF, 0xFF, 0xFF, 0xFF, 0xFF, 0xFF, 0xFF, 0xFF, 0x01,
         0x00, 0x00, 0x00, 0x00, 0x00, 0x00, 0x00, 0x00,
         0x0A, 0x00, 0x0A, 0xFF, 0xFF, 0xFF, 0xFF, 0xFF, 0xFF, 0xFF, 0xFF, 0xFF, 0x01,
         0x00, 0x00, 0x00, 0x00, 0x00, 0x00, 0x00, 0x00]
      = .ok (.record [.map [(.dangling (2 ^ 64 - 1), .bits 0),
          (.dangling (2 ^ 64 - 1), .bits 0)]], []) := by
  rfl

/-! ## C11: optional fields -/

/-- C11, as stated, fails: the optional nested record at field 1 occurs twice,
first with `a = 1` (`0A 02 08 01`), then with `b = 2` (`0A 02 10 02`). After
the second occurrence `a` is 0 again, not 1. (The same stream into a member
that is not optional gives `a = 1`, `b = 2`.) -/
theorem c11_optional_counterexample :
    from_pb 10 OptOuter (.record [.opt none]) [0x0A, 0x02, 0x08, 0x01]
      = .ok (.record [.opt (some (.record [.int 1, .int 0]))], []) ∧
    from_pb 10 OptOuter (.record [.opt none])
        [0x0A, 0x02, 0x08, 0x01, 0x0A, 0x02, 0x10, 0x02]
      = .ok (.record [.opt (some (.record [.int 0, .int 2]))], []) ∧
    from_pb 10 PlainOuter (.record [.record [.int 0, .int 0]])
        [0x0A, 0x02, 0x08, 0x01, 0x0A, 0x02, 0x10, 0x02]
      = .ok (.record [.record [.int 1, .int 2]], []) := by
  refine ⟨by rfl, by rfl, by rfl⟩

/-- C11 (amended): whenever the decoding of an occurrence of an optional field
returns, the optional is present and its value is the one decoded from this
occurrence starting from a value-initialised object (`val.emplace()`), whatever
the optional held before. -/
theorem c11_optional_reinitialised (fuel : Nat) (t : PbType) (val : Val) (pb_str : Bytes)
    (field_no : Nat) (val1 : Val) (rest : Bytes)
    (hdec : from_pb_impl fuel (.optional t) val pb_str field_no = .ok (val1, rest)) :
    ∃ v f, val1 = .opt (some v) ∧ from_pb_impl f t (defaultVal t) pb_str 0 = .ok (v, rest) := by
  cases fuel with
  | zero => simp [from_pb_impl] at hdec
  | succ fuel =>
    simp only [from_pb_impl] at hdec
    obtain ⟨⟨v, r⟩, hv, h⟩ := Outcome.bind_eq_ok hdec
    cases h
    exact ⟨v, fuel, rfl, hv⟩

theorem c11_optional_reinitialised_witness :
    from_pb_impl 5 (.optional (.reflection TwoInts)) (.opt (some (.record [.int 1, .int 0])))
        [0x02, 0x10, 0x02] 1
      = .ok (.opt (some (.record [.int 0, .int 2])), []) ∧
    ∃ v f, Val.opt (some (.record [.int 0, .int 2])) = .opt (some v) ∧
      from_pb_impl f (.reflection TwoInts) (defaultVal (.reflection TwoInts)) [0x02, 0x10, 0x02] 0
        = .ok (v, []) :=
  ⟨by rfl,
   c11_optional_reinitialised 5 (.reflection TwoInts) (.opt (some (.record [.int 1, .int 0])))
    [0x02, 0x10, 0x02] 1 (.opt (some (.record [.int 0, .int 2]))) [] (by rfl)⟩

/-- The optional branch of `from_pb_impl` does not look at the value the
optional holds: the outcome is the same for every `val`. -/
theorem from_pb_impl_optional_ignores_val (fuel : Nat) (t : PbType) (val val1 : Val)
    (pb_str : Bytes) (field_no : Nat) :
    from_pb_impl fuel (.optional t) val pb_str field_no
      = from_pb_impl fuel (.optional t) val1 pb_str field_no := by
  cases fuel with
  | zero => simp [from_pb_impl]
  | succ fuel => simp only [from_pb_impl]

/-! ## C13, C14: map entries -/

/-- C13 fails on the code: `decode_pair_value` is called once for the key and
once for the value, each time reading a tag from whatever comes next. An entry
that holds only the key (`0A 02 08 01`) or nothing (`0A 00`) at the end of the
buffer makes it throw; when field 2 (`10 07`) follows the entry with only the
key, its bytes are taken as the value of the entry and field 2 is never set;
an entry with only the value (`10 05`) gives the key 5. -/
theorem c13_map_entry_absent_field :
    from_pb 10 IntMapThenInt (.record [.map [], .int 0]) [0x0A, 0x02, 0x08, 0x01]
      = .throw .Truncated ∧
    from_pb 10 IntMapThenInt (.record [.map [], .int 0]) [0x0A, 0x00]
      = .throw .Truncated ∧
    from_pb 10 IntMapThenInt (.record [.map [], .int 0]) [0x0A, 0x02, 0x08, 0x01, 0x10, 0x07]
      = .ok (.record [.map [(.int 1, .int 7)], .int 0], []) ∧
    from_pb 10 IntMapThenInt (.record [.map [], .int 0]) [0x0A, 0x02, 0x10, 0x05, 0x10, 0x07]
      = .ok (.record [.map [(.int 5, .int 7)], .int 0], []) := by
  refine ⟨by rfl, by rfl, by rfl, by rfl⟩

/-- C14, as stated, fails: in `0A 03 08 01 15` the entry has the key 1 and a
value tag `15` of wire type 5 where the value kind `int32_t` has wire type 0.
Decoding does not fail: the entry `(1, 0)` is inserted and `from_pb` returns. -/
theorem c14_mismatch_counterexample :
    from_pb 10 IntMapThenInt (.record [.map [], .int 0]) [0x0A, 0x03, 0x08, 0x01, 0x15]
      = .ok (.record [.map [(.int 1, .int 0)], .int 0], []) := by
  rfl

/-- C14 (amended): when the tag read by `decode_pair_value` for the key or the
value of a map entry has a wire type other than the one of the declared kind,
`decode_pair_value` returns normally: the tag is consumed, nothing is decoded
and the key or value stays as it was passed in (the zero value). -/
theorem c14_pair_value_mismatch_returns (fuel : Nat) (t : PbType) (val : Val) (pb_str : Bytes)
    (v pos : Nat) (htag : decode_varint pb_str = .ok (v, pos))
    (hwire : (v % 2 ^ 32) &&& 7 ≠ get_wire_type t) :
    decode_pair_value (fuel + 1) t val pb_str = .ok (val, pb_str.drop pos) := by
  have hpos := decode_varint_pos htag
  simp only [decode_pair_value, htag, Outcome.ok_bind, substr_ok hpos.2]
  rw [if_pos hwire]

theorem c14_pair_value_mismatch_returns_witness :
    decode_pair_value (3 + 1) (.integral 32 true) (.int 0) [0x15] = .ok (.int 0, [0x15].drop 1) :=
  c14_pair_value_mismatch_returns 3 (.integral 32 true) (.int 0) [0x15] 0x15 1 (by rfl)
    (by decide)

/-! ## C18: group wire types -/

/-- The wire type of a declared kind is 0, 1, 2 or 5. -/
theorem get_wire_type_range : ∀ t : PbType,
    get_wire_type t = 0 ∨ get_wire_type t = 1 ∨ get_wire_type t = 2 ∨ get_wire_type t = 5
  | .integral _ _ => Or.inl rfl
  | .bool => Or.inl rfl
  | .signed_varint _ => Or.inl rfl
  | .enum _ _ => Or.inl rfl
  | .fixed len _ => by
    simp only [get_wire_type, WireType.Fixed64, WireType.Fixed32]
    split <;> simp
  | .float => Or.inr (Or.inr (Or.inr rfl))
  | .double => Or.inr (Or.inl rfl)
  | .string => Or.inr (Or.inr (Or.inl rfl))
  | .string_view => Or.inr (Or.inr (Or.inl rfl))
  | .sequence _ => Or.inr (Or.inr (Or.inl rfl))
  | .map _ _ => Or.inr (Or.inr (Or.inl rfl))
  | .reflection _ => Or.inr (Or.inr (Or.inl rfl))
  | .optional t => by
    simp only [get_wire_type]
    exact get_wire_type_range t

/-- A tag of wire type 3 or 4 read by the loop of `from_pb` makes it throw:
`std::out_of_range` when the field number is not in the member table,
`std::runtime_error` otherwise. -/
theorem from_pb_group_tag_throws (fuel : Nat) (fs : List FieldDecl) (t : Val) (pb_str : Bytes)
    (v pos : Nat) (htag : decode_varint pb_str = .ok (v, pos))
    (hgroup : (v % 2 ^ 32) &&& 7 = 3 ∨ (v % 2 ^ 32) &&& 7 = 4) :
    from_pb (fuel + 1) fs t pb_str = .throw .out_of_range ∨
    from_pb (fuel + 1) fs t pb_str = .throw .runtime_error := by
  have hpos := decode_varint_pos htag
  have hne : pb_str.isEmpty = false := by
    cases pb_str with
    | nil => simp at hpos; omega
    | cons b bs => rfl
  simp only [from_pb, hne, htag, Outcome.ok_bind, substr_ok hpos.2]
  cases hm : members_at (get_members fs) ((v % 2 ^ 32) >>> 3) with
  | ok member =>
    right
    have hw : (v % 2 ^ 32) &&& 7 ≠ get_wire_type member.value_type := by
      have := get_wire_type_range member.value_type
      omega
    simp only [Outcome.ok_bind]
    rw [if_pos hw]
    rfl
  | throw e =>
    left
    have : e = .out_of_range := by
      simp only [members_at] at hm
      split at hm
      · cases hm
      · cases hm; rfl
    subst this
    rfl
  | out_of_fuel =>
    simp only [members_at] at hm
    split at hm <;> cases hm

/-- C18 fails on the code between the elements of a repeated or map field. The
tag `0B` at the head of the stream is rejected, but in `3A 01 61 3B 01 62` the
second tag `3B` (field 7, wire type 3) is read between two elements of the
unpacked field 7, only its field number is compared, and the decoding returns
`["a", "b"]`; likewise the tag `0B` between two entries of the map at field 1
is taken as the tag of the next entry. -/
theorem c18_group_tag_between_elements :
    from_pb 10 RepeatBaseTypeMsg (defaultVal (.reflection RepeatBaseTypeMsg)) [0x0B]
      = .throw .runtime_error ∧
    from_pb 10 RepeatBaseTypeMsg (defaultVal (.reflection RepeatBaseTypeMsg))
        [0x3A, 0x01, 0x61, 0x3B, 0x01, 0x62]
      = .ok (.record [.seq [], .seq [], .seq [], .seq [], .seq [], .seq [],
          .seq [.str [0x61], .str [0x62]], .seq []], []) ∧
    from_pb 10 StrI32Map (.record [.map []])
        [0x0A, 0x04, 0x0A, 0x00, 0x10, 0x05, 0x0B, 0x04, 0x0A, 0x01, 0x61, 0x10, 0x06]
      = .ok (.record [.map [(.str [], .int 5), (.str [0x61], .int 6)]], []) := by
  refine ⟨by rfl, by rfl, by rfl⟩

/-! ## C19: the packed scenario of the specification -/

/-- C19: the seven bytes `0A 04 01 AC 02 80 01` decode, with any fuel from 10
on, into `repeated_uint32 = [1, 300, 128]` of a `RepeatBaseTypeMsg` whose
sequences are empty. -/
theorem c19_packed_scenario (k : Nat) :
    from_pb (10 + k) RepeatBaseTypeMsg (defaultVal (.reflection RepeatBaseTypeMsg))
        [0x0A, 0x04, 0x01, 0xAC, 0x02, 0x80, 0x01]
      = .ok (.record [.seq [.int 1, .int 300, .int 128], .seq [], .seq [], .seq [], .seq [],
          .seq [], .seq [], .seq []], []) := by
  have h10 : from_pb 10 RepeatBaseTypeMsg (defaultVal (.reflection RepeatBaseTypeMsg))
        [0x0A, 0x04, 0x01, 0xAC, 0x02, 0x80, 0x01]
      = .ok (.record [.seq [.int 1, .int 300, .int 128], .seq [], .seq [], .seq [], .seq [],
          .seq [], .seq [], .seq []], []) := by rfl
  rcases from_pb_fuel_le (Nat.le_add_right 10 k) RepeatBaseTypeMsg
    (defaultVal (.reflection RepeatBaseTypeMsg)) [0x0A, 0x04, 0x01, 0xAC, 0x02, 0x80, 0x01]
    with h | h
  · rw [h10] at h; cases h
  · rw [← h, h10]

/-! ## C20: tags are reduced modulo `2 ^ 32` -/

/-- C20: two inputs whose tags have varint values congruent modulo `2 ^ 32` and
that agree after the tag are decoded alike by `from_pb`: the tag is dispatched
on the field number `(v % 2 ^ 32) >>> 3`, which is below `2 ^ 29`, and on the
wire type `(v % 2 ^ 32) &&& 7`, which is `v &&& 7`. -/
theorem c20_tag_reduced_mod_2_32 (fuel : Nat) (fs : List FieldDecl) (t : Val)
    (pb1 pb2 : Bytes) (v1 v2 pos1 pos2 : Nat)
    (h1 : decode_varint pb1 = .ok (v1, pos1)) (h2 : decode_varint pb2 = .ok (v2, pos2))
    (hcong : v1 % 2 ^ 32 = v2 % 2 ^ 32) (hrest : pb1.drop pos1 = pb2.drop pos2) :
    from_pb fuel fs t pb1 = from_pb fuel fs t pb2 ∧
    (v1 % 2 ^ 32) >>> 3 < 2 ^ 29 ∧
    (v1 % 2 ^ 32) &&& 7 = v1 &&& 7 := by
  refine ⟨?_, ?_, ?_⟩
  · cases fuel with
    | zero => simp [from_pb]
    | succ fuel =>
      have hp1 := decode_varint_pos h1
      have hp2 := decode_varint_pos h2
      have hne1 : pb1.isEmpty = false := by
        cases pb1 with
        | nil => simp at hp1; omega
        | cons b bs => rfl
      have hne2 : pb2.isEmpty = false := by
        cases pb2 with
        | nil => simp at hp2; omega
        | cons b bs => rfl
      simp only [from_pb, hne1, hne2, h1, h2, Outcome.ok_bind, substr_ok hp1.2,
        substr_ok hp2.2, hcong, hrest, Bool.false_eq_true, if_false]
  · rw [Nat.shiftRight_eq_div_pow]
    have : v1 % 2 ^ 32 < 2 ^ 32 := Nat.mod_lt _ (by decide)
    omega
  · have h7 : ∀ n : Nat, n &&& 7 = n % 8 := fun n => Nat.and_pow_two_sub_one_eq_mod n 3
    rw [h7, h7]
    omega

theorem c20_tag_reduced_mod_2_32_witness :
    (from_pb 5 OneInt (.record [.int 0]) [0x08, 0x01]
      = from_pb 5 OneInt (.record [.int 0]) [0x88, 0x80, 0x80, 0x80, 0x10, 0x01] ∧
    (8 % 2 ^ 32) >>> 3 < 2 ^ 29 ∧ (8 % 2 ^ 32) &&& 7 = 8 &&& 7) ∧
    decode_varint [0x88, 0x80, 0x80, 0x80, 0x10, 0x01] = .ok (2 ^ 32 + 8, 5) ∧
    from_pb 5 OneInt (.record [.int 0]) [0x88, 0x80, 0x80, 0x80, 0x10, 0x01]
      = .ok (.record [.int 1], []) :=
  ⟨c20_tag_reduced_mod_2_32 5 OneInt (.record [.int 0]) [0x08, 0x01]
    [0x88, 0x80, 0x80, 0x80, 0x10, 0x01] 8 (2 ^ 32 + 8) 1 5 (by rfl) (by rfl) (by decide)
    (by rfl), by rfl, by rfl⟩

/-! ## C17: fixed-width reads -/

theorem le_value_lt (bs : Bytes) (h : ∀ b ∈ bs, b < 256) : le_value bs < 256 ^ bs.length := by
  induction bs with
  | nil => simp [le_value]
  | cons b bs ih =>
    have hb := h b (List.mem_cons_self _ _)
    have := ih (fun x hx => h x (List.mem_cons_of_mem _ hx))
    simp only [le_value, List.length_cons, Nat.pow_succ]
    omega

/-- The little-endian bytes of the value of a byte sequence are that sequence. -/
theorem le_bytes_le_value (bs : Bytes) (h : ∀ b ∈ bs, b < 256) :
    le_bytes bs.length (le_value bs) = bs := by
  induction bs with
  | nil => rfl
  | cons b bs ih =>
    have hb := h b (List.mem_cons_self _ _)
    have := ih (fun x hx => h x (List.mem_cons_of_mem _ hx))
    simp only [le_value, List.length_cons, le_bytes]
    rw [show (b + 256 * le_value bs) % 256 = b by omega,
      show (b + 256 * le_value bs) / 256 = le_value bs by omega, this]

theorem bit_pattern_unsigned (bits raw : Nat) (h : raw < 2 ^ bits) :
    bit_pattern bits (.int (raw : Int)) = raw := by
  simp only [bit_pattern]
  rw [Int.emod_eq_of_lt (by omega) (by exact_mod_cast h)]
  simp

theorem bit_pattern_to_signed (bits raw : Nat) (h : raw < 2 ^ bits) :
    bit_pattern bits (.int (to_signed bits raw)) = raw := by
  simp only [bit_pattern, to_signed, Nat.mod_eq_of_lt h]
  split
  · rw [Int.emod_eq_of_lt (by omega) (by exact_mod_cast h)]
    simp
  · rw [Int.sub_emod, Int.emod_self, sub_zero, Int.emod_emod,
      Int.emod_eq_of_lt (by omega) (by exact_mod_cast h)]
    simp

theorem take_pattern (pb_str : Bytes) (N : Nat) (x : Val) (hfit : N ≤ pb_str.length)
    (hx : bit_pattern (8 * N) x = le_value (pb_str.take N))
    (hbytes : ∀ b ∈ pb_str, b < 256) :
    le_bytes N (bit_pattern (8 * N) x) = pb_str.take N := by
  have hlen : (pb_str.take N).length = N := by simp [hfit]
  have h := le_bytes_le_value (pb_str.take N) (fun b hb => hbytes b (List.mem_of_mem_take hb))
  rw [hlen] at h
  rw [hx, h]

theorem le_value_take_lt (pb_str : Bytes) (N : Nat) (hfit : N ≤ pb_str.length)
    (hbytes : ∀ b ∈ pb_str, b < 256) : le_value (pb_str.take N) < 2 ^ (8 * N) := by
  have hlen : (pb_str.take N).length = N := by simp [hfit]
  have := le_value_lt (pb_str.take N) (fun b hb => hbytes b (List.mem_of_mem_take hb))
  rw [hlen] at this
  rwa [Nat.pow_mul, show (2 : Nat) ^ 8 = 256 by norm_num]

theorem le_bytes_inj : ∀ (N a b : Nat), a < 256 ^ N → b < 256 ^ N →
    le_bytes N a = le_bytes N b → a = b := by
  intro N
  induction N with
  | zero => intro a b ha hb _; simp at ha hb; omega
  | succ n ih =>
    intro a b ha hb h
    simp only [le_bytes, List.cons.injEq] at h
    have ha1 : a / 256 < 256 ^ n := by
      apply Nat.div_lt_of_lt_mul
      rw [Nat.pow_succ] at ha
      omega
    have hb1 : b / 256 < 256 ^ n := by
      apply Nat.div_lt_of_lt_mul
      rw [Nat.pow_succ] at hb
      omega
    have := ih _ _ ha1 hb1 h.2
    omega

/-- A value of a fixed-width kind is determined by the little-endian
representation of its bit pattern. -/
theorem value_of_kind_unique {t : PbType} {N : Nat} {x y : Val} (hN : N = 4 ∨ N = 8)
    (hx : ValueOfKind t N x) (hy : ValueOfKind t N y)
    (h : le_bytes N (bit_pattern (8 * N) y) = le_bytes N (bit_pattern (8 * N) x)) : y = x := by
  have hpow : (256 : Nat) ^ N = 2 ^ (8 * N) := by
    rw [Nat.pow_mul]
  have hlt : ∀ z, ValueOfKind t N z → bit_pattern (8 * N) z < 256 ^ N := by
    intro z hz
    rw [hpow]
    cases z <;> simp only [ValueOfKind] at hz
    case int i =>
      simp only [bit_pattern]
      have hM : (0 : Int) < ((2 ^ (8 * N) : Nat) : Int) := by positivity
      have := Int.emod_lt_of_pos i hM
      have := Int.emod_nonneg i (ne_of_gt hM)
      omega
    case bits n => exact hz.2
  have hpat := le_bytes_inj N _ _ (hlt y hy) (hlt x hx) h
  rcases hN with rfl | rfl
  · cases x <;> cases y <;> simp only [ValueOfKind] at hx hy <;>
      simp only [bit_pattern] at hpat
    case int.int i j =>
      norm_num at hx hy hpat
      congr 1
      rcases hx with ⟨rfl, hx⟩ | ⟨rfl, hx⟩ <;> rcases hy with ⟨hy0, hy⟩ | ⟨hy0, hy⟩ <;>
        first | omega | (cases hy0)
    case int.bits => rcases hx with ⟨rfl, _⟩ | ⟨rfl, _⟩ <;> rcases hy.1 with h | h <;> cases h
    case bits.int => rcases hy with ⟨rfl, _⟩ | ⟨rfl, _⟩ <;> rcases hx.1 with h | h <;> cases h
    case bits.bits n m => rw [hpat]
  · cases x <;> cases y <;> simp only [ValueOfKind] at hx hy <;>
      simp only [bit_pattern] at hpat
    case int.int i j =>
      norm_num at hx hy hpat
      congr 1
      rcases hx with ⟨rfl, hx⟩ | ⟨rfl, hx⟩ <;> rcases hy with ⟨hy0, hy⟩ | ⟨hy0, hy⟩ <;>
        first | omega | (cases hy0)
    case int.bits => rcases hx with ⟨rfl, _⟩ | ⟨rfl, _⟩ <;> rcases hy.1 with h | h <;> cases h
    case bits.int => rcases hy with ⟨rfl, _⟩ | ⟨rfl, _⟩ <;> rcases hx.1 with h | h <;> cases h
    case bits.bits n m => rw [hpat]

/-- The result of a fixed-width read is a value of the kind. -/
theorem value_of_kind_read (signed : Bool) (N raw : Nat) (hN : N = 4 ∨ N = 8)
    (hraw : raw < 2 ^ (8 * N)) :
    ValueOfKind (.fixed N signed) N (.int (if signed then to_signed (8 * N) raw else raw)) := by
  cases signed
  · simp only [ValueOfKind, Bool.false_eq_true, if_false]
    left
    exact ⟨trivial, by omega, by exact_mod_cast hraw⟩
  · simp only [ValueOfKind, if_true]
    right
    refine ⟨trivial, ?_⟩
    rcases hN with rfl | rfl <;> simp only [to_signed] <;> norm_num at hraw ⊢ <;>
      split <;> omega

/-- C17: a field of a fixed-width kind of `N` bytes (4 for `fixed32_t`,
`sfixed32_t`, `float`; 8 for `fixed64_t`, `sfixed64_t`, `double`). With fewer
than `N` bytes left the decoding throws. Otherwise it returns `x` and leaves
what follows the next `N` bytes, where `x` is a value of the kind (unsigned
for `fixedN_t`, two's complement for `sfixedN_t`, a bit pattern for `float`
and `double`) whose bit pattern has the next `N` bytes as its little-endian
representation; `x` is the only such value. -/
theorem c17_fixed_width_reads (fuel : Nat) (t : PbType) (N : Nat) (val : Val) (pb_str : Bytes)
    (field_no : Nat) (hkind : FixedKind t N) (hbytes : ∀ b ∈ pb_str, b < 256) :
    (pb_str.length < N →
      from_pb_impl (fuel + 1) t val pb_str field_no = .throw .invalid_argument) ∧
    (N ≤ pb_str.length → ∃ x,
      from_pb_impl (fuel + 1) t val pb_str field_no = .ok (x, pb_str.drop N) ∧
      ValueOfKind t N x ∧
      le_bytes N (bit_pattern (8 * N) x) = pb_str.take N ∧
      ∀ y, ValueOfKind t N y → le_bytes N (bit_pattern (8 * N) y) = pb_str.take N → y = x) := by
  have hN : N = 4 ∨ N = 8 := by
    rcases hkind with ⟨h, -⟩ | ⟨-, rfl⟩ | ⟨-, rfl⟩
    · exact h
    · exact Or.inl rfl
    · exact Or.inr rfl
  have key : ∀ x, ValueOfKind t N x → le_bytes N (bit_pattern (8 * N) x) = pb_str.take N →
      ValueOfKind t N x ∧ le_bytes N (bit_pattern (8 * N) x) = pb_str.take N ∧
      ∀ y, ValueOfKind t N y → le_bytes N (bit_pattern (8 * N) y) = pb_str.take N → y = x :=
    fun x hx hpat => ⟨hx, hpat, fun y hy hy1 => value_of_kind_unique hN hx hy (hy1.trans hpat.symm)⟩
  rcases hkind with ⟨_, signed, rfl⟩ | ⟨rfl, rfl⟩ | ⟨rfl, rfl⟩
  · constructor
    · intro hshort
      simp only [from_pb_impl, if_pos hshort]
    · intro hfit
      have hraw := le_value_take_lt pb_str N hfit hbytes
      simp only [from_pb_impl, if_neg (Nat.not_lt.mpr hfit), substr_ok hfit, Outcome.ok_bind]
      refine ⟨_, rfl, key _ (value_of_kind_read signed N _ hN hraw)
        (take_pattern pb_str N _ hfit ?_ hbytes)⟩
      cases signed
      · exact bit_pattern_unsigned _ _ hraw
      · exact bit_pattern_to_signed _ _ hraw
  · constructor
    · intro hshort
      simp only [from_pb_impl, if_pos hshort]
    · intro hfit
      have hraw := le_value_take_lt pb_str 4 hfit hbytes
      simp only [from_pb_impl, if_neg (Nat.not_lt.mpr hfit), substr_ok hfit, Outcome.ok_bind]
      exact ⟨_, rfl, key _ ⟨Or.inl rfl, hraw⟩ (take_pattern pb_str 4 _ hfit rfl hbytes)⟩
  · constructor
    · intro hshort
      simp only [from_pb_impl, if_pos hshort]
    · intro hfit
      have hraw := le_value_take_lt pb_str 8 hfit hbytes
      simp only [from_pb_impl, if_neg (Nat.not_lt.mpr hfit), substr_ok hfit, Outcome.ok_bind]
      exact ⟨_, rfl, key _ ⟨Or.inr rfl, hraw⟩ (take_pattern pb_str 8 _ hfit rfl hbytes)⟩

theorem c17_fixed_width_reads_witness :
    ([0xFE, 0xFF, 0xFF, 0xFF, 0x07].length < 4 →
      from_pb_impl (2 + 1) (.fixed 4 true) (.int 0) [0xFE, 0xFF, 0xFF, 0xFF, 0x07] 5
        = .throw .invalid_argument) ∧
    (4 ≤ [0xFE, 0xFF, 0xFF, 0xFF, 0x07].length → ∃ x,
      from_pb_impl (2 + 1) (.fixed 4 true) (.int 0) [0xFE, 0xFF, 0xFF, 0xFF, 0x07] 5
        = .ok (x, [0xFE, 0xFF, 0xFF, 0xFF, 0x07].drop 4) ∧
      ValueOfKind (.fixed 4 true) 4 x ∧
      le_bytes 4 (bit_pattern (8 * 4) x) = [0xFE, 0xFF, 0xFF, 0xFF, 0x07].take 4 ∧
      ∀ y, ValueOfKind (.fixed 4 true) 4 y →
        le_bytes 4 (bit_pattern (8 * 4) y) = [0xFE, 0xFF, 0xFF, 0xFF, 0x07].take 4 → y = x) ∧
    from_pb_impl (2 + 1) (.fixed 4 true) (.int 0) [0xFE, 0xFF, 0xFF, 0xFF, 0x07] 5
      = .ok (.int (-2), [0x07]) :=
  ⟨(c17_fixed_width_reads 2 (.fixed 4 true) 4 (.int 0) [0xFE, 0xFF, 0xFF, 0xFF, 0x07] 5
      (Or.inl ⟨Or.inl rfl, true, rfl⟩) (by decide)).1,
   (c17_fixed_width_reads 2 (.fixed 4 true) 4 (.int 0) [0xFE, 0xFF, 0xFF, 0xFF, 0x07] 5
      (Or.inl ⟨Or.inl rfl, true, rfl⟩) (by decide)).2,
   by rfl⟩

/-- The fixed-width reads on concrete inputs: `78 56 34 12` is the `fixed32_t`
`0x12345678`, `FF FF FF FF` the `sfixed32_t` -1, and three bytes are too few. -/
theorem fixed_width_examples :
    from_pb_impl 3 (.fixed 4 false) (.int 0) [0x78, 0x56, 0x34, 0x12, 0xFF] 3
      = .ok (.int 0x12345678, [0xFF]) ∧
    from_pb_impl 3 (.fixed 4 true) (.int 0) [0xFF, 0xFF, 0xFF, 0xFF] 5 = .ok (.int (-1), []) ∧
    from_pb_impl 3 .float (.bits 0) [0x00, 0x00, 0x80, 0x3F] 5 = .ok (.bits 0x3F800000, []) ∧
    from_pb_impl 3 .double (.bits 0) [0x00, 0x00, 0x80] 5 = .throw .invalid_argument := by
  refine ⟨by rfl, by rfl, by rfl, by rfl⟩

/-! ## C16: zig-zag -/

/-- Exclusive or with the all-ones pattern is the complement. -/
theorem xor_all_ones (w x : Nat) (h : x < 2 ^ w) : Nat.xor x (2 ^ w - 1) = 2 ^ w - 1 - x := by
  show x ^^^ (2 ^ w - 1) = 2 ^ w - 1 - x
  apply Nat.eq_of_testBit_eq
  intro i
  rw [Nat.testBit_xor, Nat.testBit_two_pow_sub_one,
    show 2 ^ w - 1 - x = 2 ^ w - (x + 1) by omega, Nat.testBit_two_pow_sub_succ h]
  by_cases hi : i < w
  · simp [hi]
  · have : x < 2 ^ i := Nat.lt_of_lt_of_le h (Nat.pow_le_pow_right (by decide) (by omega))
    simp [hi, Nat.testBit_lt_two_pow this]

theorem xor_zero_right (x : Nat) : Nat.xor x 0 = x := Nat.xor_zero x

/-- The zig-zag code of `s`: `2 s` for `s ≥ 0` and `-2 s - 1` for `s < 0`. -/
theorem zigzag_encode_eq (bits : Nat) (hbits : 0 < bits) (s : Int)
    (hlo : -((2 ^ (bits - 1) : Nat) : Int) ≤ s) (hhi : s < ((2 ^ (bits - 1) : Nat) : Int)) :
    (zigzag_encode bits s : Int) = if 0 ≤ s then 2 * s else -2 * s - 1 := by
  obtain ⟨w, rfl⟩ : ∃ w, bits = w + 1 := ⟨bits - 1, by omega⟩
  simp only [Nat.add_sub_cancel] at hlo hhi
  have hpow : 2 ^ (w + 1) = 2 * 2 ^ w := by rw [Nat.pow_succ]; omega
  generalize hH : 2 ^ w = H at *
  simp only [zigzag_encode, hpow, Nat.shiftLeft_eq, Nat.pow_one]
  by_cases hs : 0 ≤ s
  · obtain ⟨n, rfl⟩ := Int.eq_ofNat_of_zero_le hs
    have hn : n < H := by exact_mod_cast hhi
    rw [if_neg (by omega), if_pos hs, xor_zero_right]
    rw [Int.emod_eq_of_lt (by omega) (by push_cast; omega)]
    simp only [Int.toNat_ofNat]
    rw [Nat.mod_eq_of_lt (by omega)]
    push_cast
    omega
  · obtain ⟨k, rfl⟩ : ∃ k : Nat, s = -((k : Int) + 1) := ⟨(-s - 1).toNat, by omega⟩
    have hk : k < H := by omega
    rw [if_pos (by omega), if_neg hs]
    have hmod : (-((k : Int) + 1)) % ((2 * H : Nat) : Int) = ((2 * H - (k + 1) : Nat) : Int) := by
      rw [← Int.add_emod_self, Int.emod_eq_of_lt (by omega) (by omega)]
      omega
    rw [hmod, Int.toNat_ofNat]
    have hsh : (2 * H - (k + 1)) * 2 % (2 * H) = 2 * H - 2 * k - 2 := by
      have : (2 * H - (k + 1)) * 2 = (2 * H - 2 * k - 2) + 1 * (2 * H) := by omega
      rw [this, Nat.add_mul_mod_self_right, Nat.mod_eq_of_lt (by omega)]
    rw [hsh]
    have hx := xor_all_ones (w + 1) (2 * H - 2 * k - 2) (by rw [hpow]; omega)
    rw [hpow] at hx
    rw [hx]
    omega

/-- The zig-zag decoding of `u`: `u / 2` for an even `u`, `-(u / 2) - 1` for an
odd one. -/
theorem decode_zigzag_eq (bits : Nat) (hbits : 0 < bits) (u : Nat) (hu : u < 2 ^ bits) :
    decode_zigzag bits u = if u % 2 = 0 then ((u / 2 : Nat) : Int) else -((u / 2 : Nat) : Int) - 1 := by
  obtain ⟨w, rfl⟩ : ∃ w, bits = w + 1 := ⟨bits - 1, by omega⟩
  have hpow : 2 ^ (w + 1) = 2 * 2 ^ w := by rw [Nat.pow_succ]; omega
  have hx := xor_all_ones (w + 1) (u / 2) (by omega)
  simp only [decode_zigzag, to_signed, Nat.mod_eq_of_lt hu, Nat.shiftRight_eq_div_pow,
    Nat.pow_one, Nat.and_one_is_mod, Nat.add_sub_cancel]
  by_cases heven : u % 2 = 0
  · rw [if_pos heven, if_pos heven, xor_zero_right, Nat.mod_eq_of_lt (by omega), if_pos (by omega)]
  · rw [if_neg heven, if_neg heven, hx, Nat.mod_eq_of_lt (by omega), if_neg (by omega)]
    omega

/-- Zig-zag round trip at a width of `bits` bits. -/
theorem decode_zigzag_encode (bits : Nat) (hbits : 0 < bits) (s : Int)
    (hlo : -((2 ^ (bits - 1) : Nat) : Int) ≤ s) (hhi : s < ((2 ^ (bits - 1) : Nat) : Int)) :
    zigzag_encode bits s < 2 ^ bits ∧ decode_zigzag bits (zigzag_encode bits s) = s := by
  have henc := zigzag_encode_eq bits hbits s hlo hhi
  obtain ⟨w, rfl⟩ : ∃ w, bits = w + 1 := ⟨bits - 1, by omega⟩
  simp only [Nat.add_sub_cancel] at hlo hhi
  have hpow : 2 ^ (w + 1) = 2 * 2 ^ w := by rw [Nat.pow_succ]; omega
  have hlt : zigzag_encode (w + 1) s < 2 ^ (w + 1) := by
    split at henc <;> omega
  refine ⟨hlt, ?_⟩
  rw [decode_zigzag_eq (w + 1) hbits _ hlt]
  split at henc <;> split <;> omega

/-- C16: a `sint32_t` field whose varint payload has the value
`zigzag_encode 32 s`, for `s` a signed 32-bit number, decodes to `s`; a
`sint64_t` field whose payload is `zigzag_encode 64 s`, for `s` a signed 64-bit
number, decodes to `s`. -/
theorem c16_zigzag_decoding (fuel : Nat) (val : Val) (pb_str : Bytes) (field_no pos : Nat)
    (s : Int) :
    (-2 ^ 31 ≤ s → s < 2 ^ 31 → decode_varint pb_str = .ok (zigzag_encode 32 s, pos) →
      from_pb_impl (fuel + 1) (.signed_varint 4) val pb_str field_no
        = .ok (.int s, pb_str.drop pos)) ∧
    (-2 ^ 63 ≤ s → s < 2 ^ 63 → decode_varint pb_str = .ok (zigzag_encode 64 s, pos) →
      from_pb_impl (fuel + 1) (.signed_varint 8) val pb_str field_no
        = .ok (.int s, pb_str.drop pos)) := by
  constructor
  · intro hlo hhi hv
    have hpos := decode_varint_pos hv
    obtain ⟨hlt, hrt⟩ := decode_zigzag_encode 32 (by decide) s (by norm_num; omega)
      (by norm_num; omega)
    simp only [from_pb_impl, hv, Outcome.ok_bind, substr_ok hpos.2]
    rw [if_neg (by decide), Nat.mod_eq_of_lt hlt, hrt]
  · intro hlo hhi hv
    have hpos := decode_varint_pos hv
    obtain ⟨_, hrt⟩ := decode_zigzag_encode 64 (by decide) s (by norm_num; omega)
      (by norm_num; omega)
    simp only [from_pb_impl, hv, Outcome.ok_bind, substr_ok hpos.2]
    rw [if_pos trivial, hrt]

theorem c16_zigzag_decoding_witness :
    (from_pb_impl (2 + 1) (.signed_varint 4) (.int 0) [0x01] 1 = .ok (.int (-1), [0x01].drop 1) ∧
     from_pb_impl (2 + 1) (.signed_varint 8) (.int 0) [0x01] 1 = .ok (.int (-1), [0x01].drop 1)) ∧
    from_pb 5 IguanaTypeMsg (defaultVal (.reflection IguanaTypeMsg)) [0x08, 0x01]
      = .ok (.record [.int (-1), .int 0, .int 0, .int 0, .int 0, .int 0], []) :=
  ⟨⟨(c16_zigzag_decoding 2 (.int 0) [0x01] 1 1 (-1)).1 (by decide) (by decide) (by rfl),
    (c16_zigzag_decoding 2 (.int 0) [0x01] 1 1 (-1)).2 (by decide) (by decide) (by rfl)⟩,
   by rfl⟩

/-! ## The loop of `from_pb`, iteration by iteration -/

/-- More fuel does not change the outcome of `parse_oneof`, unless it was a
lack of fuel. -/
theorem parse_oneof_fuel_le {n m : Nat} (h : n ≤ m) (i : Nat) (t : PbType) (no : Nat)
    (s : Bytes) : (parse_oneof n i t no s).le (parse_oneof m i t no s) := by
  induction h with
  | refl => exact Outcome.le_refl _
  | step _ ih => exact Outcome.le_trans ih ((fuelMono _).2.2.2.2.2.1 i t no s)

theorem from_pb_nil (fuel : Nat) (fs : List FieldDecl) (t : Val) :
    from_pb (fuel + 1) fs t [] = .ok (t, []) := by
  simp [from_pb]

/-- An iteration of the loop followed by a run of `from_pb` from the state it
leads to is a run of `from_pb` from the state it starts in. -/
theorem from_pb_of_step {fs : List FieldDecl} {t : Val} {pb_str : Bytes} {member : Member}
    {x : Val} {pb1 : Bytes} {r : Val × Bytes} (hstep : LoopStep fs t pb_str member x pb1)
    (hnext : ∃ F, ∀ fuel, F ≤ fuel → from_pb fuel fs (t.set_slot member.slot x) pb1 = .ok r) :
    ∃ F, ∀ fuel, F ≤ fuel → from_pb fuel fs t pb_str = .ok r := by
  obtain ⟨v, pos, f, htag, hmem, hwire, hdec⟩ := hstep
  obtain ⟨F, hF⟩ := hnext
  refine ⟨max f F + 1, ?_⟩
  intro fuel hfuel
  obtain ⟨fuel, rfl⟩ : ∃ k, fuel = k + 1 := ⟨fuel - 1, by omega⟩
  have hpos := decode_varint_pos htag
  have hne : pb_str.isEmpty = false := by
    cases pb_str with
    | nil => simp at hpos; omega
    | cons b bs => rfl
  have hf : f ≤ fuel := by omega
  simp only [from_pb, hne, htag, Outcome.ok_bind, substr_ok hpos.2, hmem]
  rw [if_neg (not_not.mpr hwire)]
  cases harm : member.arm with
  | some index =>
    rw [harm] at hdec
    simp only [Outcome.le_ok (parse_oneof_fuel_le hf _ _ _ _) hdec, Outcome.ok_bind]
    exact hF fuel (by omega)
  | none =>
    rw [harm] at hdec
    simp only [Outcome.le_ok (from_pb_impl_fuel_le hf _ _ _ _) hdec, Outcome.ok_bind]
    exact hF fuel (by omega)

/-- Iterations of the loop followed by a run of `from_pb` from the state they
lead to are a run of `from_pb` from the state they start in. -/
theorem from_pb_of_run {fs : List FieldDecl} {P : Member → Prop} {t : Val} {pb_str : Bytes}
    {t2 : Val} {pb2 : Bytes} {r : Val × Bytes} (hrun : LoopRun fs P t pb_str t2 pb2)
    (hnext : ∃ F, ∀ fuel, F ≤ fuel → from_pb fuel fs t2 pb2 = .ok r) :
    ∃ F, ∀ fuel, F ≤ fuel → from_pb fuel fs t pb_str = .ok r := by
  induction hrun with
  | done t pb_str => exact hnext
  | step hstep _ _ ih => exact from_pb_of_step hstep (ih hnext)

theorem slot_set_slot_ne (t : Val) (i j : Nat) (x : Val) (h : i ≠ j) :
    (t.set_slot i x).slot j = t.slot j := by
  cases t <;> simp [Val.set_slot, Val.slot, List.getElem?_set_ne h]

theorem slot_set_slot_self (t : Val) (i : Nat) (x : Val) (h : t.has_slot i) :
    (t.set_slot i x).slot i = x := by
  obtain ⟨slots, rfl, hi⟩ := h
  simp [Val.set_slot, Val.slot, List.getElem?_set_self hi]

theorem has_slot_set_slot (t : Val) (i j : Nat) (x : Val) (h : t.has_slot j) :
    (t.set_slot i x).has_slot j := by
  obtain ⟨slots, rfl, hj⟩ := h
  exact ⟨slots.set i x, rfl, by simpa using hj⟩

/-- Iterations that select other members leave the member number `s` as it
was. -/
theorem loopRun_frame {fs : List FieldDecl} {s : Nat} {t : Val} {pb_str : Bytes} {t2 : Val}
    {pb2 : Bytes} (hrun : LoopRun fs (fun m => m.slot ≠ s) t pb_str t2 pb2) :
    t2.slot s = t.slot s := by
  induction hrun with
  | done t pb_str => rfl
  | step _ hP _ ih => rw [ih, slot_set_slot_ne _ _ _ _ hP]

theorem loopRun_has_slot {fs : List FieldDecl} {P : Member → Prop} {s : Nat} {t : Val}
    {pb_str : Bytes} {t2 : Val} {pb2 : Bytes} (hrun : LoopRun fs P t pb_str t2 pb2)
    (h : t.has_slot s) : t2.has_slot s := by
  induction hrun with
  | done t pb_str => exact h
  | step _ _ _ ih => exact ih (has_slot_set_slot _ _ _ _ h)

/-- Every run of `from_pb` that returns is made of iterations of its loop. -/
theorem loopRun_of_from_pb (fuel : Nat) : ∀ (fs : List FieldDecl) (t : Val) (pb_str : Bytes)
    (t2 : Val) (r : Bytes), from_pb fuel fs t pb_str = .ok (t2, r) →
    LoopRun fs (fun _ => True) t pb_str t2 [] := by
  induction fuel with
  | zero => intro fs t pb_str t2 r h; simp [from_pb] at h
  | succ fuel ih =>
    intro fs t pb_str t2 r h
    simp only [from_pb] at h
    split at h
    · rename_i hempty
      cases h
      have : pb_str = [] := by simpa using hempty
      subst this
      exact LoopRun.done _ _
    obtain ⟨⟨v, pos⟩, hv, h⟩ := Outcome.bind_eq_ok h
    have hpos := decode_varint_pos hv
    simp only [substr_ok hpos.2, Outcome.ok_bind] at h
    obtain ⟨member, hmem, h⟩ := Outcome.bind_eq_ok h
    split at h
    · cases h
    rename_i hwire
    split at h
    · rename_i index harm
      obtain ⟨⟨x, pb1⟩, hx, h⟩ := Outcome.bind_eq_ok h
      exact LoopRun.step ⟨v, pos, fuel, hv, hmem, not_not.mp hwire, by rw [harm]; exact hx⟩ trivial
        (ih _ _ _ _ _ h)
    · rename_i harm
      obtain ⟨⟨x, pb1⟩, hx, h⟩ := Outcome.bind_eq_ok h
      exact LoopRun.step ⟨v, pos, fuel, hv, hmem, not_not.mp hwire, by rw [harm]; exact hx⟩ trivial
        (ih _ _ _ _ _ h)

/-! ## C12: one-of -/

/-- Take any state of the loop of `from_pb` (whatever the one-of holds,
for instance after earlier occurrences of its arms) whose next tag selects the
arm number `index` of a one-of, and let the rest of the stream be read to its
end without selecting an arm of that one-of again (the arms of a one-of are the
table entries of its member). Then `from_pb` returns, and the one-of holds
alternative `index` with the value `item` that `from_pb_impl` decodes from the
payload of this last occurrence, starting from a value-initialised object. -/
theorem oneof_last_arm_on_run (fs : List FieldDecl) (t : Val) (pb_str : Bytes)
    (member : Member) (index : Nat) (x : Val) (pb1 : Bytes) (t2 : Val)
    (hslot : t.has_slot member.slot)
    (hstep : LoopStep fs t pb_str member x pb1)
    (harm : member.arm = some index)
    (hlast : LoopRun fs (fun m => m.slot ≠ member.slot) (t.set_slot member.slot x) pb1 t2 []) :
    (∃ F, ∀ fuel, F ≤ fuel → from_pb fuel fs t pb_str = .ok (t2, [])) ∧
    ∃ item v pos f, decode_varint pb_str = .ok (v, pos) ∧
      from_pb_impl f member.value_type (defaultVal member.value_type) (pb_str.drop pos)
        member.field_no = .ok (item, pb1) ∧
      t2.slot member.slot = .variant index item := by
  refine ⟨from_pb_of_step hstep (from_pb_of_run hlast ⟨1, fun fuel hfuel => ?_⟩), ?_⟩
  · obtain ⟨fuel, rfl⟩ : ∃ k, fuel = k + 1 := ⟨fuel - 1, by omega⟩
    exact from_pb_nil fuel fs t2
  · obtain ⟨v, pos, f, htag, -, -, hdec⟩ := hstep
    rw [harm] at hdec
    cases f with
    | zero => simp [parse_oneof] at hdec
    | succ f =>
      simp only [parse_oneof] at hdec
      obtain ⟨⟨item, rest⟩, hitem, hx⟩ := Outcome.bind_eq_ok hdec
      cases hx
      refine ⟨item, v, pos, f, htag, hitem, ?_⟩
      rw [loopRun_frame hlast, slot_set_slot_self _ _ _ hslot]

theorem oneof_last_arm_on_run_example :
    ((∃ F, ∀ fuel, F ≤ fuel →
        from_pb fuel OneOfMsg (.record [.variant 0 (.int 5), .int 0]) [0x12, 0x01, 0x61, 0x18, 0x07]
          = .ok (.record [.variant 1 (.str [0x61]), .int 7], [])) ∧
      ∃ item v pos f, decode_varint [0x12, 0x01, 0x61, 0x18, 0x07] = .ok (v, pos) ∧
        from_pb_impl f .string (defaultVal .string) ([0x12, 0x01, 0x61, 0x18, 0x07].drop pos) 2
          = .ok (item, [0x18, 0x07]) ∧
        Val.slot (.record [.variant 1 (.str [0x61]), .int 7]) 0 = .variant 1 item) ∧
    from_pb 10 OneOfMsg (.record [.variant 0 (.int 0), .int 0])
        [0x08, 0x05, 0x12, 0x01, 0x61, 0x18, 0x07]
      = .ok (.record [.variant 1 (.str [0x61]), .int 7], []) ∧
    from_pb 10 OneOfMsg (.record [.variant 0 (.int 0), .int 0])
        [0x12, 0x01, 0x61, 0x18, 0x07, 0x08, 0x05, 0x08, 0x06]
      = .ok (.record [.variant 0 (.int 6), .int 7], []) :=
  ⟨oneof_last_arm_on_run OneOfMsg (.record [.variant 0 (.int 5), .int 0])
      [0x12, 0x01, 0x61, 0x18, 0x07] ⟨2, 0, some 1, .string⟩ 1 (.variant 1 (.str [0x61]))
      [0x18, 0x07] (.record [.variant 1 (.str [0x61]), .int 7])
      ⟨_, rfl, by decide⟩
      ⟨0x12, 1, 3, by rfl, by rfl, by decide, by rfl⟩
      rfl
      (@LoopRun.step OneOfMsg _ _ [0x18, 0x07] ⟨3, 1, none, .integral 32 true⟩ (.int 7) [] _ []
        ⟨0x18, 1, 3, by rfl, by rfl, by decide, by rfl⟩ (by decide) (LoopRun.done _ _)),
   by rfl, by rfl⟩

/-- C12 fails on the code when an empty packed field stands between two
occurrences of arms of the one-of. In `10 05 0A 00 1A 01 61` the arm at field
2 is set to 5, the packed field 1 has length 0, and the arm at field 3 is set
to `"a"`, the last occurrence. `from_pb` returns with the one-of still at its
first arm, of value 5: the packed loop has read the bytes `1A 01 61` as
elements (the defect of C5). -/
theorem c12_last_arm_swallowed_by_packed_field :
    from_pb 10 PackedAndOneOf (.record [.seq [], .variant 0 (.int 0)])
        [0x10, 0x05, 0x0A, 0x00, 0x1A, 0x01, 0x61]
      = .ok (.record [.seq [.int 26, .int 1, .int 97], .variant 0 (.int 5)], []) ∧
    from_pb 10 PackedAndOneOf (.record [.seq [], .variant 0 (.int 0)])
        [0x10, 0x05, 0x1A, 0x01, 0x61]
      = .ok (.record [.seq [], .variant 1 (.str [0x61])], []) := by
  refine ⟨by rfl, by rfl⟩

/-! ## C15: interleaved occurrences of an unpacked repeated field -/

/-- A stream in which the occurrences of the unpacked repeated member `m`
come in several runs separated by fields of other members, each of them read
by the loop of `from_pb` up to its own end. `from_pb` returns,
the interposed fields being decoded into their own members on the way, and the
sequence of `m` is what it was at the start followed by the elements of all the
runs in stream order: a later run appends to the elements decoded earlier. -/
theorem interleaved_unpacked_on_run (fs : List FieldDecl) (m : Member) (item : PbType) (f : Nat)
    (t : Val) (pb_str : Bytes) (es : List Val) (t2 : Val) (xs : List Val)
    (hlayout : Interleaved fs m item f t pb_str es t2)
    (hplain : m.arm = none) (htype : m.value_type = .sequence item)
    (hitem : is_lenprefix_v item = true)
    (hslot : t.has_slot m.slot) (hold : t.slot m.slot = .seq xs) :
    (∃ F, ∀ fuel, F ≤ fuel → from_pb fuel fs t pb_str = .ok (t2, [])) ∧
    t2.slot m.slot = .seq (xs ++ es) := by
  induction hlayout generalizing xs with
  | others hrun =>
    refine ⟨from_pb_of_run hrun ⟨1, fun fuel hfuel => ?_⟩, ?_⟩
    · obtain ⟨fuel, rfl⟩ : ∃ k, fuel = k + 1 := ⟨fuel - 1, by omega⟩
      exact from_pb_nil fuel fs _
    · rw [loopRun_frame hrun, hold, List.append_nil]
  | @run t pb_str t1 tag enc1 e1 more rest ys es t2 hrun htag hfirst hmore hrest hold1 _ ih =>
    have hslot1 := loopRun_has_slot hrun hslot
    have hxs : ys = xs := by
      rw [loopRun_frame hrun, hold] at hold1
      cases hold1
      rfl
    subst hxs
    obtain ⟨hret, hfinal⟩ := ih (ys ++ e1 :: more.map (fun o => o.elem))
      (has_slot_set_slot _ _ _ _ hslot1) (slot_set_slot_self _ _ _ hslot1)
    obtain ⟨v, hv, hmem, hwire⟩ := htag
    have hstep : LoopStep fs t1 (tag ++ (enc1 ++ unpacked_stream more rest)) m
        (.seq (ys ++ e1 :: more.map (fun o => o.elem))) rest := by
      refine ⟨v, tag.length, f + more.length + 1 + 1, hv _, hmem, hwire, ?_⟩
      rw [hplain]
      simp only [List.drop_left, htype, hold1, from_pb_impl, hitem, if_true]
      exact from_pb_impl_unpacked_run item m.field_no f rest hrest more enc1 e1 ys _ hfirst hmore
        (Nat.le_refl _)
    refine ⟨from_pb_of_run hrun (from_pb_of_step hstep hret), ?_⟩
    rw [hfinal, List.append_assoc]

/-- A string of one byte `c` is encoded as `01 c`. -/
theorem encodes_string_one (c : Nat) : Encodes 1 .string [0x01, c] (.str [c]) := by
  refine ⟨by simp, ?_⟩
  intro fuel hfuel rest
  obtain ⟨fuel, rfl⟩ : ∃ k, fuel = k + 1 := ⟨fuel - 1, by omega⟩
  have hlen : ¬ (rest.length + 1 + 1 < 2) := by omega
  simp [from_pb_impl, decode_varint, decode_varint_go, substr, hlen]
  rfl

/-- The byte `3A` selects member 7 of `RepeatBaseTypeMsg`, `repeated_string`. -/
theorem selects_repeated_string :
    SelectsMember RepeatBaseTypeMsg [0x3A] ⟨7, 6, none, .sequence .string⟩ := by
  refine ⟨58, ?_, by rfl, by decide⟩
  intro rest
  simp [decode_varint, decode_varint_go]

theorem interleaved_unpacked_on_run_example :
    ((∃ F, ∀ fuel, F ≤ fuel →
        from_pb fuel RepeatBaseTypeMsg (defaultVal (.reflection RepeatBaseTypeMsg))
            [0x3A, 0x01, 0x61, 0x0A, 0x01, 0x05, 0x3A, 0x01, 0x62, 0x3A, 0x01, 0x63]
          = .ok (.record [.seq [.int 5], .seq [], .seq [], .seq [], .seq [], .seq [],
              .seq [.str [0x61], .str [0x62], .str [0x63]], .seq []], [])) ∧
      Val.slot (.record [.seq [.int 5], .seq [], .seq [], .seq [], .seq [], .seq [],
          .seq [.str [0x61], .str [0x62], .str [0x63]], .seq []]) 6
        = .seq ([] ++ [.str [0x61], .str [0x62], .str [0x63]])) ∧
    from_pb 10 RepeatBaseTypeMsg (defaultVal (.reflection RepeatBaseTypeMsg))
        [0x3A, 0x01, 0x61, 0x0A, 0x01, 0x05, 0x3A, 0x01, 0x62, 0x3A, 0x01, 0x63]
      = .ok (.record [.seq [.int 5], .seq [], .seq [], .seq [], .seq [], .seq [],
          .seq [.str [0x61], .str [0x62], .str [0x63]], .seq []], []) :=
  ⟨interleaved_unpacked_on_run RepeatBaseTypeMsg ⟨7, 6, none, .sequence .string⟩ .string 1
      (defaultVal (.reflection RepeatBaseTypeMsg))
      [0x3A, 0x01, 0x61, 0x0A, 0x01, 0x05, 0x3A, 0x01, 0x62, 0x3A, 0x01, 0x63]
      [.str [0x61], .str [0x62], .str [0x63]]
      (.record [.seq [.int 5], .seq [], .seq [], .seq [], .seq [], .seq [],
          .seq [.str [0x61], .str [0x62], .str [0x63]], .seq []]) []
      (@Interleaved.run RepeatBaseTypeMsg ⟨7, 6, none, .sequence .string⟩ .string 1
        (defaultVal (.reflection RepeatBaseTypeMsg)) _
        (defaultVal (.reflection RepeatBaseTypeMsg)) [0x3A] [0x01, 0x61] (.str [0x61]) []
        [0x0A, 0x01, 0x05, 0x3A, 0x01, 0x62, 0x3A, 0x01, 0x63] []
        [.str [0x62], .str [0x63]] _
        (LoopRun.done _ _) selects_repeated_string (encodes_string_one 0x61)
        (by intro o ho; cases ho)
        (Or.inr ⟨10, 1, by rfl, by decide⟩) (by rfl)
        (@Interleaved.run RepeatBaseTypeMsg ⟨7, 6, none, .sequence .string⟩ .string 1
          _ [0x0A, 0x01, 0x05, 0x3A, 0x01, 0x62, 0x3A, 0x01, 0x63]
          (.record [.seq [.int 5], .seq [], .seq [], .seq [], .seq [], .seq [],
            .seq [.str [0x61]], .seq []]) [0x3A] [0x01, 0x62] (.str [0x62])
          [⟨[0x3A], [0x01, 0x63], .str [0x63]⟩] [] [.str [0x61]] [] _
          (@LoopRun.step RepeatBaseTypeMsg _ _ _ ⟨1, 0, none, .sequence (.integral 32 false)⟩
            (.seq [.int 5]) [0x3A, 0x01, 0x62, 0x3A, 0x01, 0x63] _ _
            ⟨10, 1, 4, by rfl, by rfl, by decide, by rfl⟩ (by decide) (LoopRun.done _ _))
          selects_repeated_string (encodes_string_one 0x62)
          (by
            intro o ho
            simp only [List.mem_singleton] at ho
            subst ho
            exact ⟨isTagOf_3A, encodes_string_one 0x63⟩)
          (Or.inl rfl) (by rfl)
          (Interleaved.others (LoopRun.done _ _))))
      rfl rfl (by rfl) ⟨_, rfl, by decide⟩ (by rfl),
   by rfl⟩

/-- C15 fails on the code when the field interposed between two occurrences of
the unpacked repeated field is an empty packed field. In
`3A 01 61 0A 00 3A 01 62` field 7 (`repeated_string`) occurs with `"a"`, then
field 1 (`repeated_uint32`) with length 0, then field 7 with `"b"`. `from_pb`
returns with `repeated_string = ["a"]` and `repeated_uint32 = [58, 1, 98]`: the
packed loop has read the second occurrence as elements (the defect of C5). -/
theorem c15_occurrence_swallowed_by_packed_field :
    from_pb 10 RepeatBaseTypeMsg (defaultVal (.reflection RepeatBaseTypeMsg))
        [0x3A, 0x01, 0x61, 0x0A, 0x00, 0x3A, 0x01, 0x62]
      = .ok (.record [.seq [.int 58, .int 1, .int 98], .seq [], .seq [], .seq [], .seq [],
          .seq [], .seq [.str [0x61]], .seq []], []) ∧
    from_pb 10 RepeatBaseTypeMsg (defaultVal (.reflection RepeatBaseTypeMsg))
        [0x3A, 0x01, 0x61, 0x0A, 0x01, 0x05, 0x3A, 0x01, 0x62]
      = .ok (.record [.seq [.int 5], .seq [], .seq [], .seq [], .seq [], .seq [],
          .seq [.str [0x61], .str [0x62]], .seq []], []) := by
  refine ⟨by rfl, by rfl⟩

/-! ## Termination: no function of the reader runs out of fuel -/

theorem enough_fuel_lt {n1 s1 p1 n s p : Nat} (hn : n1 ≤ n) (hs : s1 ≤ s) (hp : p1 ≤ 1)
    (h : n1 < n ∨ s1 < s ∨ p1 < p) : enough_fuel n1 s1 p1 < enough_fuel n s p := by
  unfold enough_fuel
  have h1 : (n1 + 1) * (2 * s1 + 2) ≤ (n + 1) * (2 * s1 + 2) :=
    Nat.mul_le_mul_right _ (by omega)
  have h2 : (n + 1) * (2 * s1 + 2) ≤ (n + 1) * (2 * s + 2) :=
    Nat.mul_le_mul_left _ (by omega)
  rcases h with h | h | h
  · have h3 : (n1 + 1) * (2 * s1 + 2) + (2 * s1 + 2) ≤ (n + 1) * (2 * s1 + 2) := by
      have : (n1 + 1 + 1) * (2 * s1 + 2) ≤ (n + 1) * (2 * s1 + 2) :=
        Nat.mul_le_mul_right _ (by omega)
      rw [Nat.add_mul (n1 + 1) 1, Nat.one_mul] at this
      exact this
    omega
  · have h3 : (n + 1) * (2 * s1 + 2) + 2 ≤ (n + 1) * (2 * s + 2) := by
      have : (n + 1) * (2 * s1 + 2 + 2) ≤ (n + 1) * (2 * s + 2) :=
        Nat.mul_le_mul_left _ (by omega)
      rw [Nat.mul_add (n + 1) (2 * s1 + 2) 2] at this
      have h4 : 2 ≤ (n + 1) * 2 := by omega
      omega
    omega
  · omega

theorem arm_members_wf_size (slot : Nat) (arms : List (Nat × PbType)) :
    ∀ (i : Nat) (m : Member), m ∈ arm_members slot i arms →
      (wfArms arms = true → m.value_type.wf = true) ∧ m.value_type.size ≤ sizeArms arms := by
  induction arms with
  | nil => intro i m hm; simp [arm_members] at hm
  | cons a arms ih =>
    intro i m hm
    obtain ⟨n, t⟩ := a
    simp only [arm_members, List.mem_cons] at hm
    simp only [wfArms, sizeArms, Bool.and_eq_true]
    rcases hm with rfl | hm
    · exact ⟨fun h => h.1, Nat.le_add_right _ _⟩
    · have := ih _ _ hm
      exact ⟨fun h => this.1 h.2, by omega⟩

theorem field_members_wf_size (fs : List FieldDecl) :
    ∀ (slot : Nat) (m : Member), m ∈ field_members slot fs →
      (wfFields fs = true → m.value_type.wf = true) ∧ m.value_type.size ≤ sizeFields fs := by
  induction fs with
  | nil => intro slot m hm; simp [field_members] at hm
  | cons f fs ih =>
    intro slot m hm
    cases f with
    | plain n t =>
      simp only [field_members, List.mem_cons] at hm
      simp only [wfFields, wfField, sizeFields, sizeField, Bool.and_eq_true]
      rcases hm with rfl | hm
      · exact ⟨fun h => h.1, Nat.le_add_right _ _⟩
      · have := ih _ _ hm
        exact ⟨fun h => this.1 h.2, by omega⟩
    | one_of arms =>
      simp only [field_members, List.mem_append] at hm
      simp only [wfFields, wfField, sizeFields, sizeField, Bool.and_eq_true]
      rcases hm with hm | hm
      · have := arm_members_wf_size _ arms _ _ hm
        exact ⟨fun h => this.1 h.1, by omega⟩
      · have := ih _ _ hm
        exact ⟨fun h => this.1 h.2, by omega⟩

/-- The table entry that `map.at` returns is an entry of the table. -/
theorem members_at_mem {ms : List Member} {k : Nat} {m : Member}
    (h : members_at ms k = .ok m) : m ∈ ms := by
  simp only [members_at] at h
  split at h
  · rename_i m1 hfind
    cases h
    exact List.mem_of_find?_eq_some hfind
  · cases h

theorem members_at_wf_size {fs : List FieldDecl} {k : Nat} {m : Member}
    (h : members_at (get_members fs) k = .ok m) :
    (wfFields fs = true → m.value_type.wf = true) ∧ m.value_type.size ≤ sizeFields fs :=
  field_members_wf_size fs 0 m (members_at_mem h)

theorem bind_decode_varint_ok {β : Type} {pb_str : Bytes} {k : Nat × Nat → Outcome β} {r : β}
    (h : (decode_varint pb_str >>= k) = .ok r) :
    ∃ v pos, decode_varint pb_str = .ok (v, pos) ∧ 0 < pos ∧ pos ≤ pb_str.length ∧
      k (v, pos) = .ok r := by
  obtain ⟨⟨v, pos⟩, hv, hk⟩ := Outcome.bind_eq_ok h
  have := decode_varint_pos hv
  exact ⟨v, pos, hv, this.1, this.2, hk⟩

theorem bind_substr_ok {β : Type} {s : Bytes} {p : Nat} {k : Bytes → Outcome β} {r : β}
    (h : (substr s p >>= k) = .ok r) : p ≤ s.length ∧ k (s.drop p) = .ok r := by
  obtain ⟨s1, hs, hk⟩ := Outcome.bind_eq_ok h
  simp only [substr] at hs
  split at hs
  · cases hs
  · cases hs
    exact ⟨by omega, hk⟩

theorem noLonger (n : Nat) : NoLonger n := by
  induction n with
  | zero =>
    refine ⟨?_, ?_, ?_, ?_, ?_, ?_⟩ <;> intros <;> rename_i h <;>
      simp [from_pb_impl, from_pb_impl_unpacked, from_pb_impl_packed, from_pb_impl_map,
        decode_pair_value, parse_oneof] at h
  | succ n ih =>
    obtain ⟨h1, h2, h3, h4, h5, h6⟩ := ih
    refine ⟨?_, ?_, ?_, ?_, ?_, ?_⟩
    · intro t val s no val1 rest h
      cases t <;> simp only [from_pb_impl] at h
      case integral =>
        obtain ⟨v, pos, -, hp, hle, h⟩ := bind_decode_varint_ok h
        try dsimp only at h
        obtain ⟨-, h⟩ := bind_substr_ok h
        try dsimp only at h
        cases h
        simp
      case bool =>
        obtain ⟨v, pos, -, hp, hle, h⟩ := bind_decode_varint_ok h
        try dsimp only at h
        obtain ⟨-, h⟩ := bind_substr_ok h
        try dsimp only at h
        cases h
        simp
      case signed_varint =>
        obtain ⟨v, pos, -, hp, hle, h⟩ := bind_decode_varint_ok h
        try dsimp only at h
        obtain ⟨-, h⟩ := bind_substr_ok h
        try dsimp only at h
        cases h
        simp
      case fixed =>
        split at h
        · cases h
        obtain ⟨-, h⟩ := bind_substr_ok h
        try dsimp only at h
        cases h
        simp
      case float =>
        split at h
        · cases h
        obtain ⟨-, h⟩ := bind_substr_ok h
        try dsimp only at h
        cases h
        simp
      case double =>
        split at h
        · cases h
        obtain ⟨-, h⟩ := bind_substr_ok h
        try dsimp only at h
        cases h
        simp
      case string =>
        obtain ⟨v, pos, -, hp, hle, h⟩ := bind_decode_varint_ok h
        try dsimp only at h
        split at h
        · cases h
        split at h
        · cases h
        obtain ⟨-, h⟩ := bind_substr_ok h
        try dsimp only at h
        cases h
        simp
      case string_view =>
        obtain ⟨v, pos, -, hp, hle, h⟩ := bind_decode_varint_ok h
        try dsimp only at h
        split at h
        · cases h
        obtain ⟨-, h⟩ := bind_substr_ok h
        try dsimp only at h
        cases h
        simp
      case enum =>
        obtain ⟨⟨value, r⟩, hsub, h⟩ := Outcome.bind_eq_ok h
        try dsimp only at h
        cases h
        exact h1 _ _ _ _ _ _ hsub
      case optional =>
        obtain ⟨⟨value, r⟩, hsub, h⟩ := Outcome.bind_eq_ok h
        try dsimp only at h
        cases h
        exact h1 _ _ _ _ _ _ hsub
      case sequence =>
        split at h
        · exact h2 _ _ _ _ _ _ h
        obtain ⟨v, pos, -, hp, hle, h⟩ := bind_decode_varint_ok h
        try dsimp only at h
        obtain ⟨-, h⟩ := bind_substr_ok h
        try dsimp only at h
        split at h
        · cases h
        have := h3 _ _ _ _ _ _ _ h
        simp only [List.length_drop] at this
        omega
      case map =>
        exact h4 _ _ _ _ _ _ _ h
      case reflection =>
        obtain ⟨v, pos, -, hp, hle, h⟩ := bind_decode_varint_ok h
        try dsimp only at h
        obtain ⟨-, h⟩ := bind_substr_ok h
        try dsimp only at h
        split at h
        · cases h
        split at h
        · cases h
          simp
        obtain ⟨⟨t1, r1⟩, -, h⟩ := Outcome.bind_eq_ok h
        try dsimp only at h
        obtain ⟨-, h⟩ := bind_substr_ok h
        try dsimp only at h
        cases h
        simp only [List.length_drop]
        omega
    · intro t val s no val1 rest h
      simp only [from_pb_impl_unpacked] at h
      split at h
      · cases h
        exact Nat.le_refl _
      obtain ⟨⟨item, s1⟩, hitem, h⟩ := Outcome.bind_eq_ok h
      try dsimp only at h
      have hs1 := h1 _ _ _ _ _ _ hitem
      split at h
      · cases h
        exact hs1
      obtain ⟨v, pos, -, hp, hle, h⟩ := bind_decode_varint_ok h
      try dsimp only at h
      split at h
      · cases h
        exact hs1
      obtain ⟨-, h⟩ := bind_substr_ok h
      try dsimp only at h
      have := h2 _ _ _ _ _ _ h
      simp only [List.length_drop] at this
      omega
    · intro t sz st val s val1 rest h
      simp only [from_pb_impl_packed] at h
      split at h
      · cases h
        exact Nat.le_refl _
      obtain ⟨⟨item, s1⟩, hitem, h⟩ := Outcome.bind_eq_ok h
      try dsimp only at h
      have hs1 := h1 _ _ _ _ _ _ hitem
      split at h
      · cases h
        exact hs1
      have := h3 _ _ _ _ _ _ _ h
      omega
    · intro kt vt val s no val1 rest h
      simp only [from_pb_impl_map] at h
      split at h
      · cases h
        exact Nat.le_refl _
      obtain ⟨v, pos, -, hp, hle, h⟩ := bind_decode_varint_ok h
      try dsimp only at h
      obtain ⟨-, h⟩ := bind_substr_ok h
      try dsimp only at h
      split at h
      · cases h
      obtain ⟨⟨first, s1⟩, hfirst, h⟩ := Outcome.bind_eq_ok h
      try dsimp only at h
      obtain ⟨⟨second, s2⟩, hsecond, h⟩ := Outcome.bind_eq_ok h
      try dsimp only at h
      have hs1 := h5 _ _ _ _ _ hfirst
      have hs2 := h5 _ _ _ _ _ hsecond
      simp only [List.length_drop] at hs1
      split at h
      · cases h
        omega
      obtain ⟨v2, pos2, -, hp2, hle2, h⟩ := bind_decode_varint_ok h
      try dsimp only at h
      split at h
      · cases h
        omega
      obtain ⟨-, h⟩ := bind_substr_ok h
      try dsimp only at h
      have := h4 _ _ _ _ _ _ _ h
      simp only [List.length_drop] at this
      omega
    · intro t val s val1 rest h
      simp only [decode_pair_value] at h
      obtain ⟨v, pos, -, hp, hle, h⟩ := bind_decode_varint_ok h
      try dsimp only at h
      obtain ⟨-, h⟩ := bind_substr_ok h
      try dsimp only at h
      split at h
      · cases h
        simp only [List.length_drop]
        omega
      have := h1 _ _ _ _ _ _ h
      simp only [List.length_drop] at this
      omega
    · intro i t no s val1 rest h
      simp only [parse_oneof] at h
      obtain ⟨⟨item, r⟩, hsub, h⟩ := Outcome.bind_eq_ok h
      try dsimp only at h
      cases h
      exact h1 _ _ _ _ _ _ hsub

/-- An element of a packed field takes at least one byte. -/
theorem packed_item_shortens (n : Nat) : ∀ (t : PbType) (val : Val) (s : Bytes) (no : Nat)
    (val1 : Val) (rest : Bytes), t.wf = true → is_lenprefix_v t = false →
    from_pb_impl n t val s no = .ok (val1, rest) → rest.length < s.length := by
  induction n with
  | zero => intro t val s no val1 rest _ _ h; simp [from_pb_impl] at h
  | succ n ih =>
    intro t val s no val1 rest hwf hlen h
    cases t <;> simp only [from_pb_impl] at h
    case integral =>
      obtain ⟨v, pos, -, hp, hle, h⟩ := bind_decode_varint_ok h
      obtain ⟨-, h⟩ := bind_substr_ok h
      cases h
      simp only [List.length_drop]
      omega
    case bool =>
      obtain ⟨v, pos, -, hp, hle, h⟩ := bind_decode_varint_ok h
      obtain ⟨-, h⟩ := bind_substr_ok h
      cases h
      simp only [List.length_drop]
      omega
    case signed_varint =>
      obtain ⟨v, pos, -, hp, hle, h⟩ := bind_decode_varint_ok h
      obtain ⟨-, h⟩ := bind_substr_ok h
      cases h
      simp only [List.length_drop]
      omega
    case fixed len signed =>
      simp only [PbType.wf, decide_eq_true_eq] at hwf
      split at h
      · cases h
      obtain ⟨-, h⟩ := bind_substr_ok h
      cases h
      simp only [List.length_drop]
      omega
    case float =>
      split at h
      · cases h
      obtain ⟨-, h⟩ := bind_substr_ok h
      cases h
      simp only [List.length_drop]
      omega
    case double =>
      split at h
      · cases h
      obtain ⟨-, h⟩ := bind_substr_ok h
      cases h
      simp only [List.length_drop]
      omega
    case string => simp [is_lenprefix_v, get_wire_type] at hlen
    case string_view => simp [is_lenprefix_v, get_wire_type] at hlen
    case sequence => simp [is_lenprefix_v, get_wire_type] at hlen
    case map => simp [is_lenprefix_v, get_wire_type] at hlen
    case reflection => simp [is_lenprefix_v, get_wire_type] at hlen
    case enum bits signed =>
      obtain ⟨⟨value, r⟩, hsub, h⟩ := Outcome.bind_eq_ok h
      cases h
      exact ih (.integral bits signed) _ _ _ _ _ rfl rfl hsub
    case optional t =>
      obtain ⟨⟨value, r⟩, hsub, h⟩ := Outcome.bind_eq_ok h
      cases h
      exact ih t _ _ _ _ _ hwf hlen hsub

theorem Outcome.ok_ne_fuel {α : Type} (a : α) : Outcome.ok a ≠ Outcome.out_of_fuel := by
  intro h; cases h

theorem Outcome.throw_ne_fuel {α : Type} (e : Exn) :
    (Outcome.throw e : Outcome α) ≠ Outcome.out_of_fuel := by
  intro h; cases h

theorem Outcome.bind_ne_fuel {α β : Type} {m : Outcome α} {k : α → Outcome β}
    (hm : m ≠ .out_of_fuel) (hk : ∀ a, m = .ok a → k a ≠ .out_of_fuel) :
    (m >>= k) ≠ .out_of_fuel := by
  cases m with
  | ok a => exact hk a rfl
  | throw e => exact Outcome.throw_ne_fuel e
  | out_of_fuel => exact absurd rfl hm

theorem decode_varint_go_ne_fuel (s : Bytes) : ∀ (n shift acc p : Nat),
    decode_varint_go n shift acc p s ≠ .out_of_fuel := by
  induction s with
  | nil => intro n shift acc p; simp [decode_varint_go]
  | cons b bs ih =>
    intro n shift acc p
    cases n with
    | zero => simp [decode_varint_go]
    | succ n =>
      simp only [decode_varint_go]
      split
      · split <;> simp
      · exact ih _ _ _ _

theorem bind_decode_varint_ne_fuel {β : Type} {pb_str : Bytes} {k : Nat × Nat → Outcome β}
    (hk : ∀ v pos, decode_varint pb_str = .ok (v, pos) → 0 < pos → pos ≤ pb_str.length →
      k (v, pos) ≠ .out_of_fuel) : (decode_varint pb_str >>= k) ≠ .out_of_fuel := by
  apply Outcome.bind_ne_fuel (decode_varint_go_ne_fuel _ _ _ _ _)
  intro ⟨v, pos⟩ hv
  have := decode_varint_pos hv
  exact hk v pos hv this.1 this.2

theorem bind_substr_ne_fuel {β : Type} {s : Bytes} {p : Nat} {k : Bytes → Outcome β}
    (hk : p ≤ s.length → k (s.drop p) ≠ .out_of_fuel) : (substr s p >>= k) ≠ .out_of_fuel := by
  simp only [substr]
  split
  · exact Outcome.throw_ne_fuel _
  · exact hk (by omega)

theorem bind_members_at_ne_fuel {β : Type} {ms : List Member} {n : Nat} {k : Member → Outcome β}
    (hk : ∀ m, members_at ms n = .ok m → k m ≠ .out_of_fuel) :
    (members_at ms n >>= k) ≠ .out_of_fuel := by
  apply Outcome.bind_ne_fuel
  · simp only [members_at]
    split <;> simp
  · exact hk

theorem terminates (n : Nat) : Terminates n := by
  induction n with
  | zero =>
    refine ⟨?_, ?_, ?_, ?_, ?_, ?_, ?_⟩ <;> intros <;> omega
  | succ n ih =>
    obtain ⟨h1, h2, h3, h4, h5, h6, h7⟩ := ih
    have hA := noLonger n
    refine ⟨?_, ?_, ?_, ?_, ?_, ?_, ?_⟩
    · intro t val s no hwf hfuel
      cases t <;> simp only [from_pb_impl]
      case enum bits signed =>
        have hlt : enough_fuel s.length (PbType.integral bits signed).size 0
            < enough_fuel s.length (PbType.enum bits signed).size 0 :=
          enough_fuel_lt (Nat.le_refl _) (by simp [PbType.size]) (by omega)
            (Or.inr (Or.inl (by simp [PbType.size])))
        apply Outcome.bind_ne_fuel (h1 (.integral bits signed) _ _ _ rfl (by omega))
        intro _ _
        exact Outcome.ok_ne_fuel _
      case optional t =>
        have hlt : enough_fuel s.length t.size 0 < enough_fuel s.length (PbType.optional t).size 0 :=
          enough_fuel_lt (Nat.le_refl _) (by simp [PbType.size]) (by omega)
            (Or.inr (Or.inl (by simp [PbType.size])))
        apply Outcome.bind_ne_fuel (h1 t _ _ _ hwf (by omega))
        intro _ _
        exact Outcome.ok_ne_fuel _
      case sequence item =>
        have hwf1 : item.wf = true := hwf
        split
        · have hlt : enough_fuel s.length item.size 1
              < enough_fuel s.length (PbType.sequence item).size 0 :=
            enough_fuel_lt (Nat.le_refl _) (by simp [PbType.size]) (by omega)
              (Or.inr (Or.inl (by simp [PbType.size])))
          exact h2 _ _ _ _ hwf1 (by omega)
        · rename_i hlen
          apply bind_decode_varint_ne_fuel
          intro v pos _ hp hle
          apply bind_substr_ne_fuel
          intro _
          dsimp only
          split
          · exact Outcome.throw_ne_fuel _
          · have hlt : enough_fuel (s.drop pos).length item.size 1
                < enough_fuel s.length (PbType.sequence item).size 0 :=
              enough_fuel_lt (by simp) (by simp [PbType.size]) (by omega)
                (Or.inl (by simp only [List.length_drop]; omega))
            exact h3 _ _ _ _ _ hwf1 (by simpa using hlen) (by omega)
      case map key value =>
        have hwf1 : key.wf = true ∧ value.wf = true := by
          simpa [PbType.wf] using hwf
        have hlt : enough_fuel s.length (key.size + value.size) 1
            < enough_fuel s.length (PbType.map key value).size 0 :=
          enough_fuel_lt (Nat.le_refl _) (by simp [PbType.size]) (by omega)
            (Or.inr (Or.inl (by simp [PbType.size])))
        exact h4 _ _ _ _ _ hwf1.1 hwf1.2 (by omega)
      case reflection fs =>
        have hwf1 : wfFields fs = true := hwf
        apply bind_decode_varint_ne_fuel
        intro v pos _ hp hle
        apply bind_substr_ne_fuel
        intro _
        dsimp only
        split
        · exact Outcome.throw_ne_fuel _
        split
        · exact Outcome.ok_ne_fuel _
        have hlt : enough_fuel ((s.drop pos).take (v % 2 ^ 32)).length (sizeFields fs) 1
            < enough_fuel s.length (PbType.reflection fs).size 0 :=
          enough_fuel_lt (by simp only [List.length_take, List.length_drop]; omega)
            (by simp [PbType.size]) (by omega)
            (Or.inl (by simp only [List.length_take, List.length_drop]; omega))
        apply Outcome.bind_ne_fuel (h7 _ _ _ hwf1 (by omega))
        intro _ _
        apply bind_substr_ne_fuel
        intro _
        exact Outcome.ok_ne_fuel _
      case integral =>
        apply bind_decode_varint_ne_fuel
        intro v pos _ _ _
        apply bind_substr_ne_fuel
        intro _
        exact Outcome.ok_ne_fuel _
      case bool =>
        apply bind_decode_varint_ne_fuel
        intro v pos _ _ _
        apply bind_substr_ne_fuel
        intro _
        exact Outcome.ok_ne_fuel _
      case signed_varint =>
        apply bind_decode_varint_ne_fuel
        intro v pos _ _ _
        apply bind_substr_ne_fuel
        intro _
        exact Outcome.ok_ne_fuel _
      case fixed =>
        split
        · exact Outcome.throw_ne_fuel _
        apply bind_substr_ne_fuel
        intro _
        exact Outcome.ok_ne_fuel _
      case float =>
        split
        · exact Outcome.throw_ne_fuel _
        apply bind_substr_ne_fuel
        intro _
        exact Outcome.ok_ne_fuel _
      case double =>
        split
        · exact Outcome.throw_ne_fuel _
        apply bind_substr_ne_fuel
        intro _
        exact Outcome.ok_ne_fuel _
      case string =>
        apply bind_decode_varint_ne_fuel
        intro v pos _ _ _
        dsimp only
        split
        · exact Outcome.throw_ne_fuel _
        split
        · exact Outcome.throw_ne_fuel _
        apply bind_substr_ne_fuel
        intro _
        exact Outcome.ok_ne_fuel _
      case string_view =>
        apply bind_decode_varint_ne_fuel
        intro v pos _ _ _
        dsimp only
        split
        · exact Outcome.throw_ne_fuel _
        apply bind_substr_ne_fuel
        intro _
        exact Outcome.ok_ne_fuel _
    · intro t val s no hwf hfuel
      simp only [from_pb_impl_unpacked]
      split
      · exact Outcome.ok_ne_fuel _
      have hlt : enough_fuel s.length t.size 0 < enough_fuel s.length t.size 1 :=
        enough_fuel_lt (Nat.le_refl _) (Nat.le_refl _) (by omega) (Or.inr (Or.inr (by omega)))
      apply Outcome.bind_ne_fuel (h1 _ _ _ _ hwf (by omega))
      intro ⟨item, s1⟩ hitem
      have hs1 := hA.1 _ _ _ _ _ _ hitem
      dsimp only
      split
      · exact Outcome.ok_ne_fuel _
      apply bind_decode_varint_ne_fuel
      intro v pos _ hp hle
      dsimp only
      split
      · exact Outcome.ok_ne_fuel _
      apply bind_substr_ne_fuel
      intro _
      have hlt2 : enough_fuel (s1.drop pos).length t.size 1 < enough_fuel s.length t.size 1 :=
        enough_fuel_lt (by simp only [List.length_drop]; omega) (Nat.le_refl _) (by omega)
          (Or.inl (by simp only [List.length_drop]; omega))
      exact h2 _ _ _ _ hwf (by omega)
    · intro t sz st val s hwf hlen hfuel
      simp only [from_pb_impl_packed]
      split
      · exact Outcome.ok_ne_fuel _
      have hlt : enough_fuel s.length t.size 0 < enough_fuel s.length t.size 1 :=
        enough_fuel_lt (Nat.le_refl _) (Nat.le_refl _) (by omega) (Or.inr (Or.inr (by omega)))
      apply Outcome.bind_ne_fuel (h1 _ _ _ _ hwf (by omega))
      intro ⟨item, s1⟩ hitem
      have hs1 := packed_item_shortens n _ _ _ _ _ _ hwf hlen hitem
      dsimp only
      split
      · exact Outcome.ok_ne_fuel _
      have hlt2 : enough_fuel s1.length t.size 1 < enough_fuel s.length t.size 1 :=
        enough_fuel_lt (by omega) (Nat.le_refl _) (by omega) (Or.inl hs1)
      exact h3 _ _ _ _ _ hwf hlen (by omega)
    · intro kt vt val s no hwfk hwfv hfuel
      simp only [from_pb_impl_map]
      split
      · exact Outcome.ok_ne_fuel _
      apply bind_decode_varint_ne_fuel
      intro v pos _ hp hle
      apply bind_substr_ne_fuel
      intro _
      dsimp only
      split
      · exact Outcome.throw_ne_fuel _
      have hlt : enough_fuel (s.drop pos).length kt.size 1
          < enough_fuel s.length (kt.size + vt.size) 1 :=
        enough_fuel_lt (by simp) (by omega) (by omega)
          (Or.inl (by simp only [List.length_drop]; omega))
      apply Outcome.bind_ne_fuel (h5 _ _ _ hwfk (by omega))
      intro ⟨first, s1⟩ hfirst
      have hs1 := hA.2.2.2.2.1 _ _ _ _ _ hfirst
      simp only [List.length_drop] at hs1
      dsimp only
      have hlt2 : enough_fuel s1.length vt.size 1 < enough_fuel s.length (kt.size + vt.size) 1 :=
        enough_fuel_lt (by omega) (by omega) (by omega) (Or.inl (by omega))
      apply Outcome.bind_ne_fuel (h5 _ _ _ hwfv (by omega))
      intro ⟨second, s2⟩ hsecond
      have hs2 := hA.2.2.2.2.1 _ _ _ _ _ hsecond
      dsimp only
      split
      · exact Outcome.ok_ne_fuel _
      apply bind_decode_varint_ne_fuel
      intro v2 pos2 _ hp2 hle2
      dsimp only
      split
      · exact Outcome.ok_ne_fuel _
      apply bind_substr_ne_fuel
      intro _
      have hlt3 : enough_fuel (s2.drop pos2).length (kt.size + vt.size) 1
          < enough_fuel s.length (kt.size + vt.size) 1 :=
        enough_fuel_lt (by simp only [List.length_drop]; omega) (Nat.le_refl _) (by omega)
          (Or.inl (by simp only [List.length_drop]; omega))
      exact h4 _ _ _ _ _ hwfk hwfv (by omega)
    · intro t val s hwf hfuel
      simp only [decode_pair_value]
      apply bind_decode_varint_ne_fuel
      intro v pos _ hp hle
      apply bind_substr_ne_fuel
      intro _
      dsimp only
      split
      · exact Outcome.ok_ne_fuel _
      have hlt : enough_fuel (s.drop pos).length t.size 0 < enough_fuel s.length t.size 1 :=
        enough_fuel_lt (by simp) (Nat.le_refl _) (by omega)
          (Or.inl (by simp only [List.length_drop]; omega))
      exact h1 _ _ _ _ hwf (by omega)
    · intro i t no s hwf hfuel
      simp only [parse_oneof]
      have hlt : enough_fuel s.length t.size 0 < enough_fuel s.length t.size 1 :=
        enough_fuel_lt (Nat.le_refl _) (Nat.le_refl _) (by omega) (Or.inr (Or.inr (by omega)))
      apply Outcome.bind_ne_fuel (h1 _ _ _ _ hwf (by omega))
      intro _ _
      exact Outcome.ok_ne_fuel _
    · intro fs t s hwf hfuel
      simp only [from_pb]
      split
      · exact Outcome.ok_ne_fuel _
      apply bind_decode_varint_ne_fuel
      intro v pos _ hp hle
      apply bind_substr_ne_fuel
      intro _
      apply bind_members_at_ne_fuel
      intro member hmem
      obtain ⟨hwfm, hsize⟩ := members_at_wf_size hmem
      have hwfm := hwfm hwf
      dsimp only
      split
      · exact Outcome.throw_ne_fuel _
      have hlt : enough_fuel (s.drop pos).length member.value_type.size 1
          < enough_fuel s.length (sizeFields fs) 1 :=
        enough_fuel_lt (by simp) hsize (by omega)
          (Or.inl (by simp only [List.length_drop]; omega))
      have hlt0 : enough_fuel (s.drop pos).length member.value_type.size 0
          < enough_fuel s.length (sizeFields fs) 1 :=
        enough_fuel_lt (by simp) hsize (by omega)
          (Or.inl (by simp only [List.length_drop]; omega))
      have hnext : ∀ (x : Val) (s2 : Bytes), s2.length ≤ (s.drop pos).length →
          from_pb n fs (t.set_slot member.slot x) s2 ≠ .out_of_fuel := by
        intro x s2 hs2
        simp only [List.length_drop] at hs2
        have hlt2 : enough_fuel s2.length (sizeFields fs) 1
            < enough_fuel s.length (sizeFields fs) 1 :=
          enough_fuel_lt (by omega) (Nat.le_refl _) (by omega) (Or.inl (by omega))
        exact h7 _ _ _ hwf (by omega)
      split
      · apply Outcome.bind_ne_fuel (h6 _ _ _ _ hwfm (by omega))
        intro ⟨x, s2⟩ hx
        exact hnext x s2 (hA.2.2.2.2.2 _ _ _ _ _ _ hx)
      · apply Outcome.bind_ne_fuel (h1 _ _ _ _ hwfm (by omega))
        intro ⟨x, s2⟩ hx
        exact hnext x s2 (hA.1 _ _ _ _ _ _ hx)

/-! ## The loops as iterations of their bodies -/

/-- The loop of `from_pb` is the iteration of `from_pb_body`. -/
theorem from_pb_unfold (fuel : Nat) (fs : List FieldDecl) (t : Val) (pb_str : Bytes) :
    from_pb (fuel + 1) fs t pb_str =
      if pb_str.isEmpty then .ok (t, pb_str)
      else from_pb_body fuel fs t pb_str >>= fun r => from_pb fuel fs r.1 r.2 := by
  simp only [from_pb, from_pb_body]
  split
  · rfl
  cases decode_varint pb_str with
  | throw e => rfl
  | out_of_fuel => rfl
  | ok a =>
    simp only [Outcome.ok_bind]
    cases substr pb_str a.2 with
    | throw e => rfl
    | out_of_fuel => rfl
    | ok s1 =>
      simp only [Outcome.ok_bind]
      cases members_at (get_members fs) ((a.1 % 2 ^ 32) >>> 3) with
      | throw e => rfl
      | out_of_fuel => rfl
      | ok member =>
        simp only [Outcome.ok_bind]
        split
        · rfl
        split
        · cases parse_oneof fuel _ member.value_type member.field_no s1 <;> rfl
        · cases from_pb_impl fuel member.value_type (t.slot member.slot) s1 member.field_no <;> rfl

/-- The loop of the non-packed sequence branch is the iteration of
`unpacked_body`. -/
theorem from_pb_impl_unpacked_unfold (fuel : Nat) (item : PbType) (val : Val) (pb_str : Bytes)
    (field_no : Nat) :
    from_pb_impl_unpacked (fuel + 1) item val pb_str field_no =
      if pb_str.isEmpty then .ok (val, pb_str)
      else unpacked_body fuel item val pb_str field_no >>= fun r =>
        if r.2.2 then from_pb_impl_unpacked fuel item r.1 r.2.1 field_no else .ok (r.1, r.2.1) := by
  simp only [from_pb_impl_unpacked, unpacked_body]
  split
  · rfl
  cases from_pb_impl fuel item (defaultVal item) pb_str 0 with
  | throw e => rfl
  | out_of_fuel => rfl
  | ok a =>
    simp only [Outcome.ok_bind]
    split
    · rfl
    cases decode_varint a.2 with
    | throw e => rfl
    | out_of_fuel => rfl
    | ok b =>
      simp only [Outcome.ok_bind]
      split
      · rfl
      cases substr a.2 b.2 <;> rfl

/-- The loop of the packed sequence branch is the iteration of `packed_body`. -/
theorem from_pb_impl_packed_unfold (fuel : Nat) (item : PbType) (size start : Nat) (val : Val)
    (pb_str : Bytes) :
    from_pb_impl_packed (fuel + 1) item size start val pb_str =
      if pb_str.isEmpty then .ok (val, pb_str)
      else packed_body fuel item size start val pb_str >>= fun r =>
        if r.2.2 then from_pb_impl_packed fuel item size start r.1 r.2.1 else .ok (r.1, r.2.1) := by
  simp only [from_pb_impl_packed, packed_body]
  split
  · rfl
  cases from_pb_impl fuel item (defaultVal item) pb_str 0 with
  | throw e => rfl
  | out_of_fuel => rfl
  | ok a =>
    simp only [Outcome.ok_bind]
    split <;> rfl

/-- The loop of the map branch is the iteration of `map_body`. -/
theorem from_pb_impl_map_unfold (fuel : Nat) (kt vt : PbType) (val : Val) (pb_str : Bytes)
    (field_no : Nat) :
    from_pb_impl_map (fuel + 1) kt vt val pb_str field_no =
      if pb_str.isEmpty then .ok (val, pb_str)
      else map_body fuel kt vt val pb_str field_no >>= fun r =>
        if r.2.2 then from_pb_impl_map fuel kt vt r.1 r.2.1 field_no else .ok (r.1, r.2.1) := by
  simp only [from_pb_impl_map, map_body]
  split
  · rfl
  cases decode_varint pb_str with
  | throw e => rfl
  | out_of_fuel => rfl
  | ok a =>
    simp only [Outcome.ok_bind]
    cases substr pb_str a.2 with
    | throw e => rfl
    | out_of_fuel => rfl
    | ok s1 =>
      simp only [Outcome.ok_bind]
      split
      · rfl
      cases decode_pair_value fuel kt (defaultVal kt) s1 with
      | throw e => rfl
      | out_of_fuel => rfl
      | ok b =>
        simp only [Outcome.ok_bind]
        cases decode_pair_value fuel vt (defaultVal vt) b.2 with
        | throw e => rfl
        | out_of_fuel => rfl
        | ok c =>
          simp only [Outcome.ok_bind]
          split
          · rfl
          cases decode_varint c.2 with
          | throw e => rfl
          | out_of_fuel => rfl
          | ok d =>
            simp only [Outcome.ok_bind]
            split
            · rfl
            cases substr c.2 d.2 <;> rfl

/-- The nested-record branch of `from_pb_impl` reads the slice with
`nested_slice` and, unless it is empty, runs `from_pb` on it. -/
theorem from_pb_impl_reflection_unfold (fuel : Nat) (fs : List FieldDecl) (val : Val)
    (pb_str : Bytes) (field_no : Nat) :
    from_pb_impl (fuel + 1) (.reflection fs) val pb_str field_no =
      nested_slice pb_str >>= fun r =>
        if r.1.isEmpty then .ok (val, r.2)
        else from_pb fuel fs val r.1 >>= fun r1 => .ok (r1.1, r.2) := by
  simp only [from_pb_impl, nested_slice]
  cases decode_varint pb_str with
  | throw e => rfl
  | out_of_fuel => rfl
  | ok a =>
    simp only [Outcome.ok_bind]
    cases substr pb_str a.2 with
    | throw e => rfl
    | out_of_fuel => rfl
    | ok s1 =>
      simp only [Outcome.ok_bind]
      split
      · rfl
      rename_i hfits
      simp only [Outcome.ok_bind]
      by_cases hzero : a.1 % 2 ^ 32 = 0
      · rw [if_pos hzero]
        simp only [hzero, List.take_zero, List.drop_zero]
        rfl
      · have hne : (s1.take (a.1 % 2 ^ 32)).isEmpty = false := by
          cases hs : s1.take (a.1 % 2 ^ 32) with
          | nil =>
            have := congrArg List.length hs
            simp only [List.length_take, List.length_nil] at this
            omega
          | cons b bs => rfl
        rw [if_neg hzero, hne]
        simp only [Bool.false_eq_true, if_false]
        cases from_pb fuel fs val (s1.take (a.1 % 2 ^ 32)) with
        | throw e => rfl
        | out_of_fuel => rfl
        | ok r1 =>
          simp only [Outcome.ok_bind]
          rw [substr_ok (by omega)]
          rfl

/-! ## C21: termination -/

/-- An iteration of the loop of `from_pb` that does not throw leaves a
strictly shorter `pb_str`: it reads a tag. -/
theorem from_pb_body_shortens {fuel : Nat} {fs : List FieldDecl} {t : Val} {pb_str : Bytes}
    {t1 : Val} {pb1 : Bytes} (h : from_pb_body fuel fs t pb_str = .ok (t1, pb1)) :
    pb1.length < pb_str.length := by
  obtain ⟨h1, -, -, -, -, h6⟩ := noLonger fuel
  simp only [from_pb_body] at h
  obtain ⟨v, pos, -, hp, hle, h⟩ := bind_decode_varint_ok h
  try dsimp only at h
  obtain ⟨-, h⟩ := bind_substr_ok h
  try dsimp only at h
  obtain ⟨member, -, h⟩ := Outcome.bind_eq_ok h
  try dsimp only at h
  split at h
  · cases h
  split at h
  · obtain ⟨⟨slot, s1⟩, hslot, h⟩ := Outcome.bind_eq_ok h
    try dsimp only at h
    cases h
    have hs1 := h6 _ _ _ _ _ _ hslot
    simp only [List.length_drop] at hs1
    omega
  · obtain ⟨⟨slot, s1⟩, hslot, h⟩ := Outcome.bind_eq_ok h
    try dsimp only at h
    cases h
    have hs1 := h1 _ _ _ _ _ _ hslot
    simp only [List.length_drop] at hs1
    omega

/-- An iteration of the non-packed loop that does not throw never leaves a
longer `pb_str`, and leaves a strictly shorter one when the loop is entered
again: it has then read the tag of the next element. -/
theorem unpacked_body_shortens {fuel : Nat} {item : PbType} {val : Val} {pb_str : Bytes}
    {field_no : Nat} {val1 : Val} {pb1 : Bytes} {again : Bool}
    (h : unpacked_body fuel item val pb_str field_no = .ok (val1, pb1, again)) :
    pb1.length ≤ pb_str.length ∧ (again = true → pb1.length < pb_str.length) := by
  obtain ⟨h1, -, -, -, -, -⟩ := noLonger fuel
  simp only [unpacked_body] at h
  obtain ⟨⟨x, s1⟩, hitem, h⟩ := Outcome.bind_eq_ok h
  try dsimp only at h
  have hs1 := h1 _ _ _ _ _ _ hitem
  split at h
  · cases h
    exact ⟨hs1, fun h => by cases h⟩
  obtain ⟨v, pos, -, hp, hle, h⟩ := bind_decode_varint_ok h
  try dsimp only at h
  split at h
  · cases h
    exact ⟨hs1, fun h => by cases h⟩
  obtain ⟨-, h⟩ := bind_substr_ok h
  try dsimp only at h
  cases h
  simp only [List.length_drop]
  exact ⟨by omega, fun _ => by omega⟩

/-- An iteration of the packed loop that does not throw leaves a strictly
shorter `pb_str`: an element of a packed kind takes at least one byte. -/
theorem packed_body_shortens {fuel : Nat} {item : PbType} {size start : Nat} {val : Val}
    {pb_str : Bytes} {val1 : Val} {pb1 : Bytes} {again : Bool}
    (hwf : item.wf = true) (hlen : is_lenprefix_v item = false)
    (h : packed_body fuel item size start val pb_str = .ok (val1, pb1, again)) :
    pb1.length < pb_str.length := by
  simp only [packed_body] at h
  obtain ⟨⟨x, s1⟩, hitem, h⟩ := Outcome.bind_eq_ok h
  try dsimp only at h
  have hs1 := packed_item_shortens fuel _ _ _ _ _ _ hwf hlen hitem
  split at h <;> cases h <;> exact hs1

/-- An iteration of the map loop that does not throw leaves a strictly shorter
`pb_str`: it reads the length prefix of the entry. -/
theorem map_body_shortens {fuel : Nat} {kt vt : PbType} {val : Val} {pb_str : Bytes}
    {field_no : Nat} {val1 : Val} {pb1 : Bytes} {again : Bool}
    (h : map_body fuel kt vt val pb_str field_no = .ok (val1, pb1, again)) :
    pb1.length < pb_str.length := by
  obtain ⟨-, -, -, -, h5, -⟩ := noLonger fuel
  simp only [map_body] at h
  obtain ⟨v, pos, -, hp, hle, h⟩ := bind_decode_varint_ok h
  try dsimp only at h
  obtain ⟨-, h⟩ := bind_substr_ok h
  try dsimp only at h
  split at h
  · cases h
  obtain ⟨⟨first, s1⟩, hfirst, h⟩ := Outcome.bind_eq_ok h
  try dsimp only at h
  obtain ⟨⟨second, s2⟩, hsecond, h⟩ := Outcome.bind_eq_ok h
  try dsimp only at h
  have hs1 := h5 _ _ _ _ _ hfirst
  have hs2 := h5 _ _ _ _ _ hsecond
  simp only [List.length_drop] at hs1
  split at h
  · cases h
    omega
  obtain ⟨v2, pos2, -, hp2, hle2, h⟩ := bind_decode_varint_ok h
  try dsimp only at h
  split at h
  · cases h
    omega
  obtain ⟨-, h⟩ := bind_substr_ok h
  try dsimp only at h
  cases h
  simp only [List.length_drop]
  omega

/-- The buffer of a nested `from_pb` call is strictly shorter than `pb_str` of
the caller: the length prefix is not part of it. -/
theorem nested_slice_shorter {pb_str slice rest : Bytes}
    (h : nested_slice pb_str = .ok (slice, rest)) : slice.length < pb_str.length := by
  simp only [nested_slice] at h
  obtain ⟨v, pos, -, hp, hle, h⟩ := bind_decode_varint_ok h
  try dsimp only at h
  obtain ⟨-, h⟩ := bind_substr_ok h
  try dsimp only at h
  split at h
  · cases h
  cases h
  simp only [List.length_take, List.length_drop]
  omega

/-- With fuel above `enough_fuel`, `from_pb` has one outcome, a return or a
throw. -/
theorem from_pb_outcome (fs : List FieldDecl) (hwf : wfFields fs = true) (t : Val)
    (pb_str : Bytes) :
    ∃ r : Outcome (Val × Bytes), ((∃ x, r = .ok x) ∨ (∃ e, r = .throw e)) ∧
      ∀ fuel, enough_fuel pb_str.length (sizeFields fs) 1 < fuel →
        from_pb fuel fs t pb_str = r := by
  have hne := (terminates (enough_fuel pb_str.length (sizeFields fs) 1 + 1)).2.2.2.2.2.2
    fs t pb_str hwf (Nat.lt_succ_self _)
  refine ⟨from_pb (enough_fuel pb_str.length (sizeFields fs) 1 + 1) fs t pb_str, ?_, ?_⟩
  · cases hr : from_pb (enough_fuel pb_str.length (sizeFields fs) 1 + 1) fs t pb_str with
    | ok x => exact Or.inl ⟨x, rfl⟩
    | throw e => exact Or.inr ⟨e, rfl⟩
    | out_of_fuel => exact absurd hr hne
  · intro fuel hfuel
    have hle : enough_fuel pb_str.length (sizeFields fs) 1 + 1 ≤ fuel := hfuel
    rcases from_pb_fuel_le hle fs t pb_str with h | h
    · exact absurd h hne
    · exact h.symm

/-- C21 fails on the code in one clause: an iteration of the non-packed loop
can return without shortening the input. For a `std::vector<std::string_view>`
the element `F6 FF FF FF FF FF FF FF FF 01` has the length prefix
`2 ^ 64 - 10` in 10 bytes, `pos + size` wraps to 0, the size test does not
fire and `pb_str.substr(0)` keeps all 10 bytes; the bytes then read as a tag
of field `0x1FFFFFFE`, not field 7, and the loop is left by `break` with
`pb_str` as it was. Neither the iteration nor the call of `from_pb_impl`
around it throws. -/
theorem c21_unpacked_iteration_consumes_nothing :
    unpacked_body 3 .string_view (.seq [])
        [0xF6, 0xFF, 0xFF, 0xFF, 0xFF, 0xFF, 0xFF, 0xFF, 0xFF, 0x01] 7
      = .ok (.seq [.dangling (2 ^ 64 - 10)],
          [0xF6, 0xFF, 0xFF, 0xFF, 0xFF, 0xFF, 0xFF, 0xFF, 0xFF, 0x01], false) ∧
    from_pb_impl 5 (.sequence .string_view) (.seq [])
        [0xF6, 0xFF, 0xFF, 0xFF, 0xFF, 0xFF, 0xFF, 0xFF, 0xFF, 0x01] 7
      = .ok (.seq [.dangling (2 ^ 64 - 10)],
          [0xF6, 0xFF, 0xFF, 0xFF, 0xFF, 0xFF, 0xFF, 0xFF, 0xFF, 0x01]) := by
  refine ⟨by rfl, by rfl⟩

/-- Termination: `from_pb` terminates on every input. For a record type
whose fixed-width kinds have a size of at least one byte, every run with fuel
above `enough_fuel` has the same outcome, which is a return or a throw. On
every `pb_str`: an iteration of the loop of `from_pb`, of the packed loop and
of the map loop that does not throw leaves a strictly shorter `pb_str`; an
iteration of the non-packed loop that does not throw leaves a `pb_str` that is
not longer, and strictly shorter when the loop is entered again; and the
buffer handed to a nested `from_pb` is strictly shorter than `pb_str` of the
caller. (`decode_varint` of this development consumes at least one byte,
`decode_varint_pos`.) -/
theorem from_pb_terminates (fs : List FieldDecl) (hwf : wfFields fs = true) (t : Val)
    (pb_str : Bytes) :
    (∃ r : Outcome (Val × Bytes), ((∃ x, r = .ok x) ∨ (∃ e, r = .throw e)) ∧
      ∀ fuel, enough_fuel pb_str.length (sizeFields fs) 1 < fuel →
        from_pb fuel fs t pb_str = r) ∧
    (∀ fuel t1 pb1, from_pb_body fuel fs t pb_str = .ok (t1, pb1) →
      pb1.length < pb_str.length) ∧
    (∀ fuel item val field_no val1 pb1 again,
      unpacked_body fuel item val pb_str field_no = .ok (val1, pb1, again) →
      pb1.length ≤ pb_str.length ∧ (again = true → pb1.length < pb_str.length)) ∧
    (∀ fuel item size start val val1 pb1 again, item.wf = true → is_lenprefix_v item = false →
      packed_body fuel item size start val pb_str = .ok (val1, pb1, again) →
      pb1.length < pb_str.length) ∧
    (∀ fuel kt vt val field_no val1 pb1 again,
      map_body fuel kt vt val pb_str field_no = .ok (val1, pb1, again) →
      pb1.length < pb_str.length) ∧
    (∀ slice rest, nested_slice pb_str = .ok (slice, rest) →
      slice.length < pb_str.length) :=
  ⟨from_pb_outcome fs hwf t pb_str,
   fun _ _ _ h => from_pb_body_shortens h,
   fun _ _ _ _ _ _ _ h => unpacked_body_shortens h,
   fun _ _ _ _ _ _ _ _ hwf hlen h => packed_body_shortens hwf hlen h,
   fun _ _ _ _ _ _ _ _ h => map_body_shortens h,
   fun _ _ h => nested_slice_shorter h⟩

theorem from_pb_terminates_example :
    wfFields RepeatBaseTypeMsg = true ∧
    (∃ r : Outcome (Val × Bytes), ((∃ x, r = .ok x) ∨ (∃ e, r = .throw e)) ∧
      ∀ fuel, enough_fuel 12 (sizeFields RepeatBaseTypeMsg) 1 < fuel →
        from_pb fuel RepeatBaseTypeMsg (defaultVal (.reflection RepeatBaseTypeMsg))
          [0x3A, 0x01, 0x61, 0x0A, 0x01, 0x05, 0x3A, 0x01, 0x62, 0x3A, 0x01, 0x63] = r) ∧
    (∀ fuel t1 pb1,
      from_pb_body fuel RepeatBaseTypeMsg (defaultVal (.reflection RepeatBaseTypeMsg))
          [0x3A, 0x01, 0x61, 0x0A, 0x01, 0x05, 0x3A, 0x01, 0x62, 0x3A, 0x01, 0x63]
        = .ok (t1, pb1) →
      pb1.length < 12) ∧
    from_pb_body 3 RepeatBaseTypeMsg (defaultVal (.reflection RepeatBaseTypeMsg))
        [0x3A, 0x01, 0x61, 0x0A, 0x01, 0x05, 0x3A, 0x01, 0x62, 0x3A, 0x01, 0x63]
      = .ok (.record [.seq [], .seq [], .seq [], .seq [], .seq [], .seq [],
          .seq [.str [0x61]], .seq []],
          [0x0A, 0x01, 0x05, 0x3A, 0x01, 0x62, 0x3A, 0x01, 0x63]) :=
  ⟨by rfl,
   (from_pb_terminates RepeatBaseTypeMsg (by rfl)
      (defaultVal (.reflection RepeatBaseTypeMsg))
      [0x3A, 0x01, 0x61, 0x0A, 0x01, 0x05, 0x3A, 0x01, 0x62, 0x3A, 0x01, 0x63]).1,
   (from_pb_terminates RepeatBaseTypeMsg (by rfl)
      (defaultVal (.reflection RepeatBaseTypeMsg))
      [0x3A, 0x01, 0x61, 0x0A, 0x01, 0x05, 0x3A, 0x01, 0x62, 0x3A, 0x01, 0x63]).2.1,
   by rfl⟩

end Iguana
